import Mathlib

/-!
Verification development for the go-rc2sb repository: a converter from
Resource Container (RC) bundles to Scripture Burrito (SB) bundles.

The Go sources are shallowly embedded: byte strings are `List Char`
(the content is ASCII in all relevant paths), the filesystem is an
association list from path to content where a write conses a new entry
and a read returns the first match (map-overwrite semantics), and
fallible operations return `Except`.  The MD5 hash is a parameter of
every definition that records checksums: the recorded checksum is the
parameter applied to the final bytes of the destination file, which is
exactly what `sb.ComputeIngredient` does with `crypto/md5`.
-/

namespace RC2SB

/-- Byte strings of the embedded program (file contents, paths, keys). -/
abbrev Str := List Char

/-- Association-list lookup keyed by byte strings (Go map read). -/
def lookupA {α : Type} (m : List (Str × α)) (k : Str) : Option α :=
  (m.find? (fun p => p.1 == k)).map (fun p => p.2)

/-- ASCII uppercasing, the embedding of strings.ToUpper on the inputs used here. -/
def upStr (s : Str) : Str := s.map Char.toUpper

/-- ASCII lowercasing, the embedding of strings.ToLower on the inputs used here. -/
def lowStr (s : Str) : Str := s.map Char.toLower

/-- The embedding of books.LocalizedBookNames (USFM toc marker values). -/
structure LocalizedBookNames where
  long : Str
  short : Str
  abbr : Str
deriving DecidableEq

/-- The embedding of books.BookInfo. -/
structure BookInfo where
  id : Str
  code : Str
  sortOrd : Nat
  abbr : Str
  short : Str
  long : Str
deriving DecidableEq

/-- The embedding of books.AllBooks: the 66 canonical Bible books. -/
def allBooks : List BookInfo := [
  ⟨"gen".data, "GEN".data, 1, "Gen".data, "Genesis".data, "The Book of Genesis".data⟩,
  ⟨"exo".data, "EXO".data, 2, "Exo".data, "Exodus".data, "The Book of Exodus".data⟩,
  ⟨"lev".data, "LEV".data, 3, "Lev".data, "Leviticus".data, "The Book of Leviticus".data⟩,
  ⟨"num".data, "NUM".data, 4, "Num".data, "Numbers".data, "The Book of Numbers".data⟩,
  ⟨"deu".data, "DEU".data, 5, "Deu".data, "Deuteronomy".data, "The Book of Deuteronomy".data⟩,
  ⟨"jos".data, "JOS".data, 6, "Jos".data, "Joshua".data, "The Book of Joshua".data⟩,
  ⟨"jdg".data, "JDG".data, 7, "Jdg".data, "Judges".data, "The Book of Judges".data⟩,
  ⟨"rut".data, "RUT".data, 8, "Rut".data, "Ruth".data, "The Book of Ruth".data⟩,
  ⟨"1sa".data, "1SA".data, 9, "1Sa".data, "First Samuel".data, "The First Book of Samuel".data⟩,
  ⟨"2sa".data, "2SA".data, 10, "2Sa".data, "Second Samuel".data, "The Second Book of Samuel".data⟩,
  ⟨"1ki".data, "1KI".data, 11, "1Ki".data, "First Kings".data, "The First Book of Kings".data⟩,
  ⟨"2ki".data, "2KI".data, 12, "2Ki".data, "Second Kings".data, "The Second Book of Kings".data⟩,
  ⟨"1ch".data, "1CH".data, 13, "1Ch".data, "First Chronicles".data, "The First Book of the Chronicles".data⟩,
  ⟨"2ch".data, "2CH".data, 14, "2Ch".data, "Second Chronicles".data, "The Second Book of the Chronicles".data⟩,
  ⟨"ezr".data, "EZR".data, 15, "Ezr".data, "Ezra".data, "The Book of Ezra".data⟩,
  ⟨"neh".data, "NEH".data, 16, "Neh".data, "Nehemiah".data, "The Book of Nehemiah".data⟩,
  ⟨"est".data, "EST".data, 17, "Est".data, "Esther".data, "The Book of Esther".data⟩,
  ⟨"job".data, "JOB".data, 18, "Job".data, "Job".data, "The Book of Job".data⟩,
  ⟨"psa".data, "PSA".data, 19, "Psa".data, "Psalms".data, "The Book of Psalms".data⟩,
  ⟨"pro".data, "PRO".data, 20, "Pro".data, "Proverbs".data, "The Book of Proverbs".data⟩,
  ⟨"ecc".data, "ECC".data, 21, "Ecc".data, "Ecclesiastes".data, "The Book of Ecclesiastes".data⟩,
  ⟨"sng".data, "SNG".data, 22, "Sng".data, "Song of Songs".data, "The Song of Songs".data⟩,
  ⟨"isa".data, "ISA".data, 23, "Isa".data, "Isaiah".data, "The Book of Isaiah".data⟩,
  ⟨"jer".data, "JER".data, 24, "Jer".data, "Jeremiah".data, "The Book of Jeremiah".data⟩,
  ⟨"lam".data, "LAM".data, 25, "Lam".data, "Lamentations".data, "The Book of Lamentations".data⟩,
  ⟨"ezk".data, "EZK".data, 26, "Ezk".data, "Ezekiel".data, "The Book of Ezekiel".data⟩,
  ⟨"dan".data, "DAN".data, 27, "Dan".data, "Daniel".data, "The Book of Daniel".data⟩,
  ⟨"hos".data, "HOS".data, 28, "Hos".data, "Hosea".data, "The Book of Hosea".data⟩,
  ⟨"jol".data, "JOL".data, 29, "Jol".data, "Joel".data, "The Book of Joel".data⟩,
  ⟨"amo".data, "AMO".data, 30, "Amo".data, "Amos".data, "The Book of Amos".data⟩,
  ⟨"oba".data, "OBA".data, 31, "Oba".data, "Obadiah".data, "The Book of Obadiah".data⟩,
  ⟨"jon".data, "JON".data, 32, "Jon".data, "Jonah".data, "The Book of Jonah".data⟩,
  ⟨"mic".data, "MIC".data, 33, "Mic".data, "Micah".data, "The Book of Micah".data⟩,
  ⟨"nam".data, "NAM".data, 34, "Nam".data, "Nahum".data, "The Book of Nahum".data⟩,
  ⟨"hab".data, "HAB".data, 35, "Hab".data, "Habakkuk".data, "The Book of Habakkuk".data⟩,
  ⟨"zep".data, "ZEP".data, 36, "Zep".data, "Zephaniah".data, "The Book of Zephaniah".data⟩,
  ⟨"hag".data, "HAG".data, 37, "Hag".data, "Haggai".data, "The Book of Haggai".data⟩,
  ⟨"zec".data, "ZEC".data, 38, "Zec".data, "Zechariah".data, "The Book of Zechariah".data⟩,
  ⟨"mal".data, "MAL".data, 39, "Mal".data, "Malachi".data, "The Book of Malachi".data⟩,
  ⟨"mat".data, "MAT".data, 40, "Mat".data, "Matthew".data, "The Gospel of Matthew".data⟩,
  ⟨"mrk".data, "MRK".data, 41, "Mrk".data, "Mark".data, "The Gospel of Mark".data⟩,
  ⟨"luk".data, "LUK".data, 42, "Luk".data, "Luke".data, "The Gospel of Luke".data⟩,
  ⟨"jhn".data, "JHN".data, 43, "Jhn".data, "John".data, "The Gospel of John".data⟩,
  ⟨"act".data, "ACT".data, 44, "Act".data, "Acts".data, "The Acts of the Apostles".data⟩,
  ⟨"rom".data, "ROM".data, 45, "Rom".data, "Romans".data, "The Letter of Paul to the Romans".data⟩,
  ⟨"1co".data, "1CO".data, 46, "1Co".data, "First Corinthians".data, "The First Letter of Paul to the Corinthians".data⟩,
  ⟨"2co".data, "2CO".data, 47, "2Co".data, "Second Corinthians".data, "The Second Letter of Paul to the Corinthians".data⟩,
  ⟨"gal".data, "GAL".data, 48, "Gal".data, "Galatians".data, "The Letter of Paul to the Galatians".data⟩,
  ⟨"eph".data, "EPH".data, 49, "Eph".data, "Ephesians".data, "The Letter of Paul to the Ephesians".data⟩,
  ⟨"php".data, "PHP".data, 50, "Php".data, "Philippians".data, "The Letter of Paul to the Philippians".data⟩,
  ⟨"col".data, "COL".data, 51, "Col".data, "Colossians".data, "The Letter of Paul to the Colossians".data⟩,
  ⟨"1th".data, "1TH".data, 52, "1Th".data, "First Thessalonians".data, "The First Letter of Paul to the Thessalonians".data⟩,
  ⟨"2th".data, "2TH".data, 53, "2Th".data, "Second Thessalonians".data, "The Second Letter of Paul to the Thessalonians".data⟩,
  ⟨"1ti".data, "1TI".data, 54, "1Ti".data, "First Timothy".data, "The First Letter of Paul to Timothy".data⟩,
  ⟨"2ti".data, "2TI".data, 55, "2Ti".data, "Second Timothy".data, "The Second Letter of Paul to Timothy".data⟩,
  ⟨"tit".data, "TIT".data, 56, "Tit".data, "Titus".data, "The Letter of Paul to Titus".data⟩,
  ⟨"phm".data, "PHM".data, 57, "Phm".data, "Philemon".data, "The Letter of Paul to Philemon".data⟩,
  ⟨"heb".data, "HEB".data, 58, "Heb".data, "Hebrews".data, "The Letter to the Hebrews".data⟩,
  ⟨"jas".data, "JAS".data, 59, "Jas".data, "James".data, "The Letter of James".data⟩,
  ⟨"1pe".data, "1PE".data, 60, "1Pe".data, "First Peter".data, "The First Letter of Peter".data⟩,
  ⟨"2pe".data, "2PE".data, 61, "2Pe".data, "Second Peter".data, "The Second Letter of Peter".data⟩,
  ⟨"1jn".data, "1JN".data, 62, "1Jn".data, "First John".data, "The First Letter of John".data⟩,
  ⟨"2jn".data, "2JN".data, 63, "2Jn".data, "Second John".data, "The Second Letter of John".data⟩,
  ⟨"3jn".data, "3JN".data, 64, "3Jn".data, "Third John".data, "The Third Letter of John".data⟩,
  ⟨"jud".data, "JUD".data, 65, "Jud".data, "Jude".data, "The Letter of Jude".data⟩,
  ⟨"rev".data, "REV".data, 66, "Rev".data, "Revelation".data, "The Book of Revelation".data⟩]

/-- The embedding of books.ByID: lookup by lowercased identifier. -/
def byID (id : Str) : Option BookInfo :=
  allBooks.find? (fun b => b.id == lowStr id)

/-- The embedding of books.IsBookID. -/
def isBookID (id : Str) : Bool := (byID id).isSome

/-- The embedding of books.CodeFromProjectID: canonical code, else uppercased id. -/
def codeFromProjectID (id : Str) : Str :=
  match byID id with
  | some b => b.code
  | none => upStr id

/-- The embedding of sb.LocalizedName: three language-tag keyed maps.
Inserting into a Go map is modelled by consing; `lookupA` returns the
most recent binding. -/
structure LocalizedName where
  abbr : List (Str × Str)
  short : List (Str × Str)
  long : List (Str × Str)
deriving DecidableEq

/-- The embedding of books.LocalizedNameEntry: English defaults only. -/
def localizedNameEntry (id : Str) : Str × LocalizedName :=
  match byID id with
  | none => ([], ⟨[], [], []⟩)
  | some b =>
    ("book-".data ++ b.id,
      ⟨[("en".data, b.abbr)], [("en".data, b.short)], [("en".data, b.long)]⟩)

/-- The embedding of books.LocalizedNameEntryWithNames: priority chain
USFM toc markers, then manifest project title, then English defaults,
with the English/non-English bucket asymmetry. -/
def localizedNameEntryWithNames (id lang projectTitle : Str)
    (usfmNames : Option LocalizedBookNames) : Str × LocalizedName :=
  match byID id with
  | none => ([], ⟨[], [], []⟩)
  | some b =>
    let key := "book-".data ++ b.id
    let ln0 : LocalizedName :=
      ⟨[("en".data, b.abbr)], [("en".data, b.short)], [("en".data, b.long)]⟩
    if lang = "en".data then
      let ln1 :=
        match usfmNames with
        | none => ln0
        | some u =>
          let a := if u.long ≠ [] then ("en".data, u.long) :: ln0.long else ln0.long
          let s := if u.short ≠ [] then ("en".data, u.short) :: ln0.short else ln0.short
          let c := if u.abbr ≠ [] then ("en".data, u.abbr) :: ln0.abbr else ln0.abbr
          ⟨c, s, a⟩
      (key, ln1)
    else
      let localLong :=
        match usfmNames with
        | some u => if u.long ≠ [] then u.long else projectTitle
        | none => projectTitle
      let localShort :=
        match usfmNames with
        | some u => if u.short ≠ [] then u.short else projectTitle
        | none => projectTitle
      let lng := if localLong ≠ [] then (lang, localLong) :: ln0.long else ln0.long
      let sht := if localShort ≠ [] then (lang, localShort) :: ln0.short else ln0.short
      let ab :=
        match usfmNames with
        | some u => if u.abbr ≠ [] then (lang, u.abbr) :: ln0.abbr else ln0.abbr
        | none => ln0.abbr
      (key, ⟨ab, sht, lng⟩)

/-- The embedding of rc.Language. -/
structure Language where
  direction : Str
  identifier : Str
  title : Str
deriving DecidableEq

/-- The embedding of rc.DublinCore (the fields the converter reads). -/
structure DublinCore where
  identifier : Str
  issued : Str
  language : Language
  publisher : Str
  rights : Str
  subject : Str
  title : Str
deriving DecidableEq

/-- The embedding of rc.Project (the fields the converter reads). -/
structure Project where
  identifier : Str
  path : Str
  title : Str
deriving DecidableEq

/-- The embedding of rc.Manifest. -/
structure Manifest where
  dublinCore : DublinCore
  projects : List Project
deriving DecidableEq

/-- The embedding of handler.Options. -/
structure HOptions where
  payloadPath : Str
  usfmPath : Str
deriving DecidableEq

/-- The embedding of sb.CopyrightStatement. -/
structure CopyrightStatement where
  statement : Str
  mimeType : Str
  lang : Str
deriving DecidableEq

/-- The embedding of sb.Copyright. -/
structure Copyright where
  shortStatements : List CopyrightStatement
deriving DecidableEq

/-- The embedding of handler.BuildCopyright: the year is the issued date
truncated to four characters when it is at least that long. -/
def buildCopyright (m : Manifest) (isOBS : Bool) : Copyright :=
  let dc := m.dublinCore
  let year := if 4 ≤ dc.issued.length then dc.issued.take 4 else dc.issued
  if isOBS then
    ⟨[⟨"Copyright © ".data ++ year ++ " by ".data ++ dc.publisher, [], []⟩]⟩
  else
    ⟨[⟨"© ".data ++ dc.publisher ++ " ".data ++ year ++ ", ".data ++ dc.rights,
       "text/plain".data, "en".data⟩]⟩

/-- The embedding of a handler.Handler for registry purposes: the subject
string it declares.  The per-subject Convert bodies are embedded as the
standalone functions below. -/
structure Handler where
  subject : Str
deriving DecidableEq

/-- Map-assignment semantics of `registry[h.Subject()] = h`. -/
def registerH (h : Handler) (reg : List (Str × Handler)) : List (Str × Handler) :=
  (h.subject, h) :: reg.filter (fun p => !(p.1 == h.subject))

/-- The handlers registered by the subjects package init, in source order.
The TSV Translation Notes handler sits at the tail of convert_test.go
and declares exactly this subject string. -/
def registeredHandlers : List Handler := [
  ⟨"Open Bible Stories".data⟩,
  ⟨"Aligned Bible".data⟩,
  ⟨"Bible".data⟩,
  ⟨"Hebrew Old Testament".data⟩,
  ⟨"Greek New Testament".data⟩,
  ⟨"Translation Words".data⟩,
  ⟨"Translation Academy".data⟩,
  ⟨"TSV Translation Notes".data⟩,
  ⟨"TSV Translation Questions".data⟩,
  ⟨"TSV Translation Words Links".data⟩,
  ⟨"TSV OBS Study Notes".data⟩,
  ⟨"TSV OBS Study Questions".data⟩,
  ⟨"TSV OBS Translation Notes".data⟩,
  ⟨"TSV OBS Translation Questions".data⟩]

/-- The registry after all init registrations. -/
def registry : List (Str × Handler) :=
  registeredHandlers.foldl (fun reg h => registerH h reg) []

/-- Lexicographic byte order on strings, the order used by sort.Strings. -/
def strLtB : Str → Str → Bool
  | [], [] => false
  | [], _ :: _ => true
  | _ :: _, [] => false
  | a :: as, b :: bs =>
    if a.val < b.val then true else if b.val < a.val then false else strLtB as bs

/-- Insertion into a lexicographically sorted list of strings. -/
def insSorted (s : Str) : List Str → List Str
  | [] => [s]
  | t :: ts => if strLtB t s then t :: insSorted s ts else s :: t :: ts

/-- Ascending lexicographic sort, the embedding of sort.Strings. -/
def sortStrings (l : List Str) : List Str := l.foldr insSorted []

/-- The embedding of handler.SupportedSubjects: sorted registry keys. -/
def supportedSubjects : List Str := sortStrings (registry.map (fun p => p.1))

/-- Comma join used by the unsupported-subject error message. -/
def joinComma : List Str → Str
  | [] => []
  | [s] => s
  | s :: rest => s ++ ", ".data ++ joinComma rest

/-- Go %q quoting of a subject string (escape-free for the plain ASCII
subject names that occur here). -/
def quoteQ (s : Str) : Str := '"' :: s ++ ['"']

/-- The error message of handler.Lookup for an unregistered subject. -/
def lookupErrMsg (subject : Str) : Str :=
  "unsupported subject ".data ++ quoteQ subject ++
    "; supported subjects: ".data ++ joinComma supportedSubjects

/-- The embedding of handler.Lookup. -/
def lookupHandler (subject : Str) : Except Str Handler :=
  match lookupA registry subject with
  | some h => Except.ok h
  | none => Except.error (lookupErrMsg subject)

/-!  The TSV link-rewrite machinery of the TWL handler (copyTSVWithLinkRewrite).

bufio.Scanner with ScanLines splits the input at every newline byte,
drops one carriage return directly before each newline (also before the
end of input), and emits no final empty token when the input ends with a
newline.  The rewrite then joins the processed lines with single
newlines and appends a final newline exactly when the source file ended
with one.
-/

/-- Drop a single trailing carriage return, the embedding of bufio dropCR. -/
def dropCR (l : Str) : Str :=
  if l.getLast? = some '\r' then l.dropLast else l

/-- Prefix a character onto the first segment of a split. -/
def consHead (c : Char) : List Str → List Str
  | [] => [[c]]
  | l :: ls => (c :: l) :: ls

/-- Raw split at newline bytes; a string with k newlines yields k+1 segments. -/
def linesRaw : Str → List Str
  | [] => [[]]
  | c :: r => if c = '\n' then [] :: linesRaw r else consHead c (linesRaw r)

/-- Whether the byte string ends with a newline. -/
def endsNL (s : Str) : Bool := s.getLast? == some '\n'

/-- The token sequence produced by bufio.Scanner/ScanLines on the whole input. -/
def scanLines (s : Str) : List Str :=
  if s = [] then [] else
  (if endsNL s then (linesRaw s).dropLast else linesRaw s).map dropCR

/-- Match of the anchored tail of twLinkReplaceRegexp against a line
suffix that directly follows a tab: literal rc://, then one or more
non-slash characters, then literal /tw/dict/bible/, then the capture of
one or more non-tab characters extending to the end of the line.
Returns the capture when the suffix matches. -/
def matchTok (rest : Str) : Option Str :=
  if "rc://".data.isPrefixOf rest then
    let afterScheme := rest.drop 5
    let opaq := afterScheme.takeWhile (fun c => !(c == '/'))
    let tail1 := afterScheme.drop opaq.length
    if opaq = [] then none
    else if "/tw/dict/bible/".data.isPrefixOf tail1 then
      let capture := tail1.drop 15
      if capture ≠ [] ∧ '\t' ∉ capture then some capture else none
    else none
  else none

/-- Leftmost application of twLinkReplaceRegexp to one line: at the
first tab whose suffix matches to the end of the line, the tab and the
token are replaced by a tab and the payload-relative path; because the
pattern is anchored at the line end there is at most one match. -/
def rewriteLine : Str → Str
  | [] => []
  | c :: rest =>
    if c = '\t' then
      match matchTok rest with
      | some capture => '\t' :: "./payload/".data ++ capture ++ ".md".data
      | none => c :: rewriteLine rest
    else c :: rewriteLine rest

/-- Whether any position of the line starts a full match of the pattern. -/
def lineMatches : Str → Bool
  | [] => false
  | c :: rest => (c == '\t' && (matchTok rest).isSome) || lineMatches rest

/-- Join segments with single newline separators. -/
def joinNL : List Str → Str
  | [] => []
  | [l] => l
  | l :: ls => l ++ '\n' :: joinNL ls

/-- The content transformation of copyTSVWithLinkRewrite: scan lines,
rewrite each, join with newlines, and restore the trailing newline
exactly when the source had one. -/
def rewriteTSV (s : Str) : Str :=
  joinNL ((scanLines s).map rewriteLine) ++ (if endsNL s then ['\n'] else [])

/-- Count of positions where the pattern occurs as a substring. -/
def countSub (pat : Str) : Str → Nat
  | [] => 0
  | c :: rest => (if pat.isPrefixOf (c :: rest) then 1 else 0) + countSub pat rest

/-- Whether a carriage return sits directly before a newline or at the
end of the input, the situations in which the scanner drops a byte. -/
def hasSensitiveCR : Str → Bool
  | [] => false
  | c :: rest =>
    (c == '\r' && (rest.isEmpty || rest.head? == some '\n')) || hasSensitiveCR rest

/-!  Filesystem model and ingredient computation. -/

/-- The filesystem: an association list from path to byte content.  A
write conses an entry; a read returns the most recent entry, so a later
write to the same path overwrites the earlier one. -/
abbrev FS := List (Str × Str)

/-- Read the file at a path. -/
def fsLookup (fs : FS) (p : Str) : Option Str := lookupA fs p

/-- Write a file at a path. -/
def fsWrite (fs : FS) (p c : Str) : FS := (p, c) :: fs

/-- Success of os.Stat: the path is a file, or a directory in the sense
that some file lives strictly below it (the model has no empty
directories). -/
def statPath (fs : FS) (p : Str) : Bool :=
  fs.any (fun e => e.1 == p || (p ++ ['/']).isPrefixOf e.1)

/-- Whether the path is a directory: some file lives strictly below it. -/
def dirExists (fs : FS) (p : Str) : Bool :=
  fs.any (fun e => (p ++ ['/']).isPrefixOf e.1)

/-- The embedding of filepath.Join for the clean slash-free-suffix paths
used by the converter. -/
def joinPath (a b : Str) : Str := a ++ '/' :: b

/-- Strip one leading "./", the strings.TrimPrefix applied to project paths. -/
def trimDotSlash (p : Str) : Str :=
  if "./".data.isPrefixOf p then p.drop 2 else p

/-- The embedding of strings.TrimPrefix. -/
def trimPfx (pre p : Str) : Str :=
  if pre.isPrefixOf p then p.drop pre.length else p

/-- The embedding of filepath.Base for the nonempty clean paths used here. -/
def baseName (p : Str) : Str :=
  (p.reverse.takeWhile (fun c => !(c == '/'))).reverse

/-- The embedding of filepath.Ext: the suffix of the final path element
starting at its last dot, or empty when it has no dot. -/
def extName (p : Str) : Str :=
  let b := baseName p
  let t := b.reverse.takeWhile (fun c => !(c == '.'))
  if t.length = b.length then [] else '.' :: t.reverse

/-- The embedding of sb.MIMETypeForExt: fixed extension table with the
markdown label as the documented fallback. -/
def mimeTypeForExt (ext : Str) : Str :=
  let e := lowStr ext
  if e = ".md".data then "text/markdown".data
  else if e = ".usfm".data then "text/plain".data
  else if e = ".tsv".data then "text/tab-separated-values".data
  else if e = ".yaml".data ∨ e = ".yml".data then "text/yaml".data
  else if e = ".json".data then "application/json".data
  else if e = ".txt".data then "text/plain".data
  else "text/markdown".data

/-- The embedding of sb.Ingredient: MD5 checksum, MIME label, byte size,
and the optional scope map (modelled by its key set, since every value
in the map is the empty marker list). -/
structure Ingredient where
  md5 : Str
  mimeType : Str
  size : Nat
  scope : Option (List Str)
deriving DecidableEq

/-- The embedding of sb.ComputeIngredient: hash and measure the bytes of
the file at the path.  `hash` is the MD5 function, kept as a parameter
of the embedding. -/
def computeIngredient (hash : Str → Str) (fs : FS) (path : Str) : Except Str Ingredient :=
  match fsLookup fs path with
  | none => Except.error ("opening file ".data ++ path)
  | some c => Except.ok ⟨hash c, mimeTypeForExt (extName path), c.length, none⟩

/-- The embedding of sb.ComputeIngredientWithScope. -/
def computeIngredientWithScope (hash : Str → Str) (fs : FS) (path : Str)
    (scope : Option (List Str)) : Except Str Ingredient :=
  match computeIngredient hash fs path with
  | Except.error e => Except.error e
  | Except.ok ing => Except.ok { ing with scope := scope }

/-- The per-conversion mutable state: the output directory tree plus the
metadata fields the claims are about (ingredients, localizedNames and
the currentScope key set, all additively mutated by the strategies). -/
structure ConvSt where
  fs : FS
  ingredients : List (Str × Ingredient)
  localizedNames : List (Str × LocalizedName)
  currentScope : List Str
deriving DecidableEq

/-- The empty state at the start of a conversion. -/
def emptySt : ConvSt := ⟨[], [], [], []⟩

/-- The embedding of handler.CopyFileAndComputeIngredient: copy the
source bytes to outDir/key, then compute the ingredient from the
destination file just written. -/
def copyFileAndComputeIngredient (hash : Str → Str) (inFS : FS)
    (src outDir key : Str) (st : ConvSt) : Except Str ConvSt :=
  match fsLookup inFS src with
  | none => Except.error ("opening source ".data ++ src)
  | some c =>
    let dst := joinPath outDir key
    let fs2 := fsWrite st.fs dst c
    match computeIngredient hash fs2 dst with
    | Except.error e => Except.error e
    | Except.ok ing =>
      Except.ok { st with fs := fs2, ingredients := (key, ing) :: st.ingredients }

/-- The embedding of handler.CopyFileWithScope. -/
def copyFileWithScope (hash : Str → Str) (inFS : FS)
    (src outDir key : Str) (scope : Option (List Str)) (st : ConvSt) : Except Str ConvSt :=
  match fsLookup inFS src with
  | none => Except.error ("opening source ".data ++ src)
  | some c =>
    let dst := joinPath outDir key
    let fs2 := fsWrite st.fs dst c
    match computeIngredientWithScope hash fs2 dst scope with
    | Except.error e => Except.error e
    | Except.ok ing =>
      Except.ok { st with fs := fs2, ingredients := (key, ing) :: st.ingredients }

/-- The embedding of handler.copyTSVWithLinkRewrite: stream the source
through the link rewrite, write the rewritten bytes, then compute the
ingredient from the rewritten destination file. -/
def copyTSVWithLinkRewrite (hash : Str → Str) (inFS : FS)
    (src outDir key : Str) (scope : Option (List Str)) (st : ConvSt) : Except Str ConvSt :=
  match fsLookup inFS src with
  | none => Except.error ("opening source ".data ++ src)
  | some c =>
    let dst := joinPath outDir key
    let fs2 := fsWrite st.fs dst (rewriteTSV c)
    match computeIngredientWithScope hash fs2 dst scope with
    | Except.error e => Except.error e
    | Except.ok ing =>
      Except.ok { st with fs := fs2, ingredients := (key, ing) :: st.ingredients }

/-- The files strictly below a directory, in filesystem order (the walk
order only matters when two walked files map to one key, which needs
duplicate paths and cannot happen on a real tree). -/
def treeFiles (inFS : FS) (srcDir : Str) : List (Str × Str) :=
  inFS.filter (fun e => (srcDir ++ ['/']).isPrefixOf e.1)

/-- The walk loop of handler.copyTreeToIngredients. -/
def copyTreeLoop (hash : Str → Str) (inFS : FS) (srcDir outDir destPfx : Str) :
    List (Str × Str) → ConvSt → Except Str ConvSt
  | [], st => Except.ok st
  | e :: rest, st =>
    let key := destPfx ++ '/' :: e.1.drop (srcDir.length + 1)
    match copyFileAndComputeIngredient hash inFS e.1 outDir key st with
    | Except.error err => Except.error err
    | Except.ok st2 => copyTreeLoop hash inFS srcDir outDir destPfx rest st2

/-- The embedding of handler.copyTreeToIngredients: recursively copy a
directory tree below the destination prefix, recording an ingredient
per file; a missing root is a walk error.  handler.copyContentDir is
this function applied to the prefix ingredients/content. -/
def copyTreeToIngredients (hash : Str → Str) (inFS : FS)
    (srcDir outDir destPfx : Str) (st : ConvSt) : Except Str ConvSt :=
  if statPath inFS srcDir then
    copyTreeLoop hash inFS srcDir outDir destPfx (treeFiles inFS srcDir) st
  else Except.error ("walking ".data ++ srcDir)

/-- One optional root file copy of handler.CopyCommonRootFiles. -/
def copyRootFileIfPresent (hash : Str → Str) (inFS : FS)
    (inDir outDir name : Str) (st : ConvSt) : Except Str ConvSt :=
  match fsLookup inFS (joinPath inDir name) with
  | none => Except.ok st
  | some _ => copyFileAndComputeIngredient hash inFS (joinPath inDir name) outDir name st

/-- The embedding of handler.CopyCommonRootFiles: copy README.md,
.gitignore and the .gitea and .github trees when present. -/
def copyCommonRootFiles (hash : Str → Str) (inFS : FS)
    (inDir outDir : Str) (st : ConvSt) : Except Str ConvSt :=
  match copyRootFileIfPresent hash inFS inDir outDir "README.md".data st with
  | Except.error e => Except.error e
  | Except.ok st1 =>
  match copyRootFileIfPresent hash inFS inDir outDir ".gitignore".data st1 with
  | Except.error e => Except.error e
  | Except.ok st2 =>
  match (if dirExists inFS (joinPath inDir ".gitea".data) then
      copyTreeToIngredients hash inFS (joinPath inDir ".gitea".data) outDir ".gitea".data st2
    else Except.ok st2) with
  | Except.error e => Except.error e
  | Except.ok st3 =>
    if dirExists inFS (joinPath inDir ".github".data) then
      copyTreeToIngredients hash inFS (joinPath inDir ".github".data) outDir ".github".data st3
    else Except.ok st3

/-- Modelled from the spec: the fixed embedded default license text
resource; the spec treats its generation as an external collaborator,
so a fixed stand-in constant represents it here. -/
def defaultLicenseText : Str :=
  "Creative Commons Attribution-ShareAlike 4.0 International License".data

/-- Modelled from the spec: handler.CopyLicenseToRoot.  The current
common.go that defines it (exercised by the handler tests) is not under
src; per the spec it copies the bundle license, substituting the fixed
embedded default text when the source has none, to the output root
without recording an ingredient. -/
def copyLicenseToRoot (inFS : FS) (inDir outDir : Str) (st : ConvSt) : ConvSt :=
  let c := (fsLookup inFS (joinPath inDir "LICENSE.md".data)).getD defaultLicenseText
  { st with fs := fsWrite st.fs (joinPath outDir "LICENSE.md".data) c }

/-- Modelled from the spec: handler.CopyLicenseIngredient in its current
form.  The variant under src fails on a missing license, but the
repository's own tests require the embedded default to be substituted
and the conversion to succeed; per the spec, the license (or the
default) is written to ingredients/LICENSE.md and its ingredient is
computed from the written bytes. -/
def copyLicenseIngredient (hash : Str → Str) (inFS : FS)
    (inDir outDir : Str) (st : ConvSt) : Except Str ConvSt :=
  let c := (fsLookup inFS (joinPath inDir "LICENSE.md".data)).getD defaultLicenseText
  let key := "ingredients/LICENSE.md".data
  let dst := joinPath outDir key
  let fs2 := fsWrite st.fs dst c
  match computeIngredient hash fs2 dst with
  | Except.error e => Except.error e
  | Except.ok ing =>
    Except.ok { st with fs := fs2, ingredients := (key, ing) :: st.ingredients }

/-!  The TSV Translation Words Links strategy (twlHandler.Convert). -/

/-- The source path of a project file. -/
def twlSrcPath (inDir : Str) (p : Project) : Str :=
  joinPath inDir (trimDotSlash p.path)

/-- The destination filename of a TWL project: the base name with the
twl_ prefix stripped. -/
def twlDest (inDir : Str) (p : Project) : Str :=
  trimPfx "twl_".data (baseName (twlSrcPath inDir p))

/-- The scope, currentScope and localized-name bookkeeping shared
verbatim by the twl and tq per-project loop bodies.  `usfmLook` stands
for the composition of books.FindUSFMFile and books.ParseUSFMBookNames
over the USFM override directory, keyed by the lowercased project
identifier. -/
def tsvBookkeeping (usfmLook : Str → Option LocalizedBookNames)
    (opts : HOptions) (lang : Str) (p : Project) (st : ConvSt) : ConvSt :=
  let bookID := lowStr p.identifier
  let bookCode := codeFromProjectID bookID
  let st1 := { st with currentScope := bookCode :: st.currentScope }
  let names := if opts.usfmPath ≠ [] then usfmLook bookID else none
  let kn := localizedNameEntryWithNames bookID lang p.title names
  if kn.1 ≠ [] then
    { st1 with localizedNames := (kn.1, kn.2) :: st1.localizedNames }
  else st1

/-- The per-project body of the twlHandler.Convert loop. -/
def twlStep (hash : Str → Str) (usfmLook : Str → Option LocalizedBookNames)
    (inFS : FS) (inDir outDir : Str) (opts : HOptions) (lang : Str)
    (hasPayload : Bool) (p : Project) (st : ConvSt) : Except Str ConvSt :=
  let srcPath := twlSrcPath inDir p
  let key := "ingredients/".data ++ twlDest inDir p
  let bookCode := codeFromProjectID (lowStr p.identifier)
  let st2 := tsvBookkeeping usfmLook opts lang p st
  if hasPayload then
    copyTSVWithLinkRewrite hash inFS srcPath outDir key (some [bookCode]) st2
  else
    copyFileWithScope hash inFS srcPath outDir key (some [bookCode]) st2

/-- The project loop of twlHandler.Convert. -/
def twlProjects (hash : Str → Str) (usfmLook : Str → Option LocalizedBookNames)
    (inFS : FS) (inDir outDir : Str) (opts : HOptions) (lang : Str)
    (hasPayload : Bool) : List Project → ConvSt → Except Str ConvSt
  | [], st => Except.ok st
  | p :: ps, st =>
    match twlStep hash usfmLook inFS inDir outDir opts lang hasPayload p st with
    | Except.error e => Except.error e
    | Except.ok st2 =>
      twlProjects hash usfmLook inFS inDir outDir opts lang hasPayload ps st2

/-- The payload source directory chosen by twlHandler.Convert. -/
def twlPayloadDir (manifest : Manifest) (inDir : Str) (opts : HOptions) : Str :=
  if opts.payloadPath ≠ [] then joinPath opts.payloadPath "bible".data
  else
    joinPath (joinPath inDir (manifest.dublinCore.language.identifier ++ "_tw".data))
      "bible".data

/-- The embedding of twlHandler.Convert: resolve the payload source,
bulk-copy it when present, process each project TSV (rewriting links
only when a payload was selected), copy the common root files, and
record the license ingredient. -/
def twlConvert (hash : Str → Str) (usfmLook : Str → Option LocalizedBookNames)
    (manifest : Manifest) (inDir outDir : Str) (opts : HOptions) (inFS : FS) :
    Except Str ConvSt :=
  let lang := manifest.dublinCore.language.identifier
  let twBibleDir := twlPayloadDir manifest inDir opts
  let hasPayload := statPath inFS twBibleDir
  match (if hasPayload then
      copyTreeToIngredients hash inFS twBibleDir outDir "ingredients/payload".data emptySt
    else Except.ok emptySt) with
  | Except.error e => Except.error e
  | Except.ok st1 =>
  match twlProjects hash usfmLook inFS inDir outDir opts lang hasPayload
      manifest.projects st1 with
  | Except.error e => Except.error e
  | Except.ok st2 =>
  match copyCommonRootFiles hash inFS inDir outDir st2 with
  | Except.error e => Except.error e
  | Except.ok st3 => copyLicenseIngredient hash inFS inDir outDir st3

/-!  The TSV Translation Questions strategy (tqHandler.Convert). -/

/-- The destination filename of a TQ project: the base name with the
tq_ prefix stripped. -/
def tqDest (inDir : Str) (p : Project) : Str :=
  trimPfx "tq_".data (baseName (twlSrcPath inDir p))

/-- The per-project body of the tqHandler.Convert loop; a missing source
file is skipped rather than fatal. -/
def tqStep (hash : Str → Str) (usfmLook : Str → Option LocalizedBookNames)
    (inFS : FS) (inDir outDir : Str) (opts : HOptions) (lang : Str)
    (p : Project) (st : ConvSt) : Except Str ConvSt :=
  let srcPath := twlSrcPath inDir p
  if statPath inFS srcPath = false then Except.ok st
  else
    let key := "ingredients/".data ++ tqDest inDir p
    let bookCode := codeFromProjectID (lowStr p.identifier)
    let st2 := tsvBookkeeping usfmLook opts lang p st
    copyFileWithScope hash inFS srcPath outDir key (some [bookCode]) st2

/-- The project loop of tqHandler.Convert. -/
def tqProjects (hash : Str → Str) (usfmLook : Str → Option LocalizedBookNames)
    (inFS : FS) (inDir outDir : Str) (opts : HOptions) (lang : Str) :
    List Project → ConvSt → Except Str ConvSt
  | [], st => Except.ok st
  | p :: ps, st =>
    match tqStep hash usfmLook inFS inDir outDir opts lang p st with
    | Except.error e => Except.error e
    | Except.ok st2 => tqProjects hash usfmLook inFS inDir outDir opts lang ps st2

/-- The embedding of tqHandler.Convert. -/
def tqConvert (hash : Str → Str) (usfmLook : Str → Option LocalizedBookNames)
    (manifest : Manifest) (inDir outDir : Str) (opts : HOptions) (inFS : FS) :
    Except Str ConvSt :=
  let lang := manifest.dublinCore.language.identifier
  match tqProjects hash usfmLook inFS inDir outDir opts lang manifest.projects emptySt with
  | Except.error e => Except.error e
  | Except.ok st2 =>
  match copyCommonRootFiles hash inFS inDir outDir st2 with
  | Except.error e => Except.error e
  | Except.ok st3 => copyLicenseIngredient hash inFS inDir outDir st3

/-!  The USFM Bible strategy (bibleHandler.Convert). -/

/-- The embedding of handler.extractBookCode: strip the extension, then
take the part after the first dash when one is present. -/
def extractBookCode (filename : Str) : Str :=
  let name := filename.take (filename.length - (extName filename).length)
  let pre := name.takeWhile (fun c => !(c == '-'))
  if pre.length = name.length then name else name.drop (pre.length + 1)

/-- The destination filename of a Bible project: the filename book code
with the usfm extension. -/
def bibleDest (inDir : Str) (p : Project) : Str :=
  extractBookCode (baseName (twlSrcPath inDir p)) ++ ".usfm".data

/-- The currentScope and localized-name bookkeeping of the
bibleHandler.Convert loop body, performed when the project identifier
is a canonical book. -/
def bibleBookkeeping (p : Project) (st : ConvSt) : ConvSt :=
  let bookID := lowStr p.identifier
  let code := codeFromProjectID bookID
  let st1 := { st with currentScope := code :: st.currentScope }
  let kn := localizedNameEntry bookID
  if kn.1 ≠ [] then
    { st1 with localizedNames := (kn.1, kn.2) :: st1.localizedNames }
  else st1

/-- The per-project body of the bibleHandler.Convert loop: the
destination name comes from the filename book code, the scope and
localized name from the project identifier when it is a canonical book. -/
def bibleStep (hash : Str → Str) (inFS : FS) (inDir outDir : Str)
    (p : Project) (st : ConvSt) : Except Str ConvSt :=
  let srcPath := twlSrcPath inDir p
  let key := "ingredients/".data ++ bibleDest inDir p
  let bookID := lowStr p.identifier
  if isBookID bookID then
    copyFileWithScope hash inFS srcPath outDir key
      (some [codeFromProjectID bookID]) (bibleBookkeeping p st)
  else
    copyFileWithScope hash inFS srcPath outDir key none st

/-- The project loop of bibleHandler.Convert. -/
def bibleProjects (hash : Str → Str) (inFS : FS) (inDir outDir : Str) :
    List Project → ConvSt → Except Str ConvSt
  | [], st => Except.ok st
  | p :: ps, st =>
    match bibleStep hash inFS inDir outDir p st with
    | Except.error e => Except.error e
    | Except.ok st2 => bibleProjects hash inFS inDir outDir ps st2

/-- The embedding of bibleHandler.Convert. -/
def bibleConvert (hash : Str → Str) (manifest : Manifest)
    (inDir outDir : Str) (inFS : FS) : Except Str ConvSt :=
  match bibleProjects hash inFS inDir outDir manifest.projects emptySt with
  | Except.error e => Except.error e
  | Except.ok st2 =>
  match copyCommonRootFiles hash inFS inDir outDir st2 with
  | Except.error e => Except.error e
  | Except.ok st3 => copyLicenseIngredient hash inFS inDir outDir st3

/-!  The Open Bible Stories strategy (obsHandler.Convert). -/

/-- The direct children of a directory, by name (os.ReadDir). -/
def childNames (inFS : FS) (dir : Str) : List Str :=
  (((treeFiles inFS dir).map
    (fun e => (e.1.drop (dir.length + 1)).takeWhile (fun c => !(c == '/')))).dedup)

/-- The embedding of handler.isOBSExcludedEntry. -/
def isOBSExcluded (name : Str) (isDir : Bool) : Bool :=
  if isDir then ".".data.isPrefixOf name
  else
    ".yaml".data.isSuffixOf name || ".yml".data.isSuffixOf name ||
    name == "README.md".data || name == "LICENSE.md".data || name == ".gitignore".data

/-- The entry loop of handler.copyOBSRootContent: copy non-excluded
root entries into ingredients/content, walking subdirectories. -/
def obsRootEntries (hash : Str → Str) (inFS : FS) (inDir outDir : Str) :
    List Str → ConvSt → Except Str ConvSt
  | [], st => Except.ok st
  | name :: rest, st =>
    let isDir := dirExists inFS (joinPath inDir name)
    if isOBSExcluded name isDir then obsRootEntries hash inFS inDir outDir rest st
    else if isDir then
      match copyTreeToIngredients hash inFS (joinPath inDir name) outDir
        ("ingredients/content/".data ++ name) st with
      | Except.error e => Except.error e
      | Except.ok st2 => obsRootEntries hash inFS inDir outDir rest st2
    else
      match copyFileAndComputeIngredient hash inFS (joinPath inDir name) outDir
        ("ingredients/content/".data ++ name) st with
      | Except.error e => Except.error e
      | Except.ok st2 => obsRootEntries hash inFS inDir outDir rest st2

/-- The content directory chosen by obsHandler.Convert from the first
project path, defaulting to content. -/
def obsContentPath (manifest : Manifest) : Str :=
  match manifest.projects with
  | [] => "content".data
  | p :: _ =>
    let t := trimDotSlash p.path
    if t ≠ [] then t else "content".data

/-- The embedding of obsHandler.Convert: the currentScope map is fixed
to the single key GEN at type-descriptor construction, root files and
the root license are copied, the story content is relocated below
ingredients/content without any per-file scope, and the license
ingredient is recorded last. -/
def obsConvert (hash : Str → Str) (manifest : Manifest)
    (inDir outDir : Str) (inFS : FS) : Except Str ConvSt :=
  let st0 : ConvSt := ⟨[], [], [], ["GEN".data]⟩
  match copyCommonRootFiles hash inFS inDir outDir st0 with
  | Except.error e => Except.error e
  | Except.ok st1 =>
  let st2 := copyLicenseToRoot inFS inDir outDir st1
  let contentPath := obsContentPath manifest
  match (if contentPath = ".".data then
      obsRootEntries hash inFS inDir outDir (childNames inFS inDir) st2
    else
      copyTreeToIngredients hash inFS (joinPath inDir contentPath) outDir
        "ingredients/content".data st2) with
  | Except.error e => Except.error e
  | Except.ok st3 => copyLicenseIngredient hash inFS inDir outDir st3

/-!  The Translation Words strategy (twHandler.Convert). -/

/-- The reference-token scheme prefix of the rewrite pattern. -/
def rcPat : Str := "rc://".data

/-- The payload-relative prefix produced by the rewrite. -/
def payloadPat : Str := "./payload/".data

/-- A full reference token as matched by twLinkReplaceRegexp after the
tab: the scheme, an opaque segment, the fixed dictionary path, and the
captured category/article part. -/
def tokenOf (opq cat art : Str) : Str :=
  "rc://".data ++ opq ++ '/' :: "tw/dict/bible/".data ++ (cat ++ '/' :: art)

/-- The on-disk consistency invariant of a conversion state: every
recorded ingredient key denotes a file below the output directory whose
byte size and MD5 hash match the Ingredient record. -/
def IngOK (hash : Str → Str) (outDir : Str) (st : ConvSt) : Prop :=
  ∀ k ing, lookupA st.ingredients k = some ing →
    ∃ c, fsLookup st.fs (joinPath outDir k) = some c ∧
      ing.size = c.length ∧ ing.md5 = hash c

/-- No recorded ingredient key is the bare root license name (the one
path a strategy writes without recording an ingredient). -/
def NotLicKeys (st : ConvSt) : Prop :=
  ∀ k ing, lookupA st.ingredients k = some ing → k ≠ "LICENSE.md".data

/-- The combined state invariant threaded through every strategy. -/
def StInv (hash : Str → Str) (outDir : Str) (st : ConvSt) : Prop :=
  IngOK hash outDir st ∧ NotLicKeys st

/-- The state produced by one copy-and-record step: the content is
written below the output directory and the ingredient computed from the
written bytes is recorded under the key. -/
def recSt (hash : Str → Str) (outDir key c : Str) (scope : Option (List Str))
    (st : ConvSt) : ConvSt :=
  ⟨fsWrite st.fs (joinPath outDir key) c,
   (key, ⟨hash c, mimeTypeForExt (extName (joinPath outDir key)), c.length, scope⟩) ::
     st.ingredients,
   st.localizedNames, st.currentScope⟩

/-- The currentScope/ingredient-scope agreement invariant: every
declared scope code is carried by the scope of some recorded ingredient
whose key avoids a reserved set, starts like an ingredients key and
ends like a usfm filename (so that later bookkeeping steps cannot
overwrite the witness). -/
def ScopeOK (st : ConvSt) (avoid : List Str) : Prop :=
  ∀ code ∈ st.currentScope, ∃ k ing l,
    lookupA st.ingredients k = some ing ∧ ing.scope = some l ∧ code ∈ l ∧
    k ∉ avoid ∧ k.head? = some 'i' ∧ k.getLast? = some 'm'

/-- Every recorded localized-name key names a canonical book. -/
def LNOK (st : ConvSt) : Prop :=
  ∀ k ln, lookupA st.localizedNames k = some ln →
    ∃ b ∈ allBooks, k = "book-".data ++ b.id

/-- A description of one tabular line as the claims state it: either a
line free of reference tokens and payload prefixes, or a line whose
last column, after the final tab, is one reference token. -/
inductive LineDesc where
  | plain (l : Str)
  | token (pre opq cat art : Str)
deriving DecidableEq

/-- The bytes of a described line. -/
def descLine : LineDesc → Str
  | .plain l => l
  | .token pre opq cat art => pre ++ '\t' :: tokenOf opq cat art

/-- The described line after the link rewrite: a token line's tab and
token become a tab and the payload-relative markdown path. -/
def descRewritten : LineDesc → Str
  | .plain l => l
  | .token pre _ cat art =>
    pre ++ '\t' :: ("./payload/".data ++ (cat ++ '/' :: art) ++ ".md".data)

/-- Wellformedness of a described line: token pieces are shaped as the
pattern demands, the scheme and payload prefixes occur nowhere except
as the token itself, and the line is free of newline bytes and of a
trailing carriage return. -/
def descOK : LineDesc → Prop
  | .plain l =>
    countSub rcPat l = 0 ∧ countSub payloadPat l = 0 ∧ lineMatches l = false ∧
    '\n' ∉ l ∧ l.getLast? ≠ some '\r'
  | .token pre opq cat art =>
    countSub rcPat pre = 0 ∧ countSub payloadPat pre = 0 ∧
    countSub rcPat opq = 0 ∧
    countSub rcPat (cat ++ '/' :: art) = 0 ∧
    countSub payloadPat (cat ++ '/' :: art) = 0 ∧
    opq ≠ [] ∧ '/' ∉ opq ∧ (cat ++ '/' :: art) ≠ [] ∧ '\t' ∉ (cat ++ '/' :: art) ∧
    '\n' ∉ pre ∧ '\n' ∉ opq ∧ '\n' ∉ (cat ++ '/' :: art) ∧
    (cat ++ '/' :: art).getLast? ≠ some '\r'

instance : ∀ d : LineDesc, Decidable (descOK d)
  | .plain l => by unfold descOK; infer_instance
  | .token pre opq cat art => by unfold descOK; infer_instance

/-- Whether the described line carries a token. -/
def descIsToken : LineDesc → Bool
  | .plain _ => false
  | .token _ _ _ _ => true

/-- A file with one trailing newline assembled from its lines. -/
def mkFile (ls : List Str) : Str := joinNL ls ++ ['\n']

/-!  Basic lemmas about the map and filesystem model. -/

theorem lookupA_cons_self {α : Type} (m : List (Str × α)) (k : Str) (v : α) :
    lookupA ((k, v) :: m) k = some v := by
  simp [lookupA]

theorem lookupA_cons_ne {α : Type} (m : List (Str × α)) {k k' : Str} (v : α)
    (h : k' ≠ k) : lookupA ((k, v) :: m) k' = lookupA m k' := by
  simp only [lookupA, List.find?]
  have : (k == k') = false := by
    exact beq_false_of_ne (fun e => h e.symm)
  simp [this]

theorem fsLookup_write_self (fs : FS) (p c : Str) :
    fsLookup (fsWrite fs p c) p = some c :=
  lookupA_cons_self fs p c

theorem fsLookup_write_ne (fs : FS) {p q : Str} (c : Str) (h : q ≠ p) :
    fsLookup (fsWrite fs p c) q = fsLookup fs q :=
  lookupA_cons_ne fs c h

theorem joinPath_inj {d a b : Str} (h : joinPath d a = joinPath d b) : a = b := by
  have h2 := List.append_cancel_left h
  exact List.tail_eq_of_cons_eq h2

theorem ne_of_head? {a b : Str} (h : a.head? ≠ b.head?) : a ≠ b :=
  fun e => h (by rw [e])

theorem ne_of_mem_notMem {c : Char} {a b : Str} (h1 : c ∈ a) (h2 : c ∉ b) : a ≠ b :=
  fun e => h2 (e ▸ h1)

theorem computeIngredient_write (hash : Str → Str) (fs : FS) (dst c : Str) :
    computeIngredient hash (fsWrite fs dst c) dst =
      Except.ok ⟨hash c, mimeTypeForExt (extName dst), c.length, none⟩ := by
  simp [computeIngredient, fsLookup_write_self]

theorem computeIngredientWithScope_write (hash : Str → Str) (fs : FS) (dst c : Str)
    (scope : Option (List Str)) :
    computeIngredientWithScope hash (fsWrite fs dst c) dst scope =
      Except.ok ⟨hash c, mimeTypeForExt (extName dst), c.length, scope⟩ := by
  simp [computeIngredientWithScope, computeIngredient_write]

/-!  Inversion of the copy helpers into the record-step normal form. -/

theorem copyFileACI_ok {hash : Str → Str} {inFS : FS} {src outDir key : Str}
    {st st2 : ConvSt}
    (h : copyFileAndComputeIngredient hash inFS src outDir key st = Except.ok st2) :
    ∃ c, fsLookup inFS src = some c ∧ st2 = recSt hash outDir key c none st := by
  unfold copyFileAndComputeIngredient at h
  cases hc : fsLookup inFS src with
  | none => rw [hc] at h; exact absurd h (by simp)
  | some c =>
    rw [hc] at h
    dsimp only at h
    rw [computeIngredient_write] at h
    refine ⟨c, rfl, ?_⟩
    cases h
    rfl

theorem copyFileWS_ok {hash : Str → Str} {inFS : FS} {src outDir key : Str}
    {scope : Option (List Str)} {st st2 : ConvSt}
    (h : copyFileWithScope hash inFS src outDir key scope st = Except.ok st2) :
    ∃ c, fsLookup inFS src = some c ∧ st2 = recSt hash outDir key c scope st := by
  unfold copyFileWithScope at h
  cases hc : fsLookup inFS src with
  | none => rw [hc] at h; exact absurd h (by simp)
  | some c =>
    rw [hc] at h
    dsimp only at h
    rw [computeIngredientWithScope_write] at h
    refine ⟨c, rfl, ?_⟩
    cases h
    rfl

theorem copyTSV_ok {hash : Str → Str} {inFS : FS} {src outDir key : Str}
    {scope : Option (List Str)} {st st2 : ConvSt}
    (h : copyTSVWithLinkRewrite hash inFS src outDir key scope st = Except.ok st2) :
    ∃ c, fsLookup inFS src = some c ∧
      st2 = recSt hash outDir key (rewriteTSV c) scope st := by
  unfold copyTSVWithLinkRewrite at h
  cases hc : fsLookup inFS src with
  | none => rw [hc] at h; exact absurd h (by simp)
  | some c =>
    rw [hc] at h
    dsimp only at h
    rw [computeIngredientWithScope_write] at h
    refine ⟨c, rfl, ?_⟩
    cases h
    rfl

theorem copyLicenseIngredient_ok {hash : Str → Str} {inFS : FS} {inDir outDir : Str}
    {st st2 : ConvSt}
    (h : copyLicenseIngredient hash inFS inDir outDir st = Except.ok st2) :
    st2 = recSt hash outDir ("ingredients/LICENSE.md".data)
      ((fsLookup inFS (joinPath inDir "LICENSE.md".data)).getD defaultLicenseText)
      none st := by
  unfold copyLicenseIngredient at h
  dsimp only at h
  rw [computeIngredient_write] at h
  cases h
  rfl

/-!  Preservation of the state invariant by the record step. -/

theorem IngOK_recSt {hash : Str → Str} {outDir : Str} {st : ConvSt}
    (h : IngOK hash outDir st) (key c : Str) (scope : Option (List Str)) :
    IngOK hash outDir (recSt hash outDir key c scope st) := by
  intro k ing hk
  by_cases e : k = key
  · subst e
    rw [recSt] at hk
    simp only [lookupA_cons_self] at hk
    cases hk
    exact ⟨c, fsLookup_write_self _ _ _, rfl, rfl⟩
  · rw [recSt] at hk
    rw [lookupA_cons_ne _ _ e] at hk
    obtain ⟨c0, hc0, hsz, hmd⟩ := h k ing hk
    refine ⟨c0, ?_, hsz, hmd⟩
    show fsLookup (fsWrite st.fs (joinPath outDir key) c) (joinPath outDir k) = some c0
    rw [fsLookup_write_ne _ _ (fun q => e (joinPath_inj q))]
    exact hc0

theorem NotLic_recSt {st : ConvSt} (h : NotLicKeys st) {key : Str}
    (hkey : key ≠ "LICENSE.md".data) (hash : Str → Str) (outDir c : Str)
    (scope : Option (List Str)) :
    NotLicKeys (recSt hash outDir key c scope st) := by
  intro k ing hk
  by_cases e : k = key
  · subst e; exact hkey
  · rw [recSt] at hk
    rw [lookupA_cons_ne _ _ e] at hk
    exact h k ing hk

theorem StInv_recSt {hash : Str → Str} {outDir : Str} {st : ConvSt}
    (h : StInv hash outDir st) {key : Str} (hkey : key ≠ "LICENSE.md".data)
    (c : Str) (scope : Option (List Str)) :
    StInv hash outDir (recSt hash outDir key c scope st) :=
  ⟨IngOK_recSt h.1 key c scope, NotLic_recSt h.2 hkey hash outDir c scope⟩

/-- Keys below a destination prefix contain a slash and so never equal
the root license name. -/
theorem slashKey_ne_lic (a b : Str) :
    a ++ '/' :: b ≠ "LICENSE.md".data := by
  apply ne_of_mem_notMem (c := '/')
  · exact List.mem_append_right a (List.mem_cons_self _ _)
  · decide

/-- An ingredients key never equals the root license name. -/
theorem ingKey_ne_lic (d : Str) :
    "ingredients/".data ++ d ≠ "LICENSE.md".data := by
  apply ne_of_head?
  intro h
  rw [show (("ingredients/".data ++ d).head? : Option Char) = some 'i' from rfl] at h
  exact absurd h (by decide)

/-!  Bookkeeping projections and bind inversion. -/

theorem bind_ok {α β : Type} {x : Except Str α} {f : α → Except Str β} {b : β}
    (h : (x >>= f) = Except.ok b) : ∃ a, x = Except.ok a ∧ f a = Except.ok b := by
  cases x with
  | error e => exact absurd h (by simp [Bind.bind, Except.bind])
  | ok a => exact ⟨a, rfl, by simpa [Bind.bind, Except.bind] using h⟩

theorem tsvBookkeeping_fs (usfmLook : Str → Option LocalizedBookNames)
    (opts : HOptions) (lang : Str) (p : Project) (st : ConvSt) :
    (tsvBookkeeping usfmLook opts lang p st).fs = st.fs := by
  unfold tsvBookkeeping
  dsimp only
  split <;> split <;> rfl

theorem tsvBookkeeping_ingredients (usfmLook : Str → Option LocalizedBookNames)
    (opts : HOptions) (lang : Str) (p : Project) (st : ConvSt) :
    (tsvBookkeeping usfmLook opts lang p st).ingredients = st.ingredients := by
  unfold tsvBookkeeping
  dsimp only
  split <;> split <;> rfl

theorem tsvBookkeeping_currentScope (usfmLook : Str → Option LocalizedBookNames)
    (opts : HOptions) (lang : Str) (p : Project) (st : ConvSt) :
    (tsvBookkeeping usfmLook opts lang p st).currentScope =
      codeFromProjectID (lowStr p.identifier) :: st.currentScope := by
  unfold tsvBookkeeping
  dsimp only
  split <;> split <;> rfl

theorem bibleBookkeeping_fs (p : Project) (st : ConvSt) :
    (bibleBookkeeping p st).fs = st.fs := by
  unfold bibleBookkeeping
  dsimp only
  split <;> rfl

theorem bibleBookkeeping_ingredients (p : Project) (st : ConvSt) :
    (bibleBookkeeping p st).ingredients = st.ingredients := by
  unfold bibleBookkeeping
  dsimp only
  split <;> rfl

theorem bibleBookkeeping_currentScope (p : Project) (st : ConvSt) :
    (bibleBookkeeping p st).currentScope =
      codeFromProjectID (lowStr p.identifier) :: st.currentScope := by
  unfold bibleBookkeeping
  dsimp only
  split <;> rfl

theorem StInv_of_projEq {hash : Str → Str} {outDir : Str} {st st' : ConvSt}
    (hf : st'.fs = st.fs) (hi : st'.ingredients = st.ingredients)
    (hs : StInv hash outDir st) : StInv hash outDir st' := by
  constructor
  · intro k ing hk
    rw [hi] at hk
    obtain ⟨c, hc, h1, h2⟩ := hs.1 k ing hk
    exact ⟨c, by rw [hf]; exact hc, h1, h2⟩
  · intro k ing hk
    rw [hi] at hk
    exact hs.2 k ing hk

/-!  Preservation of the state invariant by every strategy step. -/

theorem StInv_copyFileACI {hash : Str → Str} {inFS : FS} {src outDir key : Str}
    {st st2 : ConvSt} (hkey : key ≠ "LICENSE.md".data)
    (h : copyFileAndComputeIngredient hash inFS src outDir key st = Except.ok st2)
    (hs : StInv hash outDir st) : StInv hash outDir st2 := by
  obtain ⟨c, _, rfl⟩ := copyFileACI_ok h
  exact StInv_recSt hs hkey c none

theorem StInv_copyFileWS {hash : Str → Str} {inFS : FS} {src outDir key : Str}
    {scope : Option (List Str)} {st st2 : ConvSt} (hkey : key ≠ "LICENSE.md".data)
    (h : copyFileWithScope hash inFS src outDir key scope st = Except.ok st2)
    (hs : StInv hash outDir st) : StInv hash outDir st2 := by
  obtain ⟨c, _, rfl⟩ := copyFileWS_ok h
  exact StInv_recSt hs hkey c scope

theorem StInv_copyTSV {hash : Str → Str} {inFS : FS} {src outDir key : Str}
    {scope : Option (List Str)} {st st2 : ConvSt} (hkey : key ≠ "LICENSE.md".data)
    (h : copyTSVWithLinkRewrite hash inFS src outDir key scope st = Except.ok st2)
    (hs : StInv hash outDir st) : StInv hash outDir st2 := by
  obtain ⟨c, _, rfl⟩ := copyTSV_ok h
  exact StInv_recSt hs hkey (rewriteTSV c) scope

theorem StInv_copyTreeLoop {hash : Str → Str} {inFS : FS}
    {srcDir outDir destPfx : Str} :
    ∀ (files : List (Str × Str)) {st st2 : ConvSt},
      copyTreeLoop hash inFS srcDir outDir destPfx files st = Except.ok st2 →
      StInv hash outDir st → StInv hash outDir st2
  | [], st, st2, h, hs => by
    cases h
    exact hs
  | e :: rest, st, st2, h, hs => by
    unfold copyTreeLoop at h
    dsimp only at h
    cases hc : copyFileAndComputeIngredient hash inFS e.1 outDir
        (destPfx ++ '/' :: e.1.drop (srcDir.length + 1)) st with
    | error err => rw [hc] at h; exact absurd h (by simp)
    | ok stA =>
      rw [hc] at h
      exact StInv_copyTreeLoop rest h (StInv_copyFileACI (slashKey_ne_lic _ _) hc hs)

theorem StInv_copyTree {hash : Str → Str} {inFS : FS}
    {srcDir outDir destPfx : Str} {st st2 : ConvSt}
    (h : copyTreeToIngredients hash inFS srcDir outDir destPfx st = Except.ok st2)
    (hs : StInv hash outDir st) : StInv hash outDir st2 := by
  unfold copyTreeToIngredients at h
  split at h
  · exact StInv_copyTreeLoop _ h hs
  · exact absurd h (by simp)

theorem StInv_copyRootFile {hash : Str → Str} {inFS : FS} {inDir outDir name : Str}
    {st st2 : ConvSt} (hname : name ≠ "LICENSE.md".data)
    (h : copyRootFileIfPresent hash inFS inDir outDir name st = Except.ok st2)
    (hs : StInv hash outDir st) : StInv hash outDir st2 := by
  unfold copyRootFileIfPresent at h
  split at h
  · cases h; exact hs
  · exact StInv_copyFileACI hname h hs

theorem StInv_copyCommonRootFiles {hash : Str → Str} {inFS : FS} {inDir outDir : Str}
    {st st2 : ConvSt}
    (h : copyCommonRootFiles hash inFS inDir outDir st = Except.ok st2)
    (hs : StInv hash outDir st) : StInv hash outDir st2 := by
  unfold copyCommonRootFiles at h
  cases h1 : copyRootFileIfPresent hash inFS inDir outDir "README.md".data st with
  | error e => rw [h1] at h; exact absurd h (by simp)
  | ok s1 =>
  rw [h1] at h
  dsimp only at h
  cases h2 : copyRootFileIfPresent hash inFS inDir outDir ".gitignore".data s1 with
  | error e => rw [h2] at h; exact absurd h (by simp)
  | ok s2 =>
  rw [h2] at h
  dsimp only at h
  cases h3 : (if dirExists inFS (joinPath inDir ".gitea".data) then
      copyTreeToIngredients hash inFS (joinPath inDir ".gitea".data) outDir ".gitea".data s2
    else Except.ok s2) with
  | error e => rw [h3] at h; exact absurd h (by simp)
  | ok s3 =>
  rw [h3] at h
  dsimp only at h
  have i1 := StInv_copyRootFile (by decide) h1 hs
  have i2 := StInv_copyRootFile (by decide) h2 i1
  have i3 : StInv hash outDir s3 := by
    split at h3
    · exact StInv_copyTree h3 i2
    · cases h3; exact i2
  split at h
  · exact StInv_copyTree h i3
  · cases h; exact i3

theorem StInv_copyLicenseIngredient {hash : Str → Str} {inFS : FS}
    {inDir outDir : Str} {st st2 : ConvSt}
    (h : copyLicenseIngredient hash inFS inDir outDir st = Except.ok st2)
    (hs : StInv hash outDir st) : StInv hash outDir st2 := by
  rw [copyLicenseIngredient_ok h]
  exact StInv_recSt hs (by decide) _ none

theorem StInv_copyLicenseToRoot {hash : Str → Str} {outDir : Str} (inFS : FS)
    (inDir : Str) {st : ConvSt} (hs : StInv hash outDir st) :
    StInv hash outDir (copyLicenseToRoot inFS inDir outDir st) := by
  constructor
  · intro k ing hk
    have hk0 : lookupA st.ingredients k = some ing := hk
    obtain ⟨c0, hc0, h1, h2⟩ := hs.1 k ing hk0
    refine ⟨c0, ?_, h1, h2⟩
    show fsLookup (fsWrite st.fs (joinPath outDir "LICENSE.md".data) _)
      (joinPath outDir k) = some c0
    rw [fsLookup_write_ne _ _ (fun q => hs.2 k ing hk0 (joinPath_inj q))]
    exact hc0
  · intro k ing hk
    exact hs.2 k ing hk

theorem StInv_twlStep {hash : Str → Str} {usfmLook : Str → Option LocalizedBookNames}
    {inFS : FS} {inDir outDir : Str} {opts : HOptions} {lang : Str}
    {hasPayload : Bool} {p : Project} {st st2 : ConvSt}
    (h : twlStep hash usfmLook inFS inDir outDir opts lang hasPayload p st = Except.ok st2)
    (hs : StInv hash outDir st) : StInv hash outDir st2 := by
  unfold twlStep at h
  dsimp only at h
  have hsM : StInv hash outDir (tsvBookkeeping usfmLook opts lang p st) :=
    StInv_of_projEq (tsvBookkeeping_fs _ _ _ _ _) (tsvBookkeeping_ingredients _ _ _ _ _) hs
  cases hasPayload with
  | true =>
    rw [if_pos rfl] at h
    exact StInv_copyTSV (ingKey_ne_lic _) h hsM
  | false =>
    rw [if_neg (by decide)] at h
    exact StInv_copyFileWS (ingKey_ne_lic _) h hsM

theorem StInv_twlProjects {hash : Str → Str} {usfmLook : Str → Option LocalizedBookNames}
    {inFS : FS} {inDir outDir : Str} {opts : HOptions} {lang : Str}
    {hasPayload : Bool} :
    ∀ (ps : List Project) {st st2 : ConvSt},
      twlProjects hash usfmLook inFS inDir outDir opts lang hasPayload ps st = Except.ok st2 →
      StInv hash outDir st → StInv hash outDir st2
  | [], st, st2, h, hs => by cases h; exact hs
  | p :: ps, st, st2, h, hs => by
    unfold twlProjects at h
    cases hc : twlStep hash usfmLook inFS inDir outDir opts lang hasPayload p st with
    | error e => rw [hc] at h; exact absurd h (by simp)
    | ok stA =>
      rw [hc] at h
      exact StInv_twlProjects ps h (StInv_twlStep hc hs)

theorem StInv_tqStep {hash : Str → Str} {usfmLook : Str → Option LocalizedBookNames}
    {inFS : FS} {inDir outDir : Str} {opts : HOptions} {lang : Str}
    {p : Project} {st st2 : ConvSt}
    (h : tqStep hash usfmLook inFS inDir outDir opts lang p st = Except.ok st2)
    (hs : StInv hash outDir st) : StInv hash outDir st2 := by
  unfold tqStep at h
  dsimp only at h
  split at h
  · cases h; exact hs
  · have hsM : StInv hash outDir (tsvBookkeeping usfmLook opts lang p st) :=
      StInv_of_projEq (tsvBookkeeping_fs _ _ _ _ _) (tsvBookkeeping_ingredients _ _ _ _ _) hs
    exact StInv_copyFileWS (ingKey_ne_lic _) h hsM

theorem StInv_tqProjects {hash : Str → Str} {usfmLook : Str → Option LocalizedBookNames}
    {inFS : FS} {inDir outDir : Str} {opts : HOptions} {lang : Str} :
    ∀ (ps : List Project) {st st2 : ConvSt},
      tqProjects hash usfmLook inFS inDir outDir opts lang ps st = Except.ok st2 →
      StInv hash outDir st → StInv hash outDir st2
  | [], st, st2, h, hs => by cases h; exact hs
  | p :: ps, st, st2, h, hs => by
    unfold tqProjects at h
    cases hc : tqStep hash usfmLook inFS inDir outDir opts lang p st with
    | error e => rw [hc] at h; exact absurd h (by simp)
    | ok stA =>
      rw [hc] at h
      exact StInv_tqProjects ps h (StInv_tqStep hc hs)

theorem StInv_bibleStep {hash : Str → Str} {inFS : FS} {inDir outDir : Str}
    {p : Project} {st st2 : ConvSt}
    (h : bibleStep hash inFS inDir outDir p st = Except.ok st2)
    (hs : StInv hash outDir st) : StInv hash outDir st2 := by
  unfold bibleStep at h
  dsimp only at h
  split at h
  · have hsM : StInv hash outDir (bibleBookkeeping p st) :=
      StInv_of_projEq (bibleBookkeeping_fs _ _) (bibleBookkeeping_ingredients _ _) hs
    exact StInv_copyFileWS (ingKey_ne_lic _) h hsM
  · exact StInv_copyFileWS (ingKey_ne_lic _) h hs

theorem StInv_bibleProjects {hash : Str → Str} {inFS : FS} {inDir outDir : Str} :
    ∀ (ps : List Project) {st st2 : ConvSt},
      bibleProjects hash inFS inDir outDir ps st = Except.ok st2 →
      StInv hash outDir st → StInv hash outDir st2
  | [], st, st2, h, hs => by cases h; exact hs
  | p :: ps, st, st2, h, hs => by
    unfold bibleProjects at h
    cases hc : bibleStep hash inFS inDir outDir p st with
    | error e => rw [hc] at h; exact absurd h (by simp)
    | ok stA =>
      rw [hc] at h
      exact StInv_bibleProjects ps h (StInv_bibleStep hc hs)

theorem StInv_obsRootEntries {hash : Str → Str} {inFS : FS} {inDir outDir : Str} :
    ∀ (names : List Str) {st st2 : ConvSt},
      obsRootEntries hash inFS inDir outDir names st = Except.ok st2 →
      StInv hash outDir st → StInv hash outDir st2
  | [], st, st2, h, hs => by cases h; exact hs
  | name :: rest, st, st2, h, hs => by
    unfold obsRootEntries at h
    dsimp only at h
    by_cases hex : isOBSExcluded name (dirExists inFS (joinPath inDir name)) = true
    · rw [if_pos hex] at h
      exact StInv_obsRootEntries rest h hs
    · rw [if_neg hex] at h
      by_cases hd : dirExists inFS (joinPath inDir name) = true
      · rw [if_pos hd] at h
        cases hc : copyTreeToIngredients hash inFS (joinPath inDir name) outDir
            ("ingredients/content/".data ++ name) st with
        | error e => rw [hc] at h; exact absurd h (by simp)
        | ok stA =>
          rw [hc] at h
          dsimp only at h
          exact StInv_obsRootEntries rest h (StInv_copyTree hc hs)
      · rw [if_neg hd] at h
        cases hc : copyFileAndComputeIngredient hash inFS (joinPath inDir name) outDir
            ("ingredients/content/".data ++ name) st with
        | error e => rw [hc] at h; exact absurd h (by simp)
        | ok stA =>
          rw [hc] at h
          dsimp only at h
          have : ("ingredients/content/".data ++ name) ≠ "LICENSE.md".data := by
            apply ne_of_head?
            intro hh
            rw [show (("ingredients/content/".data ++ name).head? : Option Char) =
              some 'i' from rfl] at hh
            exact absurd hh (by decide)
          exact StInv_obsRootEntries rest h (StInv_copyFileACI this hc hs)

/-!  Conversion-level consistency: the on-disk invariant holds for every
state a strategy returns. -/

theorem StInv_emptySt (hash : Str → Str) (outDir : Str) : StInv hash outDir emptySt := by
  constructor
  · intro k ing hk
    exact absurd hk (by simp [emptySt, lookupA])
  · intro k ing hk
    exact absurd hk (by simp [emptySt, lookupA])

theorem twlConvert_StInv {hash : Str → Str} {usfmLook : Str → Option LocalizedBookNames}
    {manifest : Manifest} {inDir outDir : Str} {opts : HOptions} {inFS : FS}
    {st : ConvSt}
    (h : twlConvert hash usfmLook manifest inDir outDir opts inFS = Except.ok st) :
    StInv hash outDir st := by
  unfold twlConvert at h
  dsimp only at h
  cases h1 : (if statPath inFS (twlPayloadDir manifest inDir opts) then
      copyTreeToIngredients hash inFS (twlPayloadDir manifest inDir opts) outDir
        "ingredients/payload".data emptySt
    else Except.ok emptySt) with
  | error e => rw [h1] at h; exact absurd h (by simp)
  | ok s1 =>
  rw [h1] at h
  dsimp only at h
  cases h2 : twlProjects hash usfmLook inFS inDir outDir opts
      manifest.dublinCore.language.identifier
      (statPath inFS (twlPayloadDir manifest inDir opts)) manifest.projects s1 with
  | error e => rw [h2] at h; exact absurd h (by simp)
  | ok s2 =>
  rw [h2] at h
  dsimp only at h
  cases h3 : copyCommonRootFiles hash inFS inDir outDir s2 with
  | error e => rw [h3] at h; exact absurd h (by simp)
  | ok s3 =>
  rw [h3] at h
  dsimp only at h
  have i1 : StInv hash outDir s1 := by
    split at h1
    · exact StInv_copyTree h1 (StInv_emptySt hash outDir)
    · cases h1; exact StInv_emptySt hash outDir
  have i2 := StInv_twlProjects _ h2 i1
  have i3 := StInv_copyCommonRootFiles h3 i2
  exact StInv_copyLicenseIngredient h i3

theorem tqConvert_StInv {hash : Str → Str} {usfmLook : Str → Option LocalizedBookNames}
    {manifest : Manifest} {inDir outDir : Str} {opts : HOptions} {inFS : FS}
    {st : ConvSt}
    (h : tqConvert hash usfmLook manifest inDir outDir opts inFS = Except.ok st) :
    StInv hash outDir st := by
  unfold tqConvert at h
  dsimp only at h
  cases h2 : tqProjects hash usfmLook inFS inDir outDir opts
      manifest.dublinCore.language.identifier manifest.projects emptySt with
  | error e => rw [h2] at h; exact absurd h (by simp)
  | ok s2 =>
  rw [h2] at h
  dsimp only at h
  cases h3 : copyCommonRootFiles hash inFS inDir outDir s2 with
  | error e => rw [h3] at h; exact absurd h (by simp)
  | ok s3 =>
  rw [h3] at h
  dsimp only at h
  have i2 := StInv_tqProjects _ h2 (StInv_emptySt hash outDir)
  have i3 := StInv_copyCommonRootFiles h3 i2
  exact StInv_copyLicenseIngredient h i3

theorem bibleConvert_StInv {hash : Str → Str} {manifest : Manifest}
    {inDir outDir : Str} {inFS : FS} {st : ConvSt}
    (h : bibleConvert hash manifest inDir outDir inFS = Except.ok st) :
    StInv hash outDir st := by
  unfold bibleConvert at h
  cases h2 : bibleProjects hash inFS inDir outDir manifest.projects emptySt with
  | error e => rw [h2] at h; exact absurd h (by simp)
  | ok s2 =>
  rw [h2] at h
  dsimp only at h
  cases h3 : copyCommonRootFiles hash inFS inDir outDir s2 with
  | error e => rw [h3] at h; exact absurd h (by simp)
  | ok s3 =>
  rw [h3] at h
  dsimp only at h
  have i2 := StInv_bibleProjects _ h2 (StInv_emptySt hash outDir)
  have i3 := StInv_copyCommonRootFiles h3 i2
  exact StInv_copyLicenseIngredient h i3

theorem obsConvert_StInv {hash : Str → Str} {manifest : Manifest}
    {inDir outDir : Str} {inFS : FS} {st : ConvSt}
    (h : obsConvert hash manifest inDir outDir inFS = Except.ok st) :
    StInv hash outDir st := by
  unfold obsConvert at h
  dsimp only at h
  cases h1 : copyCommonRootFiles hash inFS inDir outDir (⟨[], [], [], ["GEN".data]⟩ : ConvSt) with
  | error e => rw [h1] at h; exact absurd h (by simp)
  | ok s1 =>
  rw [h1] at h
  dsimp only at h
  cases h3 : (if obsContentPath manifest = ".".data then
      obsRootEntries hash inFS inDir outDir (childNames inFS inDir)
        (copyLicenseToRoot inFS inDir outDir s1)
    else
      copyTreeToIngredients hash inFS (joinPath inDir (obsContentPath manifest)) outDir
        "ingredients/content".data (copyLicenseToRoot inFS inDir outDir s1)) with
  | error e => rw [h3] at h; exact absurd h (by simp)
  | ok s3 =>
  rw [h3] at h
  dsimp only at h
  have i0 : StInv hash outDir (⟨[], [], [], ["GEN".data]⟩ : ConvSt) := by
    constructor
    · intro k ing hk
      exact absurd hk (by simp [lookupA])
    · intro k ing hk
      exact absurd hk (by simp [lookupA])
  have i1 := StInv_copyCommonRootFiles h1 i0
  have i2 := StInv_copyLicenseToRoot inFS inDir i1
  have i3 : StInv hash outDir s3 := by
    split at h3
    · exact StInv_obsRootEntries _ h3 i2
    · exact StInv_copyTree h3 i2
  exact StInv_copyLicenseIngredient h i3

/-!  Path-extension lemmas. -/

theorem takeWhile_append_cons {q : Char → Bool} {c : Char} (x y : Str)
    (hc : q c = false) : (x ++ c :: y).takeWhile q = x.takeWhile q := by
  induction x with
  | nil => simp [List.takeWhile, hc]
  | cons a x ih =>
    simp only [List.cons_append, List.takeWhile]
    cases q a <;> simp [ih]

theorem frame_recSt {hash : Str → Str} {outDir : Str} (st : ConvSt)
    {key : Str} (c : Str) (scope : Option (List Str)) {t : Str} (h : t ≠ key) :
    fsLookup (recSt hash outDir key c scope st).fs (joinPath outDir t) =
      fsLookup st.fs (joinPath outDir t) := by
  show fsLookup (fsWrite st.fs (joinPath outDir key) c) (joinPath outDir t) = _
  exact fsLookup_write_ne _ _ (fun q => h (joinPath_inj q))

theorem frame_copyFileACI {hash : Str → Str} {inFS : FS} {src outDir key : Str}
    {st st2 : ConvSt} {t : Str} (ht : t ≠ key)
    (h : copyFileAndComputeIngredient hash inFS src outDir key st = Except.ok st2) :
    fsLookup st2.fs (joinPath outDir t) = fsLookup st.fs (joinPath outDir t) := by
  obtain ⟨c, _, rfl⟩ := copyFileACI_ok h
  exact frame_recSt st c none ht

theorem frame_copyFileWS {hash : Str → Str} {inFS : FS} {src outDir key : Str}
    {scope : Option (List Str)} {st st2 : ConvSt} {t : Str} (ht : t ≠ key)
    (h : copyFileWithScope hash inFS src outDir key scope st = Except.ok st2) :
    fsLookup st2.fs (joinPath outDir t) = fsLookup st.fs (joinPath outDir t) := by
  obtain ⟨c, _, rfl⟩ := copyFileWS_ok h
  exact frame_recSt st c scope ht

theorem frame_copyTSV {hash : Str → Str} {inFS : FS} {src outDir key : Str}
    {scope : Option (List Str)} {st st2 : ConvSt} {t : Str} (ht : t ≠ key)
    (h : copyTSVWithLinkRewrite hash inFS src outDir key scope st = Except.ok st2) :
    fsLookup st2.fs (joinPath outDir t) = fsLookup st.fs (joinPath outDir t) := by
  obtain ⟨c, _, rfl⟩ := copyTSV_ok h
  exact frame_recSt st (rewriteTSV c) scope ht

theorem frame_copyTreeLoop {hash : Str → Str} {inFS : FS}
    {srcDir outDir destPfx t : Str} (ht : ∀ rel, t ≠ destPfx ++ '/' :: rel) :
    ∀ (files : List (Str × Str)) {st st2 : ConvSt},
      copyTreeLoop hash inFS srcDir outDir destPfx files st = Except.ok st2 →
      fsLookup st2.fs (joinPath outDir t) = fsLookup st.fs (joinPath outDir t)
  | [], st, st2, h => by cases h; rfl
  | e :: rest, st, st2, h => by
    unfold copyTreeLoop at h
    dsimp only at h
    cases hc : copyFileAndComputeIngredient hash inFS e.1 outDir
        (destPfx ++ '/' :: e.1.drop (srcDir.length + 1)) st with
    | error err => rw [hc] at h; exact absurd h (by simp)
    | ok stA =>
      rw [hc] at h
      rw [frame_copyTreeLoop ht rest h]
      exact frame_copyFileACI (ht _) hc

theorem frame_copyTree {hash : Str → Str} {inFS : FS}
    {srcDir outDir destPfx t : Str} (ht : ∀ rel, t ≠ destPfx ++ '/' :: rel)
    {st st2 : ConvSt}
    (h : copyTreeToIngredients hash inFS srcDir outDir destPfx st = Except.ok st2) :
    fsLookup st2.fs (joinPath outDir t) = fsLookup st.fs (joinPath outDir t) := by
  unfold copyTreeToIngredients at h
  split at h
  · exact frame_copyTreeLoop ht _ h
  · exact absurd h (by simp)

theorem frame_copyRootFile {hash : Str → Str} {inFS : FS} {inDir outDir name : Str}
    {st st2 : ConvSt} {t : Str} (ht : t ≠ name)
    (h : copyRootFileIfPresent hash inFS inDir outDir name st = Except.ok st2) :
    fsLookup st2.fs (joinPath outDir t) = fsLookup st.fs (joinPath outDir t) := by
  unfold copyRootFileIfPresent at h
  split at h
  · cases h; rfl
  · exact frame_copyFileACI ht h

theorem frame_copyCommonRootFiles {hash : Str → Str} {inFS : FS}
    {inDir outDir : Str} {st st2 : ConvSt} {t : Str}
    (h1 : t ≠ "README.md".data) (h2 : t ≠ ".gitignore".data)
    (h3 : ∀ rel, t ≠ ".gitea".data ++ '/' :: rel)
    (h4 : ∀ rel, t ≠ ".github".data ++ '/' :: rel)
    (h : copyCommonRootFiles hash inFS inDir outDir st = Except.ok st2) :
    fsLookup st2.fs (joinPath outDir t) = fsLookup st.fs (joinPath outDir t) := by
  unfold copyCommonRootFiles at h
  cases e1 : copyRootFileIfPresent hash inFS inDir outDir "README.md".data st with
  | error e => rw [e1] at h; exact absurd h (by simp)
  | ok s1 =>
  rw [e1] at h
  dsimp only at h
  cases e2 : copyRootFileIfPresent hash inFS inDir outDir ".gitignore".data s1 with
  | error e => rw [e2] at h; exact absurd h (by simp)
  | ok s2 =>
  rw [e2] at h
  dsimp only at h
  cases e3 : (if dirExists inFS (joinPath inDir ".gitea".data) then
      copyTreeToIngredients hash inFS (joinPath inDir ".gitea".data) outDir ".gitea".data s2
    else Except.ok s2) with
  | error e => rw [e3] at h; exact absurd h (by simp)
  | ok s3 =>
  rw [e3] at h
  dsimp only at h
  have f3 : fsLookup s3.fs (joinPath outDir t) = fsLookup s2.fs (joinPath outDir t) := by
    split at e3
    · exact frame_copyTree h3 e3
    · cases e3; rfl
  have f4 : fsLookup st2.fs (joinPath outDir t) = fsLookup s3.fs (joinPath outDir t) := by
    split at h
    · exact frame_copyTree h4 h
    · cases h; rfl
  rw [f4, f3, frame_copyRootFile h2 e2, frame_copyRootFile h1 e1]

theorem frame_copyLicenseIngredient {hash : Str → Str} {inFS : FS}
    {inDir outDir : Str} {st st2 : ConvSt} {t : Str}
    (ht : t ≠ "ingredients/LICENSE.md".data)
    (h : copyLicenseIngredient hash inFS inDir outDir st = Except.ok st2) :
    fsLookup st2.fs (joinPath outDir t) = fsLookup st.fs (joinPath outDir t) := by
  rw [copyLicenseIngredient_ok h]
  exact frame_recSt st _ none ht

theorem frame_copyLicenseToRoot {outDir : Str} (inFS : FS) (inDir : Str)
    {st : ConvSt} {t : Str} (ht : t ≠ "LICENSE.md".data) :
    fsLookup (copyLicenseToRoot inFS inDir outDir st).fs (joinPath outDir t) =
      fsLookup st.fs (joinPath outDir t) := by
  show fsLookup (fsWrite st.fs (joinPath outDir "LICENSE.md".data) _)
    (joinPath outDir t) = _
  exact fsLookup_write_ne _ _ (fun q => ht (joinPath_inj q))

theorem twlStep_nopayload_ok {hash : Str → Str}
    {usfmLook : Str → Option LocalizedBookNames} {inFS : FS} {inDir outDir : Str}
    {opts : HOptions} {lang : Str} {p : Project} {st st2 : ConvSt}
    (h : twlStep hash usfmLook inFS inDir outDir opts lang false p st = Except.ok st2) :
    ∃ c, fsLookup inFS (twlSrcPath inDir p) = some c ∧
      st2 = recSt hash outDir ("ingredients/".data ++ twlDest inDir p) c
        (some [codeFromProjectID (lowStr p.identifier)])
        (tsvBookkeeping usfmLook opts lang p st) := by
  unfold twlStep at h
  dsimp only at h
  rw [if_neg (by decide)] at h
  exact copyFileWS_ok h

theorem frame_twlStep {hash : Str → Str} {usfmLook : Str → Option LocalizedBookNames}
    {inFS : FS} {inDir outDir : Str} {opts : HOptions} {lang : Str}
    {hasPayload : Bool} {p : Project} {st st2 : ConvSt} {t : Str}
    (ht : t ≠ "ingredients/".data ++ twlDest inDir p)
    (h : twlStep hash usfmLook inFS inDir outDir opts lang hasPayload p st = Except.ok st2) :
    fsLookup st2.fs (joinPath outDir t) = fsLookup st.fs (joinPath outDir t) := by
  unfold twlStep at h
  dsimp only at h
  cases hasPayload with
  | true =>
    rw [if_pos rfl] at h
    rw [frame_copyTSV ht h]
    rw [tsvBookkeeping_fs]
  | false =>
    rw [if_neg (by decide)] at h
    rw [frame_copyFileWS ht h]
    rw [tsvBookkeeping_fs]

theorem frame_twlProjects {hash : Str → Str} {usfmLook : Str → Option LocalizedBookNames}
    {inFS : FS} {inDir outDir : Str} {opts : HOptions} {lang : Str}
    {hasPayload : Bool} {t : Str} :
    ∀ (ps : List Project) {st st2 : ConvSt},
      (∀ q ∈ ps, t ≠ "ingredients/".data ++ twlDest inDir q) →
      twlProjects hash usfmLook inFS inDir outDir opts lang hasPayload ps st = Except.ok st2 →
      fsLookup st2.fs (joinPath outDir t) = fsLookup st.fs (joinPath outDir t)
  | [], st, st2, _, h => by cases h; rfl
  | p :: ps, st, st2, ht, h => by
    unfold twlProjects at h
    cases hc : twlStep hash usfmLook inFS inDir outDir opts lang hasPayload p st with
    | error e => rw [hc] at h; exact absurd h (by simp)
    | ok stA =>
      rw [hc] at h
      rw [frame_twlProjects ps (fun q hq => ht q (List.mem_cons_of_mem _ hq)) h]
      exact frame_twlStep (ht p (List.mem_cons_self _ _)) hc

theorem twlProjects_nopayload_content {hash : Str → Str}
    {usfmLook : Str → Option LocalizedBookNames} {inFS : FS} {inDir outDir : Str}
    {opts : HOptions} {lang : Str} :
    ∀ (ps : List Project) {st st2 : ConvSt},
      twlProjects hash usfmLook inFS inDir outDir opts lang false ps st = Except.ok st2 →
      ∀ p ∈ ps, (ps.map (twlDest inDir)).Nodup →
      ∃ c, fsLookup inFS (twlSrcPath inDir p) = some c ∧
        fsLookup st2.fs (joinPath outDir ("ingredients/".data ++ twlDest inDir p)) =
          some c
  | [], st, st2, h, p, hp, hnd => absurd hp (by simp)
  | p0 :: ps, st, st2, h, p, hp, hnd => by
    unfold twlProjects at h
    cases hc : twlStep hash usfmLook inFS inDir outDir opts lang false p0 st with
    | error e => rw [hc] at h; exact absurd h (by simp)
    | ok stA =>
      rw [hc] at h
      rcases List.mem_cons.mp hp with rfl | hp2
      · obtain ⟨c, hsrc, rfl⟩ := twlStep_nopayload_ok hc
        refine ⟨c, hsrc, ?_⟩
        have hnotin : twlDest inDir p ∉ ps.map (twlDest inDir) :=
          (List.nodup_cons.mp hnd).1
        have hfr : ∀ q ∈ ps, ("ingredients/".data ++ twlDest inDir p) ≠
            ("ingredients/".data ++ twlDest inDir q) := by
          intro q hq he
          exact hnotin (List.append_cancel_left he ▸ List.mem_map_of_mem _ hq)
        rw [frame_twlProjects ps hfr h]
        show fsLookup (fsWrite _ (joinPath outDir _) c) (joinPath outDir _) = some c
        exact fsLookup_write_self _ _ _
      · exact twlProjects_nopayload_content ps h p hp2 (List.nodup_cons.mp hnd).2

/-!  Head-character discrimination of ingredients keys against the
bookkeeping keys of the final steps. -/

theorem ingKey_ne_readme (d : Str) :
    "ingredients/".data ++ d ≠ "README.md".data := by
  apply ne_of_head?
  intro h
  rw [show (("ingredients/".data ++ d).head? : Option Char) = some 'i' from rfl] at h
  exact absurd h (by decide)

theorem ingKey_ne_gitignore (d : Str) :
    "ingredients/".data ++ d ≠ ".gitignore".data := by
  apply ne_of_head?
  intro h
  rw [show (("ingredients/".data ++ d).head? : Option Char) = some 'i' from rfl] at h
  exact absurd h (by decide)

theorem ingKey_ne_giteaTree (d rel : Str) :
    "ingredients/".data ++ d ≠ ".gitea".data ++ '/' :: rel := by
  apply ne_of_head?
  intro h
  rw [show (("ingredients/".data ++ d).head? : Option Char) = some 'i' from rfl,
    show ((".gitea".data ++ '/' :: rel).head? : Option Char) = some '.' from rfl] at h
  exact absurd h (by decide)

theorem ingKey_ne_githubTree (d rel : Str) :
    "ingredients/".data ++ d ≠ ".github".data ++ '/' :: rel := by
  apply ne_of_head?
  intro h
  rw [show (("ingredients/".data ++ d).head? : Option Char) = some 'i' from rfl,
    show ((".github".data ++ '/' :: rel).head? : Option Char) = some '.' from rfl] at h
  exact absurd h (by decide)

theorem ingKey_ne_licKey {d : Str} (hd : d ≠ "LICENSE.md".data) :
    "ingredients/".data ++ d ≠ "ingredients/LICENSE.md".data := by
  intro h
  rw [show ("ingredients/LICENSE.md".data : Str) =
    "ingredients/".data ++ "LICENSE.md".data from rfl] at h
  exact hd (List.append_cancel_left h)

/-!  CurrentScope/ingredient-scope agreement for the Bible strategy. -/

theorem ne_of_getLast? {a b : Str} (h : a.getLast? ≠ b.getLast?) : a ≠ b :=
  fun e => h (by rw [e])

theorem getLast?_append_cons (a : Str) (c : Char) (b : Str) :
    (a ++ c :: b).getLast? = (c :: b).getLast? := by
  rw [List.getLast?_append]
  cases h : (c :: b).getLast? with
  | none => exact absurd h (by simp [List.getLast?_eq_none_iff])
  | some x => simp [Option.or]

/-- An ingredients key for a usfm filename starts with i. -/
theorem usfmKey_head (d : Str) :
    (("ingredients/".data ++ (d ++ ".usfm".data)).head? : Option Char) = some 'i' := rfl

/-- An ingredients key for a usfm filename ends with m. -/
theorem usfmKey_last (d : Str) :
    (("ingredients/".data ++ (d ++ ".usfm".data)).getLast? : Option Char) = some 'm' := by
  have e1 : ("ingredients/".data ++ (d ++ ".usfm".data) : Str) =
      ("ingredients/".data ++ d) ++ ".usfm".data := by
    rw [List.append_assoc]
  rw [e1]
  rw [show (".usfm".data : Str) = '.' :: "usfm".data from rfl]
  rw [getLast?_append_cons]
  rfl

/-- The record step preserves the scope agreement when the new key is
distinct from every possible witness key. -/
theorem ScopeOK_recSt_away {st : ConvSt} {avoid : List Str}
    (hs : ScopeOK st avoid) {key : Str}
    (hne : ∀ k : Str, k.head? = some 'i' → k.getLast? = some 'm' → k ≠ key)
    (hash : Str → Str) (outDir c : Str) (scope : Option (List Str)) :
    ScopeOK (recSt hash outDir key c scope st) avoid := by
  intro code hcode
  obtain ⟨k, ing, l, hk, hsc, hmem, hav, hh, hl⟩ := hs code hcode
  refine ⟨k, ing, l, ?_, hsc, hmem, hav, hh, hl⟩
  show lookupA ((key, _) :: st.ingredients) k = some ing
  rw [lookupA_cons_ne _ _ (hne k hh hl)]
  exact hk

theorem ScopeOK_copyTreeLoop {hash : Str → Str} {inFS : FS}
    {srcDir outDir destPfx : Str} {avoid : List Str}
    (hpfx : ∀ rel k : Str, k.head? = some 'i' → k.getLast? = some 'm' →
      k ≠ destPfx ++ '/' :: rel) :
    ∀ (files : List (Str × Str)) {st st2 : ConvSt},
      copyTreeLoop hash inFS srcDir outDir destPfx files st = Except.ok st2 →
      ScopeOK st avoid → ScopeOK st2 avoid
  | [], st, st2, h, hs => by cases h; exact hs
  | e :: rest, st, st2, h, hs => by
    unfold copyTreeLoop at h
    dsimp only at h
    cases hc : copyFileAndComputeIngredient hash inFS e.1 outDir
        (destPfx ++ '/' :: e.1.drop (srcDir.length + 1)) st with
    | error err => rw [hc] at h; exact absurd h (by simp)
    | ok stA =>
      rw [hc] at h
      obtain ⟨c, _, rfl⟩ := copyFileACI_ok hc
      exact ScopeOK_copyTreeLoop hpfx rest h
        (ScopeOK_recSt_away hs (hpfx _) hash outDir c none)

theorem ScopeOK_copyTree {hash : Str → Str} {inFS : FS}
    {srcDir outDir destPfx : Str} {avoid : List Str}
    (hpfx : ∀ rel k : Str, k.head? = some 'i' → k.getLast? = some 'm' →
      k ≠ destPfx ++ '/' :: rel)
    {st st2 : ConvSt}
    (h : copyTreeToIngredients hash inFS srcDir outDir destPfx st = Except.ok st2)
    (hs : ScopeOK st avoid) : ScopeOK st2 avoid := by
  unfold copyTreeToIngredients at h
  split at h
  · exact ScopeOK_copyTreeLoop hpfx _ h hs
  · exact absurd h (by simp)

theorem ScopeOK_copyRootFile {hash : Str → Str} {inFS : FS} {inDir outDir name : Str}
    {avoid : List Str}
    (hname : ∀ k : Str, k.head? = some 'i' → k.getLast? = some 'm' → k ≠ name)
    {st st2 : ConvSt}
    (h : copyRootFileIfPresent hash inFS inDir outDir name st = Except.ok st2)
    (hs : ScopeOK st avoid) : ScopeOK st2 avoid := by
  unfold copyRootFileIfPresent at h
  split at h
  · cases h; exact hs
  · obtain ⟨c, _, rfl⟩ := copyFileACI_ok h
    exact ScopeOK_recSt_away hs hname hash outDir c none

/-- A dot-directory tree key never matches a usfm witness key. -/
theorem dotTree_away (pfx : Str) (hp : pfx.head? = some '.') :
    ∀ rel k : Str, k.head? = some 'i' → k.getLast? = some 'm' →
      k ≠ pfx ++ '/' :: rel := by
  intro rel k hh _ he
  apply ne_of_head? (a := k) (b := pfx ++ '/' :: rel) ?_ he
  rw [hh]
  cases pfx with
  | nil => exact absurd hp (by simp)
  | cons c r =>
    rw [show ((c :: r ++ '/' :: rel).head? : Option Char) = some c from rfl]
    have : c = '.' := by
      rw [show ((c :: r).head? : Option Char) = some c from rfl] at hp
      cases hp
      rfl
    rw [this]
    decide

theorem ScopeOK_copyCommonRootFiles {hash : Str → Str} {inFS : FS}
    {inDir outDir : Str} {avoid : List Str} {st st2 : ConvSt}
    (h : copyCommonRootFiles hash inFS inDir outDir st = Except.ok st2)
    (hs : ScopeOK st avoid) : ScopeOK st2 avoid := by
  unfold copyCommonRootFiles at h
  cases e1 : copyRootFileIfPresent hash inFS inDir outDir "README.md".data st with
  | error e => rw [e1] at h; exact absurd h (by simp)
  | ok s1 =>
  rw [e1] at h
  dsimp only at h
  cases e2 : copyRootFileIfPresent hash inFS inDir outDir ".gitignore".data s1 with
  | error e => rw [e2] at h; exact absurd h (by simp)
  | ok s2 =>
  rw [e2] at h
  dsimp only at h
  cases e3 : (if dirExists inFS (joinPath inDir ".gitea".data) then
      copyTreeToIngredients hash inFS (joinPath inDir ".gitea".data) outDir ".gitea".data s2
    else Except.ok s2) with
  | error e => rw [e3] at h; exact absurd h (by simp)
  | ok s3 =>
  rw [e3] at h
  dsimp only at h
  have n1 : ∀ k : Str, k.head? = some 'i' → k.getLast? = some 'm' →
      k ≠ "README.md".data := by
    intro k hh _
    apply ne_of_head?
    rw [hh]
    decide
  have n2 : ∀ k : Str, k.head? = some 'i' → k.getLast? = some 'm' →
      k ≠ ".gitignore".data := by
    intro k hh _
    apply ne_of_head?
    rw [hh]
    decide
  have i1 := ScopeOK_copyRootFile n1 e1 hs
  have i2 := ScopeOK_copyRootFile n2 e2 i1
  have i3 : ScopeOK s3 avoid := by
    split at e3
    · exact ScopeOK_copyTree (dotTree_away ".gitea".data (by decide)) e3 i2
    · cases e3; exact i2
  split at h
  · exact ScopeOK_copyTree (dotTree_away ".github".data (by decide)) h i3
  · cases h; exact i3

theorem ScopeOK_copyLicenseIngredient {hash : Str → Str} {inFS : FS}
    {inDir outDir : Str} {avoid : List Str} {st st2 : ConvSt}
    (h : copyLicenseIngredient hash inFS inDir outDir st = Except.ok st2)
    (hs : ScopeOK st avoid) : ScopeOK st2 avoid := by
  rw [copyLicenseIngredient_ok h]
  refine ScopeOK_recSt_away hs ?_ hash outDir _ none
  intro k _ hl
  apply ne_of_getLast?
  rw [hl]
  decide

theorem ScopeOK_bibleStep {hash : Str → Str} {inFS : FS} {inDir outDir : Str}
    {p : Project} {st st2 : ConvSt} {tailAvoid : List Str}
    (h : bibleStep hash inFS inDir outDir p st = Except.ok st2)
    (hnotin : ("ingredients/".data ++ bibleDest inDir p) ∉ tailAvoid)
    (hs : ScopeOK st (("ingredients/".data ++ bibleDest inDir p) :: tailAvoid)) :
    ScopeOK st2 tailAvoid := by
  unfold bibleStep at h
  dsimp only at h
  split at h
  · obtain ⟨c, hsrc, rfl⟩ := copyFileWS_ok h
    intro code hcode
    have hscope : (recSt hash outDir ("ingredients/".data ++ bibleDest inDir p) c
        (some [codeFromProjectID (lowStr p.identifier)])
        (bibleBookkeeping p st)).currentScope =
        codeFromProjectID (lowStr p.identifier) :: st.currentScope := by
      show (bibleBookkeeping p st).currentScope = _
      exact bibleBookkeeping_currentScope p st
    rw [hscope] at hcode
    rcases List.mem_cons.mp hcode with rfl | hold
    · refine ⟨"ingredients/".data ++ bibleDest inDir p,
        ⟨hash c, mimeTypeForExt (extName (joinPath outDir
          ("ingredients/".data ++ bibleDest inDir p))), c.length,
          some [codeFromProjectID (lowStr p.identifier)]⟩,
        [codeFromProjectID (lowStr p.identifier)], ?_, rfl,
        List.mem_cons_self _ _, hnotin, ?_, ?_⟩
      · exact lookupA_cons_self _ _ _
      · exact usfmKey_head _
      · exact usfmKey_last _
    · obtain ⟨k, ing, l, hk, hsc, hmem, hav, hh, hl⟩ := hs code hold
      have hne : k ≠ "ingredients/".data ++ bibleDest inDir p :=
        fun e => hav (e ▸ List.mem_cons_self _ _)
      refine ⟨k, ing, l, ?_, hsc, hmem, fun hc2 => hav (List.mem_cons_of_mem _ hc2),
        hh, hl⟩
      show lookupA ((("ingredients/".data ++ bibleDest inDir p), _) ::
        (bibleBookkeeping p st).ingredients) k = some ing
      rw [lookupA_cons_ne _ _ hne, bibleBookkeeping_ingredients]
      exact hk
  · obtain ⟨c, hsrc, rfl⟩ := copyFileWS_ok h
    intro code hcode
    have hscope : (recSt hash outDir ("ingredients/".data ++ bibleDest inDir p) c
        none st).currentScope = st.currentScope := rfl
    rw [hscope] at hcode
    obtain ⟨k, ing, l, hk, hsc, hmem, hav, hh, hl⟩ := hs code hcode
    have hne : k ≠ "ingredients/".data ++ bibleDest inDir p :=
      fun e => hav (e ▸ List.mem_cons_self _ _)
    refine ⟨k, ing, l, ?_, hsc, hmem, fun hc2 => hav (List.mem_cons_of_mem _ hc2),
      hh, hl⟩
    show lookupA ((("ingredients/".data ++ bibleDest inDir p), _) ::
      st.ingredients) k = some ing
    rw [lookupA_cons_ne _ _ hne]
    exact hk

theorem ScopeOK_bibleProjects {hash : Str → Str} {inFS : FS} {inDir outDir : Str} :
    ∀ (ps : List Project) {st st2 : ConvSt},
      bibleProjects hash inFS inDir outDir ps st = Except.ok st2 →
      (ps.map (fun q => "ingredients/".data ++ bibleDest inDir q)).Nodup →
      ScopeOK st (ps.map (fun q => "ingredients/".data ++ bibleDest inDir q)) →
      ScopeOK st2 []
  | [], st, st2, h, _, hs => by cases h; exact hs
  | p :: ps, st, st2, h, hnd, hs => by
    unfold bibleProjects at h
    cases hc : bibleStep hash inFS inDir outDir p st with
    | error e => rw [hc] at h; exact absurd h (by simp)
    | ok stA =>
      rw [hc] at h
      rw [List.map_cons] at hnd hs
      have hnd2 := List.nodup_cons.mp hnd
      refine ScopeOK_bibleProjects ps h hnd2.2 ?_
      exact ScopeOK_bibleStep hc hnd2.1 hs

theorem ScopeOK_emptySt (avoid : List Str) : ScopeOK emptySt avoid := by
  intro code hcode
  exact absurd hcode (by simp [emptySt])

/-- Scope agreement for a completed Bible conversion. -/
theorem bibleConvert_ScopeOK {hash : Str → Str} {manifest : Manifest}
    {inDir outDir : Str} {inFS : FS} {st : ConvSt}
    (h : bibleConvert hash manifest inDir outDir inFS = Except.ok st)
    (hnd : (manifest.projects.map
      (fun q => "ingredients/".data ++ bibleDest inDir q)).Nodup) :
    ScopeOK st [] := by
  unfold bibleConvert at h
  cases h2 : bibleProjects hash inFS inDir outDir manifest.projects emptySt with
  | error e => rw [h2] at h; exact absurd h (by simp)
  | ok s2 =>
  rw [h2] at h
  dsimp only at h
  cases h3 : copyCommonRootFiles hash inFS inDir outDir s2 with
  | error e => rw [h3] at h; exact absurd h (by simp)
  | ok s3 =>
  rw [h3] at h
  dsimp only at h
  have i2 := ScopeOK_bibleProjects _ h2 hnd (ScopeOK_emptySt _)
  have i3 := ScopeOK_copyCommonRootFiles h3 i2
  exact ScopeOK_copyLicenseIngredient h i3

/-!  The currentScope and localizedNames fields are fixed by all final
bookkeeping steps. -/

theorem namesFixed_copyTreeLoop {hash : Str → Str} {inFS : FS}
    {srcDir outDir destPfx : Str} :
    ∀ (files : List (Str × Str)) {st st2 : ConvSt},
      copyTreeLoop hash inFS srcDir outDir destPfx files st = Except.ok st2 →
      st2.currentScope = st.currentScope ∧ st2.localizedNames = st.localizedNames
  | [], st, st2, h => by cases h; exact ⟨rfl, rfl⟩
  | e :: rest, st, st2, h => by
    unfold copyTreeLoop at h
    dsimp only at h
    cases hc : copyFileAndComputeIngredient hash inFS e.1 outDir
        (destPfx ++ '/' :: e.1.drop (srcDir.length + 1)) st with
    | error err => rw [hc] at h; exact absurd h (by simp)
    | ok stA =>
      rw [hc] at h
      obtain ⟨c, _, rfl⟩ := copyFileACI_ok hc
      obtain ⟨e1, e2⟩ := namesFixed_copyTreeLoop rest h
      exact ⟨e1, e2⟩

theorem namesFixed_copyTree {hash : Str → Str} {inFS : FS}
    {srcDir outDir destPfx : Str} {st st2 : ConvSt}
    (h : copyTreeToIngredients hash inFS srcDir outDir destPfx st = Except.ok st2) :
    st2.currentScope = st.currentScope ∧ st2.localizedNames = st.localizedNames := by
  unfold copyTreeToIngredients at h
  split at h
  · exact namesFixed_copyTreeLoop _ h
  · exact absurd h (by simp)

theorem namesFixed_copyRootFile {hash : Str → Str} {inFS : FS}
    {inDir outDir name : Str} {st st2 : ConvSt}
    (h : copyRootFileIfPresent hash inFS inDir outDir name st = Except.ok st2) :
    st2.currentScope = st.currentScope ∧ st2.localizedNames = st.localizedNames := by
  unfold copyRootFileIfPresent at h
  split at h
  · cases h; exact ⟨rfl, rfl⟩
  · obtain ⟨c, _, rfl⟩ := copyFileACI_ok h
    exact ⟨rfl, rfl⟩

theorem namesFixed_copyCommonRootFiles {hash : Str → Str} {inFS : FS}
    {inDir outDir : Str} {st st2 : ConvSt}
    (h : copyCommonRootFiles hash inFS inDir outDir st = Except.ok st2) :
    st2.currentScope = st.currentScope ∧ st2.localizedNames = st.localizedNames := by
  unfold copyCommonRootFiles at h
  cases e1 : copyRootFileIfPresent hash inFS inDir outDir "README.md".data st with
  | error e => rw [e1] at h; exact absurd h (by simp)
  | ok s1 =>
  rw [e1] at h
  dsimp only at h
  cases e2 : copyRootFileIfPresent hash inFS inDir outDir ".gitignore".data s1 with
  | error e => rw [e2] at h; exact absurd h (by simp)
  | ok s2 =>
  rw [e2] at h
  dsimp only at h
  cases e3 : (if dirExists inFS (joinPath inDir ".gitea".data) then
      copyTreeToIngredients hash inFS (joinPath inDir ".gitea".data) outDir ".gitea".data s2
    else Except.ok s2) with
  | error e => rw [e3] at h; exact absurd h (by simp)
  | ok s3 =>
  rw [e3] at h
  dsimp only at h
  obtain ⟨a1, b1⟩ := namesFixed_copyRootFile e1
  obtain ⟨a2, b2⟩ := namesFixed_copyRootFile e2
  have p3 : s3.currentScope = s2.currentScope ∧ s3.localizedNames = s2.localizedNames := by
    split at e3
    · exact namesFixed_copyTree e3
    · cases e3; exact ⟨rfl, rfl⟩
  have p4 : st2.currentScope = s3.currentScope ∧ st2.localizedNames = s3.localizedNames := by
    split at h
    · exact namesFixed_copyTree h
    · cases h; exact ⟨rfl, rfl⟩
  exact ⟨by rw [p4.1, p3.1, a2, a1], by rw [p4.2, p3.2, b2, b1]⟩

theorem namesFixed_copyLicenseIngredient {hash : Str → Str} {inFS : FS}
    {inDir outDir : Str} {st st2 : ConvSt}
    (h : copyLicenseIngredient hash inFS inDir outDir st = Except.ok st2) :
    st2.currentScope = st.currentScope ∧ st2.localizedNames = st.localizedNames := by
  rw [copyLicenseIngredient_ok h]
  exact ⟨rfl, rfl⟩

/-!  Localized-name keys always name canonical books; the TQ strategy
records non-canonical uppercase codes in scope maps nonetheless. -/

theorem lnEntry_none {id lang t : Str} {n : Option LocalizedBookNames}
    (h : byID id = none) : (localizedNameEntryWithNames id lang t n).1 = [] := by
  unfold localizedNameEntryWithNames
  rw [h]

theorem lnEntry_key {id lang t : Str} {n : Option LocalizedBookNames}
    (h : (localizedNameEntryWithNames id lang t n).1 ≠ []) :
    ∃ b ∈ allBooks, (localizedNameEntryWithNames id lang t n).1 =
      "book-".data ++ b.id := by
  cases hb : byID id with
  | none => exact absurd (lnEntry_none hb) h
  | some b =>
    refine ⟨b, ?_, ?_⟩
    · have hfind : List.find? (fun bb => bb.id == lowStr id) allBooks = some b := by
        unfold byID at hb
        exact hb
      exact List.mem_of_find?_eq_some hfind
    · unfold localizedNameEntryWithNames
      rw [hb]
      dsimp only
      split <;> rfl

theorem LNOK_tsvBookkeeping {usfmLook : Str → Option LocalizedBookNames}
    {opts : HOptions} {lang : Str} {p : Project} {st : ConvSt}
    (hs : LNOK st) : LNOK (tsvBookkeeping usfmLook opts lang p st) := by
  unfold tsvBookkeeping
  dsimp only
  split
  · split
    · intro k ln hk
      by_cases e : k = (localizedNameEntryWithNames (lowStr p.identifier) lang
          p.title (usfmLook (lowStr p.identifier))).1
      · subst e
        exact lnEntry_key (by assumption)
      · rw [lookupA_cons_ne _ _ e] at hk
        exact hs k ln hk
    · intro k ln hk
      exact hs k ln hk
  · split
    · intro k ln hk
      by_cases e : k = (localizedNameEntryWithNames (lowStr p.identifier) lang
          p.title none).1
      · subst e
        exact lnEntry_key (by assumption)
      · rw [lookupA_cons_ne _ _ e] at hk
        exact hs k ln hk
    · intro k ln hk
      exact hs k ln hk

theorem LNOK_tqStep {hash : Str → Str} {usfmLook : Str → Option LocalizedBookNames}
    {inFS : FS} {inDir outDir : Str} {opts : HOptions} {lang : Str}
    {p : Project} {st st2 : ConvSt}
    (h : tqStep hash usfmLook inFS inDir outDir opts lang p st = Except.ok st2)
    (hs : LNOK st) : LNOK st2 := by
  unfold tqStep at h
  dsimp only at h
  split at h
  · cases h; exact hs
  · obtain ⟨c, _, rfl⟩ := copyFileWS_ok h
    intro k ln hk
    exact LNOK_tsvBookkeeping hs k ln hk

theorem LNOK_tqProjects {hash : Str → Str} {usfmLook : Str → Option LocalizedBookNames}
    {inFS : FS} {inDir outDir : Str} {opts : HOptions} {lang : Str} :
    ∀ (ps : List Project) {st st2 : ConvSt},
      tqProjects hash usfmLook inFS inDir outDir opts lang ps st = Except.ok st2 →
      LNOK st → LNOK st2
  | [], st, st2, h, hs => by cases h; exact hs
  | p :: ps, st, st2, h, hs => by
    unfold tqProjects at h
    cases hc : tqStep hash usfmLook inFS inDir outDir opts lang p st with
    | error e => rw [hc] at h; exact absurd h (by simp)
    | ok stA =>
      rw [hc] at h
      exact LNOK_tqProjects ps h (LNOK_tqStep hc hs)

theorem LNOK_of_namesEq {st st2 : ConvSt}
    (he : st2.localizedNames = st.localizedNames) (hs : LNOK st) : LNOK st2 := by
  intro k ln hk
  rw [he] at hk
  exact hs k ln hk

/-- Every localized-name key of a completed TQ conversion names a
canonical book. -/
theorem tqConvert_LNOK {hash : Str → Str} {usfmLook : Str → Option LocalizedBookNames}
    {manifest : Manifest} {inDir outDir : Str} {opts : HOptions} {inFS : FS}
    {st : ConvSt}
    (h : tqConvert hash usfmLook manifest inDir outDir opts inFS = Except.ok st) :
    LNOK st := by
  unfold tqConvert at h
  dsimp only at h
  cases h2 : tqProjects hash usfmLook inFS inDir outDir opts
      manifest.dublinCore.language.identifier manifest.projects emptySt with
  | error e => rw [h2] at h; exact absurd h (by simp)
  | ok s2 =>
  rw [h2] at h
  dsimp only at h
  cases h3 : copyCommonRootFiles hash inFS inDir outDir s2 with
  | error e => rw [h3] at h; exact absurd h (by simp)
  | ok s3 =>
  rw [h3] at h
  dsimp only at h
  have i0 : LNOK emptySt := by
    intro k ln hk
    exact absurd hk (by simp [emptySt, lookupA])
  have i2 := LNOK_tqProjects _ h2 i0
  have i3 := LNOK_of_namesEq (namesFixed_copyCommonRootFiles h3).2 i2
  exact LNOK_of_namesEq (namesFixed_copyLicenseIngredient h).2 i3

/-!  Membership growth of currentScope through the TQ loop. -/

theorem scopeMem_tqStep {hash : Str → Str} {usfmLook : Str → Option LocalizedBookNames}
    {inFS : FS} {inDir outDir : Str} {opts : HOptions} {lang : Str}
    {p : Project} {st st2 : ConvSt}
    (h : tqStep hash usfmLook inFS inDir outDir opts lang p st = Except.ok st2)
    {code : Str} (hc : code ∈ st.currentScope) : code ∈ st2.currentScope := by
  unfold tqStep at h
  dsimp only at h
  split at h
  · cases h; exact hc
  · obtain ⟨c, _, rfl⟩ := copyFileWS_ok h
    show code ∈ (tsvBookkeeping usfmLook opts lang p st).currentScope
    rw [tsvBookkeeping_currentScope]
    exact List.mem_cons_of_mem _ hc

theorem tqStep_adds {hash : Str → Str} {usfmLook : Str → Option LocalizedBookNames}
    {inFS : FS} {inDir outDir : Str} {opts : HOptions} {lang : Str}
    {p : Project} {st st2 : ConvSt}
    (h : tqStep hash usfmLook inFS inDir outDir opts lang p st = Except.ok st2)
    (hstat : statPath inFS (twlSrcPath inDir p) = true) :
    codeFromProjectID (lowStr p.identifier) ∈ st2.currentScope := by
  unfold tqStep at h
  dsimp only at h
  split at h
  · rename_i hfalse
    rw [hstat] at hfalse
    exact absurd hfalse (by decide)
  · obtain ⟨c, _, rfl⟩ := copyFileWS_ok h
    show _ ∈ (tsvBookkeeping usfmLook opts lang p st).currentScope
    rw [tsvBookkeeping_currentScope]
    exact List.mem_cons_self _ _

theorem tqProjects_scopeMono {hash : Str → Str}
    {usfmLook : Str → Option LocalizedBookNames} {inFS : FS} {inDir outDir : Str}
    {opts : HOptions} {lang : Str} :
    ∀ (ps : List Project) {st st2 : ConvSt} {code : Str},
      tqProjects hash usfmLook inFS inDir outDir opts lang ps st = Except.ok st2 →
      code ∈ st.currentScope → code ∈ st2.currentScope
  | [], st, st2, code, h, hc => by cases h; exact hc
  | p :: ps, st, st2, code, h, hc => by
    unfold tqProjects at h
    cases hq : tqStep hash usfmLook inFS inDir outDir opts lang p st with
    | error e => rw [hq] at h; exact absurd h (by simp)
    | ok stA =>
      rw [hq] at h
      exact tqProjects_scopeMono ps h (scopeMem_tqStep hq hc)

theorem tqProjects_scopeMem {hash : Str → Str}
    {usfmLook : Str → Option LocalizedBookNames} {inFS : FS} {inDir outDir : Str}
    {opts : HOptions} {lang : Str} :
    ∀ (ps : List Project) {st st2 : ConvSt} {p : Project},
      tqProjects hash usfmLook inFS inDir outDir opts lang ps st = Except.ok st2 →
      p ∈ ps → statPath inFS (twlSrcPath inDir p) = true →
      codeFromProjectID (lowStr p.identifier) ∈ st2.currentScope
  | [], st, st2, p, h, hp, _ => absurd hp (by simp)
  | p0 :: ps, st, st2, p, h, hp, hstat => by
    unfold tqProjects at h
    cases hc : tqStep hash usfmLook inFS inDir outDir opts lang p0 st with
    | error e => rw [hc] at h; exact absurd h (by simp)
    | ok stA =>
      rw [hc] at h
      rcases List.mem_cons.mp hp with rfl | hp2
      · exact tqProjects_scopeMono ps h (tqStep_adds hc hstat)
      · exact tqProjects_scopeMem ps h hp2 hstat

/-- The non-canonical uppercase code of a processed TQ project is a key
of the final currentScope map. -/
theorem tqConvert_scopeMem {hash : Str → Str}
    {usfmLook : Str → Option LocalizedBookNames} {manifest : Manifest}
    {inDir outDir : Str} {opts : HOptions} {inFS : FS} {st : ConvSt} {p : Project}
    (h : tqConvert hash usfmLook manifest inDir outDir opts inFS = Except.ok st)
    (hp : p ∈ manifest.projects)
    (hstat : statPath inFS (twlSrcPath inDir p) = true) :
    codeFromProjectID (lowStr p.identifier) ∈ st.currentScope := by
  unfold tqConvert at h
  dsimp only at h
  cases h2 : tqProjects hash usfmLook inFS inDir outDir opts
      manifest.dublinCore.language.identifier manifest.projects emptySt with
  | error e => rw [h2] at h; exact absurd h (by simp)
  | ok s2 =>
  rw [h2] at h
  dsimp only at h
  cases h3 : copyCommonRootFiles hash inFS inDir outDir s2 with
  | error e => rw [h3] at h; exact absurd h (by simp)
  | ok s3 =>
  rw [h3] at h
  dsimp only at h
  have m2 := tqProjects_scopeMem _ h2 hp hstat
  rw [← (namesFixed_copyCommonRootFiles h3).1] at m2
  rw [← (namesFixed_copyLicenseIngredient h).1] at m2
  exact m2

theorem tsvBookkeeping_names_none {usfmLook : Str → Option LocalizedBookNames}
    {opts : HOptions} {lang : Str} {p : Project} {st : ConvSt}
    (hb : byID (lowStr p.identifier) = none) :
    (tsvBookkeeping usfmLook opts lang p st).localizedNames = st.localizedNames := by
  unfold tsvBookkeeping
  dsimp only
  split
  · rw [if_neg (fun hne => hne (lnEntry_none hb))]
  · rw [if_neg (fun hne => hne (lnEntry_none hb))]

/-- A processed TQ project records its (possibly non-canonical)
uppercase book code in the new ingredient scope while leaving the
localized names untouched when the identifier is not canonical. -/
theorem tqStep_scopeRecord {hash : Str → Str}
    {usfmLook : Str → Option LocalizedBookNames} {inFS : FS} {inDir outDir : Str}
    {opts : HOptions} {lang : Str} {p : Project} {st st2 : ConvSt}
    (h : tqStep hash usfmLook inFS inDir outDir opts lang p st = Except.ok st2)
    (hstat : statPath inFS (twlSrcPath inDir p) = true)
    (hb : byID (lowStr p.identifier) = none) :
    codeFromProjectID (lowStr p.identifier) ∈ st2.currentScope ∧
    (∃ ing : Ingredient,
      lookupA st2.ingredients ("ingredients/".data ++ tqDest inDir p) = some ing ∧
      ing.scope = some [codeFromProjectID (lowStr p.identifier)]) ∧
    st2.localizedNames = st.localizedNames := by
  have hmem := tqStep_adds h hstat
  unfold tqStep at h
  dsimp only at h
  split at h
  · rename_i hfalse
    rw [hstat] at hfalse
    exact absurd hfalse (by decide)
  · obtain ⟨c, _, rfl⟩ := copyFileWS_ok h
    refine ⟨hmem, ⟨_, lookupA_cons_self _ _ _, rfl⟩, ?_⟩
    show (tsvBookkeeping usfmLook opts lang p st).localizedNames = st.localizedNames
    exact tsvBookkeeping_names_none hb


/-!  Lemmas about the line scanner and the reconstruction of the file. -/

theorem joinNL_cons_ne_nil (l : Str) {ls : List Str} (h : ls ≠ []) :
    joinNL (l :: ls) = l ++ '\n' :: joinNL ls := by
  cases ls with
  | nil => exact absurd rfl h
  | cons a as => rfl

theorem consHead_ne_nil (c : Char) (L : List Str) : consHead c L ≠ [] := by
  cases L <;> simp [consHead]

theorem linesRaw_ne_nil : ∀ s : Str, linesRaw s ≠ []
  | [] => by simp [linesRaw]
  | c :: r => by
    unfold linesRaw
    split
    · simp
    · exact consHead_ne_nil c _

theorem joinNL_consHead (c : Char) : ∀ L : List Str, joinNL (consHead c L) = c :: joinNL L
  | [] => rfl
  | [_] => rfl
  | _ :: _ :: _ => rfl

theorem joinNL_linesRaw : ∀ s : Str, joinNL (linesRaw s) = s
  | [] => rfl
  | c :: r => by
    unfold linesRaw
    split
    · rename_i hc
      rw [joinNL_cons_ne_nil _ (linesRaw_ne_nil r), joinNL_linesRaw r, hc]
      rfl
    · rw [joinNL_consHead, joinNL_linesRaw r]

theorem endsNL_cons (c : Char) {r : Str} (h : r ≠ []) : endsNL (c :: r) = endsNL r := by
  unfold endsNL
  cases r with
  | nil => exact absurd rfl h
  | cons b rs => rw [List.getLast?_cons_cons]

theorem endsNL_mem {s : Str} (h : endsNL s = true) : '\n' ∈ s := by
  have h2 : s.getLast? = some '\n' := by simpa [endsNL] using h
  exact List.mem_of_mem_getLast? h2

theorem consHead_length {c : Char} : ∀ {L : List Str}, L ≠ [] → (consHead c L).length = L.length
  | [], h => absurd rfl h
  | _ :: _, _ => rfl

theorem mem_nl_linesRaw_len : ∀ {r : Str}, '\n' ∈ r → 2 ≤ (linesRaw r).length
  | [], h => absurd h (List.not_mem_nil _)
  | c :: r2, h => by
    unfold linesRaw
    split
    · have hne := linesRaw_ne_nil r2
      have hlen : 1 ≤ (linesRaw r2).length := by
        cases hQ : linesRaw r2 with
        | nil => exact absurd hQ hne
        | cons a as => simp
      simp only [List.length_cons]
      omega
    · rename_i hc
      have hr : '\n' ∈ r2 := by
        cases List.mem_cons.mp h with
        | inl he => exact absurd he.symm hc
        | inr hm => exact hm
      have ih := mem_nl_linesRaw_len hr
      rw [consHead_length (linesRaw_ne_nil r2)]
      exact ih

theorem consHead_getLast {c : Char} {L : List Str} (h : 2 ≤ L.length) :
    (consHead c L).getLast? = L.getLast? := by
  match L with
  | [] => simp at h
  | [l] => simp at h
  | l :: l2 :: ls =>
    show ((c :: l) :: l2 :: ls).getLast? = _
    rw [List.getLast?_cons_cons, List.getLast?_cons_cons]

theorem endsNL_getLast : ∀ {s : Str}, endsNL s = true → (linesRaw s).getLast? = some []
  | [], h => by simp [endsNL] at h
  | c :: r, h => by
    unfold linesRaw
    split
    · cases r with
      | nil => rfl
      | cons b rs =>
        have h2 : endsNL (b :: rs) = true := by
          rw [endsNL_cons c (by simp)] at h; exact h
        have ih := endsNL_getLast h2
        have hne := linesRaw_ne_nil (b :: rs)
        cases hQ : linesRaw (b :: rs) with
        | nil => exact absurd hQ hne
        | cons a as =>
          rw [hQ] at ih
          rw [List.getLast?_cons_cons]
          exact ih
    · rename_i hc
      cases r with
      | nil =>
        exfalso
        have hceq : c = '\n' := by simpa [endsNL] using h
        exact hc hceq
      | cons b rs =>
        have h2 : endsNL (b :: rs) = true := by
          rw [endsNL_cons c (by simp)] at h; exact h
        have hmem : '\n' ∈ b :: rs := endsNL_mem h2
        have hlen := mem_nl_linesRaw_len hmem
        rw [consHead_getLast hlen]
        exact endsNL_getLast h2

theorem joinNL_concat_nil : ∀ {xs : List Str}, xs ≠ [] →
    joinNL (xs ++ [[]]) = joinNL xs ++ ['\n']
  | [], h => absurd rfl h
  | [_], _ => rfl
  | x :: x2 :: xs, _ => by
    have ih := @joinNL_concat_nil (x2 :: xs) (by simp)
    show joinNL (x :: ((x2 :: xs) ++ [[]])) = (x ++ '\n' :: joinNL (x2 :: xs)) ++ ['\n']
    rw [joinNL_cons_ne_nil _ (by simp), ih]
    simp

theorem linesRaw_decomp {s : Str} (h : endsNL s = true) :
    linesRaw s = (linesRaw s).dropLast ++ [[]] := by
  have hne := linesRaw_ne_nil s
  have hg := endsNL_getLast h
  have hsplit := List.dropLast_append_getLast hne
  rw [List.getLast?_eq_getLast _ hne] at hg
  have hlast := Option.some.inj hg
  conv_lhs => rw [← hsplit]
  rw [hlast]

theorem dropCR_id {l : Str} (h : l.getLast? ≠ some '\r') : dropCR l = l := by
  unfold dropCR
  rw [if_neg h]

theorem linesRaw_head_nil : ∀ {r : Str}, (linesRaw r).head? = some [] →
    r = [] ∨ r.head? = some '\n' := by
  intro r h
  match r with
  | [] => exact Or.inl rfl
  | c :: r2 =>
    by_cases hc : c = '\n'
    · exact Or.inr (by rw [hc]; rfl)
    · exfalso
      unfold linesRaw at h
      rw [if_neg hc] at h
      cases hL : linesRaw r2 with
      | nil => exact linesRaw_ne_nil r2 hL
      | cons a as =>
        rw [hL] at h
        simp [consHead] at h

theorem linesRaw_noCR : ∀ {s : Str}, hasSensitiveCR s = false →
    ∀ l ∈ linesRaw s, l.getLast? ≠ some '\r'
  | [], _, l, hl => by
    simp [linesRaw] at hl
    subst hl; simp
  | c :: r, hcr, l, hl => by
    have hparts : (c == '\r' && (r.isEmpty || r.head? == some '\n')) = false ∧
        hasSensitiveCR r = false := by
      simpa [hasSensitiveCR] using hcr
    unfold linesRaw at hl
    by_cases hc : c = '\n'
    · rw [if_pos hc] at hl
      cases List.mem_cons.mp hl with
      | inl he => subst he; simp
      | inr hm => exact linesRaw_noCR hparts.2 l hm
    · rw [if_neg hc] at hl
      cases hL : linesRaw r with
      | nil => exact absurd hL (linesRaw_ne_nil r)
      | cons a as =>
        rw [hL] at hl
        unfold consHead at hl
        cases List.mem_cons.mp hl with
        | inl he =>
          subst he
          cases ha : a with
          | nil =>
            have hhead : (linesRaw r).head? = some [] := by rw [hL, ha]; rfl
            have hr := linesRaw_head_nil hhead
            have hcne : c ≠ '\r' := by
              intro hceq
              have hfalse := hparts.1
              rw [hceq] at hfalse
              simp at hfalse
              rcases hr with h1 | h1
              · rw [h1] at hfalse; simp at hfalse
              · rw [h1] at hfalse; simp at hfalse
            intro hgl
            exact hcne (by simpa using hgl)
          | cons b bs =>
            have hmem : a ∈ linesRaw r := by rw [hL]; exact List.mem_cons_self _ _
            have ih := linesRaw_noCR hparts.2 a hmem
            rw [ha] at ih
            rw [List.getLast?_cons_cons]
            exact ih
        | inr hm =>
          have hmem : l ∈ linesRaw r := by rw [hL]; exact List.mem_cons_of_mem _ hm
          exact linesRaw_noCR hparts.2 l hmem

theorem map_dropCR_id : ∀ {L : List Str}, (∀ l ∈ L, l.getLast? ≠ some '\r') →
    L.map dropCR = L
  | [], _ => rfl
  | a :: as, h => by
    rw [List.map_cons, dropCR_id (h a (List.mem_cons_self _ _)),
      map_dropCR_id (fun l hl => h l (List.mem_cons_of_mem _ hl))]

theorem scanLines_reconstruct {s : Str} (hcr : hasSensitiveCR s = false) :
    joinNL (scanLines s) ++ (if endsNL s then ['\n'] else []) = s := by
  unfold scanLines
  by_cases hs : s = []
  · subst hs; rfl
  · rw [if_neg hs]
    by_cases hnl : endsNL s = true
    · rw [if_pos hnl, if_pos hnl]
      have hnoCR : ∀ l ∈ (linesRaw s).dropLast, l.getLast? ≠ some '\r' :=
        fun l hl => linesRaw_noCR hcr l (List.mem_of_mem_dropLast hl)
      rw [map_dropCR_id hnoCR]
      have hd := linesRaw_decomp hnl
      have hxne : (linesRaw s).dropLast ≠ [] := by
        intro h0
        rw [h0] at hd
        simp at hd
        have hj := joinNL_linesRaw s
        rw [hd] at hj
        exact hs hj.symm
      have hjoin := joinNL_concat_nil hxne
      rw [← hd] at hjoin
      rw [← hjoin, joinNL_linesRaw]
    · rw [if_neg hnl, if_neg hnl]
      rw [map_dropCR_id (fun l hl => linesRaw_noCR hcr l hl)]
      rw [joinNL_linesRaw]
      simp

theorem rewriteLine_id : ∀ {l : Str}, lineMatches l = false → rewriteLine l = l
  | [], _ => rfl
  | c :: rest, h => by
    have hparts : (c == '\t' && (matchTok rest).isSome) = false ∧
        lineMatches rest = false := by
      simpa [lineMatches] using h
    unfold rewriteLine
    by_cases hc : c = '\t'
    · rw [if_pos hc]
      cases hM : matchTok rest with
      | some cap =>
        exfalso
        have h1 := hparts.1
        rw [hc, hM] at h1
        simp at h1
      | none =>
        dsimp only
        rw [rewriteLine_id hparts.2]
    · rw [if_neg hc, rewriteLine_id hparts.2]

theorem rewriteTSV_id {s : Str} (hcr : hasSensitiveCR s = false)
    (hnm : ∀ l ∈ scanLines s, lineMatches l = false) : rewriteTSV s = s := by
  unfold rewriteTSV
  have hmap : (scanLines s).map rewriteLine = (scanLines s).map id :=
    List.map_congr_left (fun l hl => rewriteLine_id (hnm l hl))
  rw [hmap, List.map_id, scanLines_reconstruct hcr]

/-!  Lemmas about substring counting and the link rewrite. -/

theorem suffix_cons {l t : Str} {x : Char} (h : l <:+ t) : l <:+ x :: t := by
  obtain ⟨u, hu⟩ := h
  exact ⟨x :: u, by rw [List.cons_append, hu]⟩

theorem countSub_cons (pat : Str) (c : Char) (l : Str) :
    countSub pat (c :: l) = (if pat.isPrefixOf (c :: l) then 1 else 0) + countSub pat l :=
  rfl

theorem head_eq_of_isPrefix {p l : Str} (h : p <+: l) (hne : p ≠ []) :
    l.head? = p.head? := by
  obtain ⟨t, ht⟩ := h
  cases p with
  | nil => exact absurd rfl hne
  | cons a as => rw [← ht]; rfl

theorem countSub_pos_of_isPrefix {pat l : Str} (hne : pat ≠ []) (hp : pat <+: l) :
    0 < countSub pat l := by
  match l with
  | [] => exact absurd (List.prefix_nil.mp hp) hne
  | c :: rest =>
    rw [countSub_cons, if_pos ( List.isPrefixOf_iff_prefix.mpr hp)]
    omega

theorem prefix_split {pat a b : Str} (hp : pat <+: a ++ b) (hlen : a.length < pat.length) :
    pat.take a.length = a ∧ pat.drop a.length <+: b := by
  have heq : pat = a ++ b.take (pat.length - a.length) := by
    have h1 := List.prefix_iff_eq_take.mp hp
    rw [List.take_append_eq_append_take, List.take_of_length_le (by omega)] at h1
    exact h1
  constructor
  · rw [heq, List.take_left]
  · rw [heq, List.drop_left]
    exact List.take_prefix _ _

theorem countSub_append {pat : Str} (hne : pat ≠ []) :
    ∀ (a b : Str),
      (∀ k, 0 < k → k < pat.length → ¬ (pat.take k <:+ a ∧ pat.drop k <+: b)) →
      countSub pat (a ++ b) = countSub pat a + countSub pat b
  | [], b, _ => by simp [countSub]
  | x :: a, b, hcross => by
    have ih := countSub_append hne a b (fun k hk1 hk2 hkc =>
      hcross k hk1 hk2 ⟨suffix_cons hkc.1, hkc.2⟩)
    rw [List.cons_append, countSub_cons, countSub_cons, ih]
    have hiff : (pat <+: x :: (a ++ b)) ↔ (pat <+: x :: a) := by
      constructor
      · intro hp
        by_cases hlen : pat.length ≤ (x :: a).length
        · have h1 := List.prefix_iff_eq_take.mp hp
          rw [show x :: (a ++ b) = (x :: a) ++ b from rfl,
            List.take_append_eq_append_take, Nat.sub_eq_zero_of_le hlen] at h1
          simp only [List.take_zero, List.append_nil] at h1
          exact List.prefix_iff_eq_take.mpr h1
        · exfalso
          push_neg at hlen
          have hs := prefix_split (show pat <+: (x :: a) ++ b from hp) hlen
          refine hcross (x :: a).length (by simp) hlen ⟨?_, hs.2⟩
          rw [hs.1]
      · intro hp
        exact hp.trans (show (x :: a) <+: (x :: a) ++ b from List.prefix_append _ _)
    have hind : pat.isPrefixOf (x :: (a ++ b)) = pat.isPrefixOf (x :: a) := by
      cases hQ : pat.isPrefixOf (x :: a) with
      | true =>
        exact List.isPrefixOf_iff_prefix.2 (hiff.mpr ( List.isPrefixOf_iff_prefix.1 hQ))
      | false =>
        cases hQ2 : pat.isPrefixOf (x :: (a ++ b)) with
        | false => rfl
        | true =>
          exfalso
          have hp := hiff.mp ( List.isPrefixOf_iff_prefix.1 hQ2)
          rw [ List.isPrefixOf_iff_prefix.2 hp] at hQ
          exact absurd hQ (by simp)
    rw [hind]
    omega

theorem countSub_append_cons {pat : Str} (hne : pat ≠ []) {c : Char} (hc : c ∉ pat)
    (a b : Str) : countSub pat (a ++ c :: b) = countSub pat a + countSub pat (c :: b) := by
  apply countSub_append hne
  intro k hk1 hk2 hkc
  obtain ⟨t, ht⟩ := hkc.2
  cases hD : pat.drop k with
  | nil =>
    have := List.drop_eq_nil_iff.mp hD
    omega
  | cons d ds =>
    rw [hD] at ht
    rw [List.cons_append] at ht
    have hd : d = c := by injection ht
    have hdm : d ∈ pat := List.drop_subset k pat (by rw [hD]; exact List.mem_cons_self _ _)
    rw [hd] at hdm
    exact hc hdm

theorem countSub_cons_notMem {pat : Str} (hne : pat ≠ []) {c : Char} (hc : c ∉ pat)
    (b : Str) : countSub pat (c :: b) = countSub pat b := by
  rw [countSub_cons]
  have hfalse : pat.isPrefixOf (c :: b) = false := by
    cases hQ : pat.isPrefixOf (c :: b) with
    | false => rfl
    | true =>
      exfalso
      obtain ⟨t, ht⟩ := List.isPrefixOf_iff_prefix.1 hQ
      cases pat with
      | nil => exact hne rfl
      | cons p ps =>
        rw [List.cons_append] at ht
        have hp : p = c := by injection ht
        subst hp
        exact hc (List.mem_cons_self _ _)
  rw [hfalse]
  simp

theorem slashMid_eq : ('/' :: "tw/dict/bible/".data : Str) = "/tw/dict/bible/".data := rfl

theorem tokenOf_assoc (opq cat art : Str) : tokenOf opq cat art =
    rcPat ++ (opq ++ ("/tw/dict/bible/".data ++ (cat ++ '/' :: art))) := by
  unfold tokenOf rcPat
  rw [List.append_assoc, List.append_assoc, slashMid_eq]

theorem countSub_rc_token {opq cat art : Str} (hos : '/' ∉ opq)
    (h1 : countSub rcPat opq = 0) (h2 : countSub rcPat (cat ++ '/' :: art) = 0) :
    countSub rcPat (tokenOf opq cat art) = 1 := by
  have hne : rcPat ≠ [] := by decide
  have hlen5 : rcPat.length = 5 := rfl
  have hcrossA : ∀ k, 0 < k → k < rcPat.length →
      ¬ (rcPat.take k <:+ rcPat ∧
         rcPat.drop k <+: (opq ++ ("/tw/dict/bible/".data ++ (cat ++ '/' :: art)))) := by
    intro k hk1 hk2 hAB
    rw [hlen5] at hk2
    interval_cases k <;> exact absurd hAB.1 (by decide)
  have hcrossB : ∀ k, 0 < k → k < rcPat.length →
      ¬ (rcPat.take k <:+ opq ∧
         rcPat.drop k <+: ("/tw/dict/bible/".data ++ (cat ++ '/' :: art))) := by
    intro k hk1 hk2 hAB
    rw [hlen5] at hk2
    interval_cases k
    · have hh := head_eq_of_isPrefix hAB.2 (by decide)
      rw [show (("/tw/dict/bible/".data ++ (cat ++ '/' :: art)) : Str).head? = some '/'
        from rfl] at hh
      exact absurd hh (by decide)
    · have hh := head_eq_of_isPrefix hAB.2 (by decide)
      rw [show (("/tw/dict/bible/".data ++ (cat ++ '/' :: art)) : Str).head? = some '/'
        from rfl] at hh
      exact absurd hh (by decide)
    · obtain ⟨t, ht⟩ := hAB.2
      have ht2 : ('/' :: '/' :: t : Str) =
          '/' :: 't' :: ("w/dict/bible/".data ++ (cat ++ '/' :: art)) := ht
      have he1 : ('/' :: t : Str) = 't' :: ("w/dict/bible/".data ++ (cat ++ '/' :: art)) := by
        injection ht2
      have he2 : '/' = 't' := by injection he1
      exact absurd he2 (by decide)
    · have hsub := List.IsSuffix.subset hAB.1
      have hm : '/' ∈ rcPat.take 4 := by decide
      exact hos (hsub hm)
  have hcrossC : ∀ k, 0 < k → k < rcPat.length →
      ¬ (rcPat.take k <:+ "/tw/dict/bible/".data ∧
         rcPat.drop k <+: (cat ++ '/' :: art)) := by
    intro k hk1 hk2 hAB
    rw [hlen5] at hk2
    interval_cases k <;> exact absurd hAB.1 (by decide)
  rw [tokenOf_assoc, countSub_append hne _ _ hcrossA,
    countSub_append hne _ _ hcrossB, countSub_append hne _ _ hcrossC, h1, h2]
  decide

theorem countSub_rc_rew {R : Str} (h2 : countSub rcPat R = 0) :
    countSub rcPat (payloadPat ++ (R ++ ".md".data)) = 0 := by
  have hne : rcPat ≠ [] := by decide
  have hlen5 : rcPat.length = 5 := rfl
  have hcrossA : ∀ k, 0 < k → k < rcPat.length →
      ¬ (rcPat.take k <:+ payloadPat ∧ rcPat.drop k <+: (R ++ ".md".data)) := by
    intro k hk1 hk2 hAB
    rw [hlen5] at hk2
    interval_cases k <;> exact absurd hAB.1 (by decide)
  have hcrossB : ∀ k, 0 < k → k < rcPat.length →
      ¬ (rcPat.take k <:+ R ∧ rcPat.drop k <+: ".md".data) := by
    intro k hk1 hk2 hAB
    rw [hlen5] at hk2
    interval_cases k <;> exact absurd hAB.2 (by decide)
  rw [countSub_append hne _ _ hcrossA, countSub_append hne _ _ hcrossB, h2]
  decide

theorem countSub_payload_rew {R : Str} (h2 : countSub payloadPat R = 0) :
    countSub payloadPat (payloadPat ++ (R ++ ".md".data)) = 1 := by
  have hne : payloadPat ≠ [] := by decide
  have hlen : payloadPat.length = 10 := rfl
  have hcrossA : ∀ k, 0 < k → k < payloadPat.length →
      ¬ (payloadPat.take k <:+ payloadPat ∧ payloadPat.drop k <+: (R ++ ".md".data)) := by
    intro k hk1 hk2 hAB
    rw [hlen] at hk2
    interval_cases k <;> exact absurd hAB.1 (by decide)
  have hcrossB : ∀ k, 0 < k → k < payloadPat.length →
      ¬ (payloadPat.take k <:+ R ∧ payloadPat.drop k <+: ".md".data) := by
    intro k hk1 hk2 hAB
    rw [hlen] at hk2
    interval_cases k <;> exact absurd hAB.2 (by decide)
  rw [countSub_append hne _ _ hcrossA, countSub_append hne _ _ hcrossB, h2]
  decide

theorem descRewritten_assoc (pre opq cat art : Str) :
    descRewritten (.token pre opq cat art) =
      pre ++ '\t' :: (payloadPat ++ ((cat ++ '/' :: art) ++ ".md".data)) := by
  show pre ++ '\t' :: ("./payload/".data ++ (cat ++ '/' :: art) ++ ".md".data) = _
  rw [List.append_assoc "./payload/".data (cat ++ '/' :: art) ".md".data]
  rfl

theorem countSub_rc_lineRew {pre opq cat art : Str}
    (hOK : descOK (.token pre opq cat art)) :
    countSub rcPat (descRewritten (.token pre opq cat art)) = 0 := by
  obtain ⟨h1, h2, h3, h4, h5, h6, h7, h8, h9, h10, h11, h12, h13⟩ := hOK
  rw [descRewritten_assoc, countSub_append_cons (by decide) (by decide) pre _,
    countSub_cons_notMem (by decide) (by decide), countSub_rc_rew h4, h1]

theorem countSub_payload_lineRew {pre opq cat art : Str}
    (hOK : descOK (.token pre opq cat art)) :
    countSub payloadPat (descRewritten (.token pre opq cat art)) = 1 := by
  obtain ⟨h1, h2, h3, h4, h5, h6, h7, h8, h9, h10, h11, h12, h13⟩ := hOK
  rw [descRewritten_assoc, countSub_append_cons (by decide) (by decide) pre _,
    countSub_cons_notMem (by decide) (by decide), countSub_payload_rew h5, h2]

theorem countSub_rc_lineTok {pre opq cat art : Str}
    (hOK : descOK (.token pre opq cat art)) :
    countSub rcPat (descLine (.token pre opq cat art)) = 1 := by
  obtain ⟨h1, h2, h3, h4, h5, h6, h7, h8, h9, h10, h11, h12, h13⟩ := hOK
  show countSub rcPat (pre ++ '\t' :: tokenOf opq cat art) = 1
  rw [countSub_append_cons (by decide) (by decide) pre _,
    countSub_cons_notMem (by decide) (by decide), countSub_rc_token h7 h3 h4, h1]

theorem countSub_joinNL {pat : Str} (hne : pat ≠ []) (hnl : '\n' ∉ pat) :
    ∀ ls : List Str, countSub pat (joinNL ls) = (ls.map (countSub pat)).sum
  | [] => by simp [joinNL, countSub]
  | [l] => by simp [joinNL]
  | l :: l2 :: ls => by
    have ih := countSub_joinNL hne hnl (l2 :: ls)
    rw [joinNL_cons_ne_nil _ (by simp), countSub_append_cons hne hnl l _,
      countSub_cons_notMem hne hnl, ih]
    simp

theorem countSub_mkFile {pat : Str} (hne : pat ≠ []) (hnl : '\n' ∉ pat) (ls : List Str) :
    countSub pat (mkFile ls) = (ls.map (countSub pat)).sum := by
  unfold mkFile
  rw [show (['\n'] : Str) = '\n' :: [] from rfl, countSub_append_cons hne hnl _ _,
    countSub_cons_notMem hne hnl, countSub_joinNL hne hnl ls]
  simp [countSub]

theorem prefix_cut {pat a b : Str} {c : Char} (hc : c ∉ pat) (h : pat <+: a ++ c :: b) :
    pat <+: a := by
  by_cases hlen : pat.length ≤ a.length
  · have h1 := List.prefix_iff_eq_take.mp h
    rw [List.take_append_eq_append_take, Nat.sub_eq_zero_of_le hlen] at h1
    simp only [List.take_zero, List.append_nil] at h1
    exact List.prefix_iff_eq_take.mpr h1
  · exfalso
    push_neg at hlen
    have hs := prefix_split h hlen
    obtain ⟨t, ht⟩ := hs.2
    cases hD : pat.drop a.length with
    | nil =>
      have := List.drop_eq_nil_iff.mp hD
      omega
    | cons d ds =>
      rw [hD, List.cons_append] at ht
      have hd : d = c := by injection ht
      have hdm : d ∈ pat := List.drop_subset _ pat (by rw [hD]; exact List.mem_cons_self _ _)
      rw [hd] at hdm
      exact hc hdm

theorem matchTok_token {opq cat art : Str} (ho : opq ≠ []) (hos : '/' ∉ opq)
    (hcn : (cat ++ '/' :: art) ≠ []) (hct : '\t' ∉ (cat ++ '/' :: art)) :
    matchTok (tokenOf opq cat art) = some (cat ++ '/' :: art) := by
  have hpre : ("rc://".data : Str).isPrefixOf
      (rcPat ++ (opq ++ ("/tw/dict/bible/".data ++ (cat ++ '/' :: art)))) = true :=
     List.isPrefixOf_iff_prefix.mpr (List.prefix_append _ _)
  have h5 : (rcPat ++ (opq ++ ("/tw/dict/bible/".data ++ (cat ++ '/' :: art)))).drop 5
      = opq ++ ("/tw/dict/bible/".data ++ (cat ++ '/' :: art)) := by
    rw [show (5 : Nat) = rcPat.length from rfl, List.drop_left]
  have hsplit : ("/tw/dict/bible/".data ++ (cat ++ '/' :: art) : Str)
      = '/' :: ("tw/dict/bible/".data ++ (cat ++ '/' :: art)) := rfl
  have hTW : (opq ++ ("/tw/dict/bible/".data ++ (cat ++ '/' :: art))).takeWhile
      (fun c => !(c == '/')) = opq := by
    rw [hsplit, takeWhile_append_cons opq _ (by decide)]
    refine List.takeWhile_eq_self_iff.mpr (fun x hx => ?_)
    have hne2 : x ≠ '/' := fun he => hos (he ▸ hx)
    simp [hne2]
  have hdropOp : (opq ++ ("/tw/dict/bible/".data ++ (cat ++ '/' :: art))).drop opq.length
      = "/tw/dict/bible/".data ++ (cat ++ '/' :: art) := List.drop_left _ _
  have hpfx2 : ("/tw/dict/bible/".data : Str).isPrefixOf
      ("/tw/dict/bible/".data ++ (cat ++ '/' :: art)) = true :=
     List.isPrefixOf_iff_prefix.mpr (List.prefix_append _ _)
  have hdrop15 : ("/tw/dict/bible/".data ++ (cat ++ '/' :: art) : Str).drop 15
      = cat ++ '/' :: art := by
    rw [show (15 : Nat) = ("/tw/dict/bible/".data : Str).length from rfl, List.drop_left]
  rw [tokenOf_assoc]
  unfold matchTok
  rw [if_pos hpre]
  simp only [h5, hTW, hdropOp, hpfx2, hdrop15, if_true]
  rw [if_neg ho, if_pos ⟨hcn, hct⟩]

theorem rewriteLine_token : ∀ {pre opq cat art : Str},
    countSub rcPat pre = 0 → opq ≠ [] → '/' ∉ opq →
    (cat ++ '/' :: art) ≠ [] → '\t' ∉ (cat ++ '/' :: art) →
    rewriteLine (pre ++ '\t' :: tokenOf opq cat art) =
      pre ++ '\t' :: ("./payload/".data ++ (cat ++ '/' :: art) ++ ".md".data)
  | [], opq, cat, art, _, ho, hos, hcn, hct => by
    show rewriteLine ('\t' :: tokenOf opq cat art) = _
    unfold rewriteLine
    rw [if_pos rfl, matchTok_token ho hos hcn hct]
    rfl
  | x :: pre, opq, cat, art, hrc, ho, hos, hcn, hct => by
    have hx : countSub rcPat pre = 0 := by
      rw [countSub_cons] at hrc
      omega
    show rewriteLine (x :: (pre ++ '\t' :: tokenOf opq cat art)) = _
    unfold rewriteLine
    by_cases hxt : x = '\t'
    · rw [if_pos hxt]
      have hnone : matchTok (pre ++ '\t' :: tokenOf opq cat art) = none := by
        unfold matchTok
        rw [if_neg ?hng]
        case hng =>
          intro hP
          have hp := List.isPrefixOf_iff_prefix.1 hP
          have hcut : rcPat <+: pre := prefix_cut (by decide) hp
          have hpos := countSub_pos_of_isPrefix (by decide) hcut
          omega
      rw [hnone]
      dsimp only
      rw [rewriteLine_token hx ho hos hcn hct]
      rfl
    · rw [if_neg hxt]
      rw [rewriteLine_token hx ho hos hcn hct]
      rfl

theorem linesRaw_append_line : ∀ {l : Str}, '\n' ∉ l → ∀ r : Str,
    linesRaw (l ++ '\n' :: r) = l :: linesRaw r
  | [], _, r => by simp [linesRaw]
  | c :: l, h, r => by
    have hc : c ≠ '\n' := fun he => h (by rw [← he]; exact List.mem_cons_self _ _)
    show linesRaw (c :: (l ++ '\n' :: r)) = (c :: l) :: linesRaw r
    rw [linesRaw, if_neg hc, linesRaw_append_line (fun hm => h (List.mem_cons_of_mem _ hm)) r]
    rfl

theorem linesRaw_mkFile : ∀ {ls : List Str}, ls ≠ [] → (∀ l ∈ ls, '\n' ∉ l) →
    linesRaw (mkFile ls) = ls ++ [[]]
  | [], h, _ => absurd rfl h
  | [l], _, hnl => by
    show linesRaw (l ++ '\n' :: []) = [l] ++ [[]]
    rw [linesRaw_append_line (hnl l (List.mem_cons_self _ _)) []]
    rfl
  | l :: l2 :: ls, _, hnl => by
    have ih := @linesRaw_mkFile (l2 :: ls) (by simp)
      (fun x hx => hnl x (List.mem_cons_of_mem _ hx))
    have hjoin : mkFile (l :: l2 :: ls) = l ++ '\n' :: mkFile (l2 :: ls) := by
      unfold mkFile
      rw [joinNL_cons_ne_nil _ (by simp)]
      simp
    rw [hjoin, linesRaw_append_line (hnl l (List.mem_cons_self _ _)), ih]
    rfl

theorem mkFile_ne_nil (ls : List Str) : mkFile ls ≠ [] := by
  unfold mkFile
  intro h
  have h2 := congrArg List.length h
  simp at h2

theorem endsNL_mkFile (ls : List Str) : endsNL (mkFile ls) = true := by
  unfold endsNL mkFile
  rw [List.getLast?_concat]
  rfl

theorem scanLines_mkFile {ls : List Str} (hne : ls ≠ []) (hnl : ∀ l ∈ ls, '\n' ∉ l)
    (hcr : ∀ l ∈ ls, l.getLast? ≠ some '\r') :
    scanLines (mkFile ls) = ls := by
  unfold scanLines
  rw [if_neg (mkFile_ne_nil ls), if_pos (endsNL_mkFile ls), linesRaw_mkFile hne hnl,
    List.dropLast_concat, map_dropCR_id hcr]

theorem mem_token {x : Char} {opq cat art : Str} (hm : x ∈ tokenOf opq cat art) :
    x ∈ ("rc://".data : Str) ∨ x ∈ opq ∨ x ∈ ("/tw/dict/bible/".data : Str) ∨
      x ∈ cat ++ '/' :: art := by
  rw [tokenOf_assoc] at hm
  rcases List.mem_append.mp hm with h | h
  · exact Or.inl h
  rcases List.mem_append.mp h with h2 | h2
  · exact Or.inr (Or.inl h2)
  rcases List.mem_append.mp h2 with h3 | h3
  · exact Or.inr (Or.inr (Or.inl h3))
  · exact Or.inr (Or.inr (Or.inr h3))

theorem descLine_noNL : ∀ {d : LineDesc}, descOK d → '\n' ∉ descLine d
  | .plain l, h => h.2.2.2.1
  | .token pre opq cat art, h => by
    obtain ⟨h1, h2, h3, h4, h5, h6, h7, h8, h9, h10, h11, h12, h13⟩ := h
    intro hm
    have hm2 : '\n' ∈ pre ++ '\t' :: tokenOf opq cat art := hm
    rcases List.mem_append.mp hm2 with hp | hq
    · exact h10 hp
    rcases List.mem_cons.mp hq with he | ht
    · exact absurd he (by decide)
    rcases mem_token ht with h | h | h | h
    · exact absurd h (by decide)
    · exact h11 h
    · exact absurd h (by decide)
    · exact h12 h

theorem descLine_noCR : ∀ {d : LineDesc}, descOK d → (descLine d).getLast? ≠ some '\r'
  | .plain l, h => h.2.2.2.2
  | .token pre opq cat art, h => by
    obtain ⟨h1, h2, h3, h4, h5, h6, h7, h8, h9, h10, h11, h12, h13⟩ := h
    have hEq : descLine (.token pre opq cat art)
        = (pre ++ '\t' :: (rcPat ++ (opq ++ "/tw/dict/bible/".data))) ++ (cat ++ '/' :: art) := by
      show pre ++ '\t' :: tokenOf opq cat art = _
      rw [tokenOf_assoc]
      simp [List.append_assoc]
    rw [hEq]
    cases hc : (cat ++ '/' :: art) with
    | nil => exact absurd hc h8
    | cons d0 ds =>
      rw [getLast?_append_cons]
      rw [hc] at h13
      exact h13

theorem rewriteLine_desc : ∀ {d : LineDesc}, descOK d →
    rewriteLine (descLine d) = descRewritten d
  | .plain _, h => rewriteLine_id h.2.2.1
  | .token pre opq cat art, h => by
    obtain ⟨h1, h2, h3, h4, h5, h6, h7, h8, h9, h10, h11, h12, h13⟩ := h
    exact rewriteLine_token h1 h6 h7 h8 h9

theorem rewriteTSV_mkFile {ds : List LineDesc} (hne : ds ≠ []) (hOK : ∀ d ∈ ds, descOK d) :
    rewriteTSV (mkFile (ds.map descLine)) = mkFile (ds.map descRewritten) := by
  have hne2 : ds.map descLine ≠ [] := by
    intro h0
    exact hne (List.map_eq_nil_iff.mp h0)
  have hnl : ∀ l ∈ ds.map descLine, '\n' ∉ l := by
    intro l hl
    obtain ⟨d, hd, rfl⟩ := List.mem_map.mp hl
    exact descLine_noNL (hOK d hd)
  have hcr : ∀ l ∈ ds.map descLine, l.getLast? ≠ some '\r' := by
    intro l hl
    obtain ⟨d, hd, rfl⟩ := List.mem_map.mp hl
    exact descLine_noCR (hOK d hd)
  unfold rewriteTSV
  rw [scanLines_mkFile hne2 hnl hcr]
  have hmap : (ds.map descLine).map rewriteLine = ds.map descRewritten := by
    rw [List.map_map]
    exact List.map_congr_left (fun d hd => rewriteLine_desc (hOK d hd))
  rw [hmap, endsNL_mkFile]
  rfl

theorem sum_counts_rc {ds : List LineDesc} (hOK : ∀ d ∈ ds, descOK d) :
    ((ds.map descRewritten).map (countSub rcPat)).sum = 0 := by
  induction ds with
  | nil => rfl
  | cons d ds ih =>
    rw [List.map_cons, List.map_cons, List.sum_cons,
      ih (fun x hx => hOK x (List.mem_cons_of_mem _ hx))]
    have h0 : countSub rcPat (descRewritten d) = 0 := by
      cases d with
      | plain l => exact (hOK _ (List.mem_cons_self _ _)).1
      | token pre opq cat art => exact countSub_rc_lineRew (hOK _ (List.mem_cons_self _ _))
    rw [h0]

theorem sum_counts_payload {ds : List LineDesc} (hOK : ∀ d ∈ ds, descOK d) :
    ((ds.map descRewritten).map (countSub payloadPat)).sum
      = ds.countP (fun d => descIsToken d) := by
  induction ds with
  | nil => rfl
  | cons d ds ih =>
    rw [List.map_cons, List.map_cons, List.sum_cons,
      ih (fun x hx => hOK x (List.mem_cons_of_mem _ hx)), List.countP_cons]
    cases d with
    | plain l =>
      show countSub payloadPat l + _ = _
      rw [(hOK _ (List.mem_cons_self _ _)).2.1]
      simp [descIsToken]
    | token pre opq cat art =>
      rw [countSub_payload_lineRew (hOK _ (List.mem_cons_self _ _))]
      simp [descIsToken]
      omega

theorem sum_counts_rc_input {ds : List LineDesc} (hOK : ∀ d ∈ ds, descOK d) :
    ((ds.map descLine).map (countSub rcPat)).sum = ds.countP (fun d => descIsToken d) := by
  induction ds with
  | nil => rfl
  | cons d ds ih =>
    rw [List.map_cons, List.map_cons, List.sum_cons,
      ih (fun x hx => hOK x (List.mem_cons_of_mem _ hx)), List.countP_cons]
    cases d with
    | plain l =>
      show countSub rcPat l + _ = _
      rw [(hOK _ (List.mem_cons_self _ _)).1]
      simp [descIsToken]
    | token pre opq cat art =>
      rw [countSub_rc_lineTok (hOK _ (List.mem_cons_self _ _))]
      simp [descIsToken]
      omega

/-!  Totality of the license step and absence of a root license copy in
the TSV Translation Words Links strategy. -/

theorem ingLookup_copyFileACI {hash : Str → Str} {inFS : FS} {src outDir key : Str}
    {st st2 : ConvSt} {k : Str} (hk : k ≠ key)
    (h : copyFileAndComputeIngredient hash inFS src outDir key st = Except.ok st2) :
    lookupA st2.ingredients k = lookupA st.ingredients k := by
  obtain ⟨c, _, rfl⟩ := copyFileACI_ok h
  show lookupA ((key, _) :: st.ingredients) k = _
  exact lookupA_cons_ne _ _ hk

theorem ingLookup_copyFileWS {hash : Str → Str} {inFS : FS} {src outDir key : Str}
    {scope : Option (List Str)} {st st2 : ConvSt} {k : Str} (hk : k ≠ key)
    (h : copyFileWithScope hash inFS src outDir key scope st = Except.ok st2) :
    lookupA st2.ingredients k = lookupA st.ingredients k := by
  obtain ⟨c, _, rfl⟩ := copyFileWS_ok h
  show lookupA ((key, _) :: st.ingredients) k = _
  exact lookupA_cons_ne _ _ hk

theorem ingLookup_copyTreeLoop {hash : Str → Str} {inFS : FS}
    {srcDir outDir destPfx k : Str} (hk : ∀ rel, k ≠ destPfx ++ '/' :: rel) :
    ∀ (files : List (Str × Str)) {st st2 : ConvSt},
      copyTreeLoop hash inFS srcDir outDir destPfx files st = Except.ok st2 →
      lookupA st2.ingredients k = lookupA st.ingredients k
  | [], st, st2, h => by cases h; rfl
  | e :: rest, st, st2, h => by
    unfold copyTreeLoop at h
    dsimp only at h
    cases hc : copyFileAndComputeIngredient hash inFS e.1 outDir
        (destPfx ++ '/' :: e.1.drop (srcDir.length + 1)) st with
    | error err => rw [hc] at h; exact absurd h (by simp)
    | ok stA =>
      rw [hc] at h
      rw [ingLookup_copyTreeLoop hk rest h]
      exact ingLookup_copyFileACI (hk _) hc

theorem ingLookup_copyTree {hash : Str → Str} {inFS : FS}
    {srcDir outDir destPfx k : Str} (hk : ∀ rel, k ≠ destPfx ++ '/' :: rel)
    {st st2 : ConvSt}
    (h : copyTreeToIngredients hash inFS srcDir outDir destPfx st = Except.ok st2) :
    lookupA st2.ingredients k = lookupA st.ingredients k := by
  unfold copyTreeToIngredients at h
  split at h
  · exact ingLookup_copyTreeLoop hk _ h
  · exact absurd h (by simp)

theorem ingLookup_copyRootFile {hash : Str → Str} {inFS : FS} {inDir outDir name : Str}
    {st st2 : ConvSt} {k : Str} (hk : k ≠ name)
    (h : copyRootFileIfPresent hash inFS inDir outDir name st = Except.ok st2) :
    lookupA st2.ingredients k = lookupA st.ingredients k := by
  unfold copyRootFileIfPresent at h
  split at h
  · cases h; rfl
  · exact ingLookup_copyFileACI hk h

theorem ingLookup_copyCommonRootFiles {hash : Str → Str} {inFS : FS}
    {inDir outDir : Str} {st st2 : ConvSt} {k : Str}
    (h1 : k ≠ "README.md".data) (h2 : k ≠ ".gitignore".data)
    (h3 : ∀ rel, k ≠ ".gitea".data ++ '/' :: rel)
    (h4 : ∀ rel, k ≠ ".github".data ++ '/' :: rel)
    (h : copyCommonRootFiles hash inFS inDir outDir st = Except.ok st2) :
    lookupA st2.ingredients k = lookupA st.ingredients k := by
  unfold copyCommonRootFiles at h
  cases e1 : copyRootFileIfPresent hash inFS inDir outDir "README.md".data st with
  | error e => rw [e1] at h; exact absurd h (by simp)
  | ok s1 =>
  rw [e1] at h
  dsimp only at h
  cases e2 : copyRootFileIfPresent hash inFS inDir outDir ".gitignore".data s1 with
  | error e => rw [e2] at h; exact absurd h (by simp)
  | ok s2 =>
  rw [e2] at h
  dsimp only at h
  cases e3 : (if dirExists inFS (joinPath inDir ".gitea".data) then
      copyTreeToIngredients hash inFS (joinPath inDir ".gitea".data) outDir ".gitea".data s2
    else Except.ok s2) with
  | error e => rw [e3] at h; exact absurd h (by simp)
  | ok s3 =>
  rw [e3] at h
  dsimp only at h
  have f3 : lookupA s3.ingredients k = lookupA s2.ingredients k := by
    split at e3
    · exact ingLookup_copyTree h3 e3
    · cases e3; rfl
  have f4 : lookupA st2.ingredients k = lookupA s3.ingredients k := by
    split at h
    · exact ingLookup_copyTree h4 h
    · cases h; rfl
  rw [f4, f3, ingLookup_copyRootFile h2 e2, ingLookup_copyRootFile h1 e1]

theorem ingLookup_copyLicenseIngredient {hash : Str → Str} {inFS : FS}
    {inDir outDir : Str} {st st2 : ConvSt} {k : Str}
    (hk : k ≠ "ingredients/LICENSE.md".data)
    (h : copyLicenseIngredient hash inFS inDir outDir st = Except.ok st2) :
    lookupA st2.ingredients k = lookupA st.ingredients k := by
  rw [copyLicenseIngredient_ok h]
  show lookupA (("ingredients/LICENSE.md".data, _) :: st.ingredients) k = _
  exact lookupA_cons_ne _ _ hk

theorem ingLookup_tqStep {hash : Str → Str} {usfmLook : Str → Option LocalizedBookNames}
    {inFS : FS} {inDir outDir : Str} {opts : HOptions} {lang : Str}
    {p : Project} {st st2 : ConvSt} {k : Str}
    (hk : k ≠ "ingredients/".data ++ tqDest inDir p)
    (h : tqStep hash usfmLook inFS inDir outDir opts lang p st = Except.ok st2) :
    lookupA st2.ingredients k = lookupA st.ingredients k := by
  unfold tqStep at h
  dsimp only at h
  split at h
  · cases h; rfl
  · rw [ingLookup_copyFileWS hk h]
    rw [tsvBookkeeping_ingredients]

theorem ingLookup_tqProjects {hash : Str → Str}
    {usfmLook : Str → Option LocalizedBookNames} {inFS : FS} {inDir outDir : Str}
    {opts : HOptions} {lang : Str} {k : Str} :
    ∀ (ps : List Project) {st st2 : ConvSt},
      (∀ q ∈ ps, k ≠ "ingredients/".data ++ tqDest inDir q) →
      tqProjects hash usfmLook inFS inDir outDir opts lang ps st = Except.ok st2 →
      lookupA st2.ingredients k = lookupA st.ingredients k
  | [], st, st2, _, h => by cases h; rfl
  | p :: ps, st, st2, hk, h => by
    unfold tqProjects at h
    cases hc : tqStep hash usfmLook inFS inDir outDir opts lang p st with
    | error e => rw [hc] at h; exact absurd h (by simp)
    | ok stA =>
      rw [hc] at h
      rw [ingLookup_tqProjects ps (fun q hq => hk q (List.mem_cons_of_mem _ hq)) h]
      exact ingLookup_tqStep (hk p (List.mem_cons_self _ _)) hc

theorem tqProjects_scopeIngredient {hash : Str → Str}
    {usfmLook : Str → Option LocalizedBookNames} {inFS : FS} {inDir outDir : Str}
    {opts : HOptions} {lang : Str} :
    ∀ (ps : List Project) {st st2 : ConvSt} {p : Project},
      tqProjects hash usfmLook inFS inDir outDir opts lang ps st = Except.ok st2 →
      p ∈ ps → (ps.map (tqDest inDir)).Nodup →
      statPath inFS (twlSrcPath inDir p) = true →
      ∃ ing : Ingredient,
        lookupA st2.ingredients ("ingredients/".data ++ tqDest inDir p) = some ing ∧
        ing.scope = some [codeFromProjectID (lowStr p.identifier)]
  | [], st, st2, p, h, hp, _, _ => absurd hp (by simp)
  | p0 :: ps, st, st2, p, h, hp, hnd, hstat => by
    unfold tqProjects at h
    cases hc : tqStep hash usfmLook inFS inDir outDir opts lang p0 st with
    | error e => rw [hc] at h; exact absurd h (by simp)
    | ok stA =>
      rw [hc] at h
      rcases List.mem_cons.mp hp with rfl | hp2
      · have hnotin : tqDest inDir p ∉ ps.map (tqDest inDir) :=
          (List.nodup_cons.mp hnd).1
        have hfr : ∀ q ∈ ps, ("ingredients/".data ++ tqDest inDir p) ≠
            ("ingredients/".data ++ tqDest inDir q) := by
          intro q hq he
          exact hnotin (List.append_cancel_left he ▸ List.mem_map_of_mem _ hq)
        rw [ingLookup_tqProjects ps hfr h]
        unfold tqStep at hc
        dsimp only at hc
        split at hc
        · rename_i hfalse
          rw [hstat] at hfalse
          exact absurd hfalse (by decide)
        · obtain ⟨c, _, rfl⟩ := copyFileWS_ok hc
          exact ⟨_, lookupA_cons_self _ _ _, rfl⟩
      · exact tqProjects_scopeIngredient ps h hp2 (List.nodup_cons.mp hnd).2 hstat

theorem tqConvert_scopeIngredient {hash : Str → Str}
    {usfmLook : Str → Option LocalizedBookNames} {manifest : Manifest}
    {inDir outDir : Str} {opts : HOptions} {inFS : FS} {st : ConvSt} {p : Project}
    (h : tqConvert hash usfmLook manifest inDir outDir opts inFS = Except.ok st)
    (hp : p ∈ manifest.projects)
    (hnd : (manifest.projects.map (tqDest inDir)).Nodup)
    (hstat : statPath inFS (twlSrcPath inDir p) = true)
    (hdest : tqDest inDir p ≠ "LICENSE.md".data) :
    ∃ ing : Ingredient,
      lookupA st.ingredients ("ingredients/".data ++ tqDest inDir p) = some ing ∧
      ing.scope = some [codeFromProjectID (lowStr p.identifier)] := by
  unfold tqConvert at h
  dsimp only at h
  cases h2 : tqProjects hash usfmLook inFS inDir outDir opts
      manifest.dublinCore.language.identifier manifest.projects emptySt with
  | error e => rw [h2] at h; exact absurd h (by simp)
  | ok s2 =>
  rw [h2] at h
  dsimp only at h
  cases h3 : copyCommonRootFiles hash inFS inDir outDir s2 with
  | error e => rw [h3] at h; exact absurd h (by simp)
  | ok s3 =>
  rw [h3] at h
  dsimp only at h
  rw [ingLookup_copyLicenseIngredient (ingKey_ne_licKey hdest) h,
    ingLookup_copyCommonRootFiles (ingKey_ne_readme _) (ingKey_ne_gitignore _)
      (fun rel => ingKey_ne_giteaTree _ rel) (fun rel => ingKey_ne_githubTree _ rel) h3]
  exact tqProjects_scopeIngredient _ h2 hp hnd hstat

/-!  Name-resolution lemmas for localizedNameEntryWithNames. -/

theorem lookupA_val_mem {α : Type} : ∀ {m : List (Str × α)} {k : Str} {v : α},
    lookupA m k = some v → v ∈ m.map (fun e => e.2)
  | [], k, v, h => by simp [lookupA, List.find?] at h
  | (a, w) :: m, k, v, h => by
    by_cases hak : k = a
    · subst hak
      rw [lookupA_cons_self] at h
      rw [List.map_cons]
      exact (Option.some.inj h) ▸ List.mem_cons_self _ _
    · rw [lookupA_cons_ne _ _ hak] at h
      exact List.mem_cons_of_mem _ (lookupA_val_mem h)

theorem lnwn_en_long {id projectTitle : Str} {u : LocalizedBookNames} {b : BookInfo}
    (hb : byID id = some b) :
    lookupA (localizedNameEntryWithNames id "en".data projectTitle (some u)).2.long
      "en".data = some (if u.long ≠ [] then u.long else b.long) := by
  unfold localizedNameEntryWithNames
  rw [hb]
  dsimp only
  rw [if_pos rfl]
  dsimp only
  by_cases hu : u.long ≠ []
  · rw [if_pos hu, if_pos hu]
    exact lookupA_cons_self _ _ _
  · rw [if_neg hu, if_neg hu]
    exact lookupA_cons_self _ _ _

theorem lnwn_nonen {id projectTitle lang : Str} {u : LocalizedBookNames} {b : BookInfo}
    (hb : byID id = some b) (hl : lang ≠ "en".data) :
    lookupA (localizedNameEntryWithNames id lang projectTitle (some u)).2.long "en".data
      = some b.long ∧
    (u.long ≠ [] →
      lookupA (localizedNameEntryWithNames id lang projectTitle (some u)).2.long lang
        = some u.long) ∧
    (u.long = [] → projectTitle ≠ [] →
      lookupA (localizedNameEntryWithNames id lang projectTitle (some u)).2.long lang
        = some projectTitle) := by
  unfold localizedNameEntryWithNames
  rw [hb]
  dsimp only
  rw [if_neg hl]
  dsimp only
  refine ⟨?_, ?_, ?_⟩
  · by_cases hll : (if u.long ≠ [] then u.long else projectTitle) ≠ []
    · rw [if_pos hll, lookupA_cons_ne _ _ (fun he => hl he.symm)]
      exact lookupA_cons_self _ _ _
    · rw [if_neg hll]
      exact lookupA_cons_self _ _ _
  · intro hu
    rw [if_pos hu, if_pos hu]
    exact lookupA_cons_self _ _ _
  · intro hu0 hpt
    have hu' : ¬ u.long ≠ [] := fun hne => hne hu0
    rw [if_neg hu', if_pos hpt]
    exact lookupA_cons_self _ _ _

theorem lnwn_nonen_short {id projectTitle lang : Str} {u : LocalizedBookNames}
    {b : BookInfo} (hb : byID id = some b) (hl : lang ≠ "en".data) :
    lookupA (localizedNameEntryWithNames id lang projectTitle (some u)).2.short "en".data
      = some b.short ∧
    (u.short ≠ [] →
      lookupA (localizedNameEntryWithNames id lang projectTitle (some u)).2.short lang
        = some u.short) ∧
    (u.short = [] → projectTitle ≠ [] →
      lookupA (localizedNameEntryWithNames id lang projectTitle (some u)).2.short lang
        = some projectTitle) := by
  unfold localizedNameEntryWithNames
  rw [hb]
  dsimp only
  rw [if_neg hl]
  dsimp only
  refine ⟨?_, ?_, ?_⟩
  · by_cases hll : (if u.short ≠ [] then u.short else projectTitle) ≠ []
    · rw [if_pos hll, lookupA_cons_ne _ _ (fun he => hl he.symm)]
      exact lookupA_cons_self _ _ _
    · rw [if_neg hll]
      exact lookupA_cons_self _ _ _
  · intro hu
    rw [if_pos hu, if_pos hu]
    exact lookupA_cons_self _ _ _
  · intro hu0 hpt
    have hu' : ¬ u.short ≠ [] := fun hne => hne hu0
    rw [if_neg hu', if_pos hpt]
    exact lookupA_cons_self _ _ _

theorem lnwn_en_short {id projectTitle : Str} {u : LocalizedBookNames} {b : BookInfo}
    (hb : byID id = some b) :
    lookupA (localizedNameEntryWithNames id "en".data projectTitle (some u)).2.short
      "en".data = some (if u.short ≠ [] then u.short else b.short) := by
  unfold localizedNameEntryWithNames
  rw [hb]
  dsimp only
  rw [if_pos rfl]
  dsimp only
  by_cases hu : u.short ≠ []
  · rw [if_pos hu, if_pos hu]
    exact lookupA_cons_self _ _ _
  · rw [if_neg hu, if_neg hu]
    exact lookupA_cons_self _ _ _

theorem lnwn_en_abbr {id projectTitle : Str} {u : LocalizedBookNames} {b : BookInfo}
    (hb : byID id = some b) :
    lookupA (localizedNameEntryWithNames id "en".data projectTitle (some u)).2.abbr
      "en".data = some (if u.abbr ≠ [] then u.abbr else b.abbr) := by
  unfold localizedNameEntryWithNames
  rw [hb]
  dsimp only
  rw [if_pos rfl]
  dsimp only
  by_cases hu : u.abbr ≠ []
  · rw [if_pos hu, if_pos hu]
    exact lookupA_cons_self _ _ _
  · rw [if_neg hu, if_neg hu]
    exact lookupA_cons_self _ _ _

theorem lnwn_nonen_abbr {id projectTitle lang : Str} {u : LocalizedBookNames}
    {b : BookInfo} (hb : byID id = some b) (hl : lang ≠ "en".data) :
    lookupA (localizedNameEntryWithNames id lang projectTitle (some u)).2.abbr "en".data
      = some b.abbr ∧
    (u.abbr ≠ [] →
      lookupA (localizedNameEntryWithNames id lang projectTitle (some u)).2.abbr lang
        = some u.abbr) ∧
    (u.abbr = [] →
      (localizedNameEntryWithNames id lang projectTitle (some u)).2.abbr
        = [("en".data, b.abbr)]) := by
  unfold localizedNameEntryWithNames
  rw [hb]
  dsimp only
  rw [if_neg hl]
  dsimp only
  refine ⟨?_, ?_, ?_⟩
  · by_cases hu : u.abbr ≠ []
    · rw [if_pos hu, lookupA_cons_ne _ _ (fun he => hl he.symm)]
      exact lookupA_cons_self _ _ _
    · rw [if_neg hu]
      exact lookupA_cons_self _ _ _
  · intro hu
    rw [if_pos hu]
    exact lookupA_cons_self _ _ _
  · intro hu0
    rw [if_neg (fun hne => hne hu0)]

theorem lnwn_abbr_title_free (id lang t1 t2 : Str) (un : Option LocalizedBookNames) :
    (localizedNameEntryWithNames id lang t1 un).2.abbr
      = (localizedNameEntryWithNames id lang t2 un).2.abbr := by
  unfold localizedNameEntryWithNames
  cases byID id with
  | none => rfl
  | some b =>
    dsimp only
    by_cases hl : lang = "en".data
    · simp only [if_pos hl]
    · rw [if_neg hl, if_neg hl]

/-!  The claims. -/

/-- Claim C1: for every conversion that returns a metadata record — any
of the four embedded strategies — every key of the record's ingredients
map denotes a file below the output directory whose byte size and
content hash equal the Size and Checksum of the recorded Ingredient. -/
theorem claim_C1 (hash : Str → Str) (usfmLook : Str → Option LocalizedBookNames)
    (manifest : Manifest) (inDir outDir : Str) (opts : HOptions) (inFS : FS) :
    (∀ st, twlConvert hash usfmLook manifest inDir outDir opts inFS = Except.ok st →
      IngOK hash outDir st) ∧
    (∀ st, tqConvert hash usfmLook manifest inDir outDir opts inFS = Except.ok st →
      IngOK hash outDir st) ∧
    (∀ st, bibleConvert hash manifest inDir outDir inFS = Except.ok st →
      IngOK hash outDir st) ∧
    (∀ st, obsConvert hash manifest inDir outDir inFS = Except.ok st →
      IngOK hash outDir st) :=
  ⟨fun _ h => (twlConvert_StInv h).1, fun _ h => (tqConvert_StInv h).1,
   fun _ h => (bibleConvert_StInv h).1, fun _ h => (obsConvert_StInv h).1⟩

/-- Witness for C1: the TSV Translation Questions strategy on a concrete
empty bundle records the default license ingredient, and the claim
instantiated there produces the on-disk bytes matching its record. -/
theorem claim_C1_witness :
    ∃ c, fsLookup (⟨[(joinPath "out".data "ingredients/LICENSE.md".data,
          defaultLicenseText)],
        [("ingredients/LICENSE.md".data,
          (⟨defaultLicenseText, "text/markdown".data, defaultLicenseText.length,
            none⟩ : Ingredient))], [], []⟩ : ConvSt).fs
        (joinPath "out".data "ingredients/LICENSE.md".data) = some c ∧
      (⟨defaultLicenseText, "text/markdown".data, defaultLicenseText.length,
        none⟩ : Ingredient).size = c.length ∧
      (⟨defaultLicenseText, "text/markdown".data, defaultLicenseText.length,
        none⟩ : Ingredient).md5 = (fun x : Str => x) c :=
  (claim_C1 (fun x => x) (fun _ => none)
      ⟨⟨[], [], ⟨[], "en".data, []⟩, [], [], [], []⟩, []⟩ "in".data "out".data
      ⟨[], []⟩ []).2.1
    (⟨[(joinPath "out".data "ingredients/LICENSE.md".data, defaultLicenseText)],
      [("ingredients/LICENSE.md".data,
        (⟨defaultLicenseText, "text/markdown".data, defaultLicenseText.length,
          none⟩ : Ingredient))], [], []⟩ : ConvSt) (by rfl)
    "ingredients/LICENSE.md".data
    (⟨defaultLicenseText, "text/markdown".data, defaultLicenseText.length,
      none⟩ : Ingredient) (by rfl)

/-- Claim C3 (amended): for the USFM Bible strategy, when the
destination ingredient keys of the manifest's projects are distinct,
every code of the returned record's currentScope is carried by the
scope of some recorded ingredient; the agreement does not extend to the
Open Bible Stories strategy, whose hardcoded GEN currentScope has no
scoped ingredient (see the counterexample). -/
theorem claim_C3 {hash : Str → Str} {manifest : Manifest} {inDir outDir : Str}
    {inFS : FS} {st : ConvSt}
    (h : bibleConvert hash manifest inDir outDir inFS = Except.ok st)
    (hnd : (manifest.projects.map
      (fun q => "ingredients/".data ++ bibleDest inDir q)).Nodup) :
    ∀ code ∈ st.currentScope, ∃ k ing l,
      lookupA st.ingredients k = some ing ∧ ing.scope = some l ∧ code ∈ l := by
  intro code hc
  obtain ⟨k, ing, l, h1, h2, h3, _, _, _⟩ := bibleConvert_ScopeOK h hnd code hc
  exact ⟨k, ing, l, h1, h2, h3⟩

/-- Witness for C3: a concrete one-book Bible conversion in which the
GEN code of currentScope is carried by the GEN.usfm ingredient. -/
theorem claim_C3_witness :
    ∃ k ing l, lookupA
      [("ingredients/LICENSE.md".data,
        (⟨defaultLicenseText, "text/markdown".data, defaultLicenseText.length,
          none⟩ : Ingredient)),
       ("ingredients/GEN.usfm".data,
        (⟨"usfm".data, "text/plain".data, 4, some ["GEN".data]⟩ : Ingredient))]
      k = some ing ∧ ing.scope = some l ∧ "GEN".data ∈ l :=
  @claim_C3 (fun x : Str => x)
    ⟨⟨[], [], ⟨[], "en".data, []⟩, [], [], [], []⟩,
     [⟨"gen".data, "./01-GEN.usfm".data, []⟩]⟩ "in".data "out".data
    [("in/01-GEN.usfm".data, "usfm".data)]
    ⟨[(joinPath "out".data "ingredients/LICENSE.md".data, defaultLicenseText),
      (joinPath "out".data "ingredients/GEN.usfm".data, "usfm".data)],
     [("ingredients/LICENSE.md".data,
       ⟨defaultLicenseText, "text/markdown".data, defaultLicenseText.length, none⟩),
      ("ingredients/GEN.usfm".data,
       ⟨"usfm".data, "text/plain".data, 4, some ["GEN".data]⟩)],
     [("book-gen".data,
       ⟨[("en".data, "Gen".data)], [("en".data, "Genesis".data)],
        [("en".data, "The Book of Genesis".data)]⟩)], ["GEN".data]⟩
    (by rfl) (by decide) "GEN".data (by decide)

/-- Counterexample for C3 as frozen: the Open Bible Stories conversion
returns GEN in currentScope while no recorded ingredient carries GEN —
its only ingredient, the license, has no scope. -/
theorem claim_C3_cex :
    obsConvert (fun x : Str => x)
      ⟨⟨[], [], ⟨[], "en".data, []⟩, [], [], [], []⟩,
       [⟨"obs".data, ".".data, []⟩]⟩ "in".data "out".data [] = Except.ok
      (⟨[(joinPath "out".data "ingredients/LICENSE.md".data, defaultLicenseText),
         (joinPath "out".data "LICENSE.md".data, defaultLicenseText)],
        [("ingredients/LICENSE.md".data,
          (⟨defaultLicenseText, "text/markdown".data, defaultLicenseText.length,
            none⟩ : Ingredient))], [], ["GEN".data]⟩ : ConvSt) ∧
    "GEN".data ∈ (["GEN".data] : List Str) ∧
    ¬ (∃ k ing l, lookupA
        [("ingredients/LICENSE.md".data,
          (⟨defaultLicenseText, "text/markdown".data, defaultLicenseText.length,
            none⟩ : Ingredient))] k = some ing ∧
        ing.scope = some l ∧ "GEN".data ∈ l) := by
  refine ⟨rfl, by decide, ?_⟩
  rintro ⟨k, ing, l, hk, hsc, _⟩
  have hv := lookupA_val_mem hk
  have hing : ing = ⟨defaultLicenseText, "text/markdown".data,
      defaultLicenseText.length, none⟩ := by simpa using hv
  rw [hing] at hsc
  have h0 : (none : Option (List Str)) = some l := hsc
  exact Option.noConfusion h0

/-- Claim C4 (amended): the payload link rewrite is a byte-identical
no-op on a tabular file in which no line matches the link pattern,
provided no carriage return sits directly before a newline or at the
end of the input; with such a carriage return the scanner drops the
byte even when there is no token to replace (see the counterexample),
so the frozen claim's unconditional idempotence on token-free files
does not hold. -/
theorem claim_C4 {s : Str} (hcr : hasSensitiveCR s = false)
    (hnm : ∀ l ∈ scanLines s, lineMatches l = false) : rewriteTSV s = s :=
  rewriteTSV_id hcr hnm

/-- Witness for C4: a concrete two-line token-free tabular file passes
through the rewrite unchanged. -/
theorem claim_C4_witness : rewriteTSV "a\tb\nc\n".data = "a\tb\nc\n".data :=
  claim_C4 (by decide) (by decide)

/-- Counterexample for C4 as frozen: the file x CR LF has no line
matching the pattern and no occurrence of the token scheme, yet the
rewrite returns x LF, which differs from the input. -/
theorem claim_C4_cex :
    (∀ l ∈ scanLines "x\r\n".data, lineMatches l = false) ∧
    countSub rcPat "x\r\n".data = 0 ∧
    rewriteTSV "x\r\n".data = "x\n".data ∧
    ("x\n".data : Str) ≠ "x\r\n".data :=
  ⟨by decide, by decide, by decide, by decide⟩

/-- Claim C5: for a tabular file assembled from lines of which N carry
an embedded reference token in the last column after a tab (and the
rest are free of the token scheme and the payload prefix), the input
contains exactly N occurrences of the scheme prefix, and the rewritten
output is the same file with each token line's tab and token replaced
by a tab and ./payload/category/article.md — so the output contains
zero occurrences of the scheme and exactly N occurrences of
./payload/. -/
theorem claim_C5 {ds : List LineDesc} (hne : ds ≠ []) (hOK : ∀ d ∈ ds, descOK d) :
    rewriteTSV (mkFile (ds.map descLine)) = mkFile (ds.map descRewritten) ∧
    countSub rcPat (mkFile (ds.map descLine)) = ds.countP (fun d => descIsToken d) ∧
    countSub rcPat (rewriteTSV (mkFile (ds.map descLine))) = 0 ∧
    countSub payloadPat (rewriteTSV (mkFile (ds.map descLine))) =
      ds.countP (fun d => descIsToken d) := by
  have hrw := rewriteTSV_mkFile hne hOK
  refine ⟨hrw, ?_, ?_, ?_⟩
  · rw [countSub_mkFile (by decide) (by decide), sum_counts_rc_input hOK]
  · rw [hrw, countSub_mkFile (by decide) (by decide), sum_counts_rc hOK]
  · rw [hrw, countSub_mkFile (by decide) (by decide), sum_counts_payload hOK]

/-- Witness for C5: a three-line file with two token lines in distinct
rows rewrites to the payload form with counts 2, 0 and 2. -/
theorem claim_C5_witness :
    rewriteTSV (mkFile (([LineDesc.token "Gen\t1:1\tid1".data "en".data "kt".data
        "god".data,
      LineDesc.plain "Gen\t1:2\tid2\tnote".data,
      LineDesc.token "Gen\t1:3\tid3".data "en".data "names".data "adam".data]).map
        descLine)) =
      mkFile (([LineDesc.token "Gen\t1:1\tid1".data "en".data "kt".data "god".data,
        LineDesc.plain "Gen\t1:2\tid2\tnote".data,
        LineDesc.token "Gen\t1:3\tid3".data "en".data "names".data "adam".data]).map
          descRewritten) ∧
    countSub rcPat (mkFile (([LineDesc.token "Gen\t1:1\tid1".data "en".data "kt".data
        "god".data,
      LineDesc.plain "Gen\t1:2\tid2\tnote".data,
      LineDesc.token "Gen\t1:3\tid3".data "en".data "names".data "adam".data]).map
        descLine)) =
      ([LineDesc.token "Gen\t1:1\tid1".data "en".data "kt".data "god".data,
        LineDesc.plain "Gen\t1:2\tid2\tnote".data,
        LineDesc.token "Gen\t1:3\tid3".data "en".data "names".data
          "adam".data]).countP (fun d => descIsToken d) ∧
    countSub rcPat (rewriteTSV (mkFile (([LineDesc.token "Gen\t1:1\tid1".data
        "en".data "kt".data "god".data,
      LineDesc.plain "Gen\t1:2\tid2\tnote".data,
      LineDesc.token "Gen\t1:3\tid3".data "en".data "names".data "adam".data]).map
        descLine))) = 0 ∧
    countSub payloadPat (rewriteTSV (mkFile (([LineDesc.token "Gen\t1:1\tid1".data
        "en".data "kt".data "god".data,
      LineDesc.plain "Gen\t1:2\tid2\tnote".data,
      LineDesc.token "Gen\t1:3\tid3".data "en".data "names".data "adam".data]).map
        descLine))) =
      ([LineDesc.token "Gen\t1:1\tid1".data "en".data "kt".data "god".data,
        LineDesc.plain "Gen\t1:2\tid2\tnote".data,
        LineDesc.token "Gen\t1:3\tid3".data "en".data "names".data
          "adam".data]).countP (fun d => descIsToken d) :=
  claim_C5 (by decide) (by decide)

/-- Claim C6: for the TSV Translation Words Links strategy, when the
caller supplied no payload override and the auto-detected
language-tag-named payload directory does not exist in the bundle
(and the projects' destination names are distinct and none collides
with the license name), every output tabular file of a completed
conversion is byte-identical to its source file. -/
theorem claim_C6 {hash : Str → Str} {usfmLook : Str → Option LocalizedBookNames}
    {manifest : Manifest} {inDir outDir : Str} {opts : HOptions} {inFS : FS}
    {st : ConvSt}
    (_hopt : opts.payloadPath = [])
    (hdir : statPath inFS (twlPayloadDir manifest inDir opts) = false)
    (h : twlConvert hash usfmLook manifest inDir outDir opts inFS = Except.ok st)
    (hnd : (manifest.projects.map (twlDest inDir)).Nodup)
    (hld : ∀ p ∈ manifest.projects, twlDest inDir p ≠ "LICENSE.md".data) :
    ∀ p ∈ manifest.projects, ∃ c,
      fsLookup inFS (twlSrcPath inDir p) = some c ∧
      fsLookup st.fs (joinPath outDir ("ingredients/".data ++ twlDest inDir p)) =
        some c := by
  intro p hp
  unfold twlConvert at h
  dsimp only at h
  rw [hdir] at h
  rw [if_neg (by decide)] at h
  dsimp only at h
  cases h2 : twlProjects hash usfmLook inFS inDir outDir opts
      manifest.dublinCore.language.identifier false manifest.projects emptySt with
  | error e => rw [h2] at h; exact absurd h (by simp)
  | ok s2 =>
  rw [h2] at h
  dsimp only at h
  cases h3 : copyCommonRootFiles hash inFS inDir outDir s2 with
  | error e => rw [h3] at h; exact absurd h (by simp)
  | ok s3 =>
  rw [h3] at h
  dsimp only at h
  obtain ⟨c, hsrc, hout⟩ := twlProjects_nopayload_content manifest.projects h2 p hp hnd
  refine ⟨c, hsrc, ?_⟩
  rw [frame_copyLicenseIngredient (ingKey_ne_licKey (hld p hp)) h,
    frame_copyCommonRootFiles (ingKey_ne_readme _) (ingKey_ne_gitignore _)
      (fun rel => ingKey_ne_giteaTree _ rel) (fun rel => ingKey_ne_githubTree _ rel) h3]
  exact hout

/-- Witness for C6: a concrete one-project bundle with no payload
directory; the output ingredient file carries exactly the source bytes,
reference token included. -/
theorem claim_C6_witness :
    ∃ c, fsLookup [("in/twl_GEN.tsv".data,
        "x\trc://en/tw/dict/bible/kt/god\n".data)]
      (twlSrcPath "in".data ⟨"gen".data, "./twl_GEN.tsv".data, []⟩) = some c ∧
    fsLookup
      [(joinPath "out".data "ingredients/LICENSE.md".data, defaultLicenseText),
       (joinPath "out".data "ingredients/GEN.tsv".data,
        "x\trc://en/tw/dict/bible/kt/god\n".data)]
      (joinPath "out".data ("ingredients/".data ++
        twlDest "in".data ⟨"gen".data, "./twl_GEN.tsv".data, []⟩)) = some c :=
  @claim_C6 (fun x : Str => x) (fun _ => none)
    ⟨⟨[], [], ⟨[], "en".data, []⟩, [], [], [], []⟩,
     [⟨"gen".data, "./twl_GEN.tsv".data, []⟩]⟩ "in".data "out".data ⟨[], []⟩
    [("in/twl_GEN.tsv".data, "x\trc://en/tw/dict/bible/kt/god\n".data)]
    ⟨[(joinPath "out".data "ingredients/LICENSE.md".data, defaultLicenseText),
      (joinPath "out".data "ingredients/GEN.tsv".data,
       "x\trc://en/tw/dict/bible/kt/god\n".data)],
     [("ingredients/LICENSE.md".data,
       ⟨defaultLicenseText, "text/markdown".data, defaultLicenseText.length, none⟩),
      ("ingredients/GEN.tsv".data,
       ⟨"x\trc://en/tw/dict/bible/kt/god\n".data, "text/tab-separated-values".data,
        "x\trc://en/tw/dict/bible/kt/god\n".data.length, some ["GEN".data]⟩)],
     [("book-gen".data,
       ⟨[("en".data, "Gen".data)], [("en".data, "Genesis".data)],
        [("en".data, "The Book of Genesis".data)]⟩)], ["GEN".data]⟩
    (by rfl) (by rfl) (by rfl) (by decide) (by decide)
    ⟨"gen".data, "./twl_GEN.tsv".data, []⟩ (by decide)

/-- Claim C7: name resolution for a recognized content-unit identifier
obeys the priority chain with the English/non-English asymmetry in
every name slot: for the en target tag a non-empty markup-derived
value overwrites the canonical default in the single en bucket for the
long, short and abbreviation slots alike; for a non-en tag the long and
short slots populate a separate bucket under that tag (markup value
first, caller title as fallback) and the abbreviation slot takes only
the markup value, while the en bucket keeps all three canonical
defaults; and the caller-supplied title never reaches the abbreviation
slot. -/
theorem claim_C7 {id lang projectTitle : Str} {u : LocalizedBookNames} {b : BookInfo}
    (hb : byID id = some b) :
    (lang = "en".data →
      lookupA (localizedNameEntryWithNames id lang projectTitle (some u)).2.long
        "en".data = some (if u.long ≠ [] then u.long else b.long) ∧
      lookupA (localizedNameEntryWithNames id lang projectTitle (some u)).2.short
        "en".data = some (if u.short ≠ [] then u.short else b.short) ∧
      lookupA (localizedNameEntryWithNames id lang projectTitle (some u)).2.abbr
        "en".data = some (if u.abbr ≠ [] then u.abbr else b.abbr)) ∧
    (lang ≠ "en".data →
      lookupA (localizedNameEntryWithNames id lang projectTitle (some u)).2.long
        "en".data = some b.long ∧
      (u.long ≠ [] →
        lookupA (localizedNameEntryWithNames id lang projectTitle (some u)).2.long
          lang = some u.long) ∧
      (u.long = [] → projectTitle ≠ [] →
        lookupA (localizedNameEntryWithNames id lang projectTitle (some u)).2.long
          lang = some projectTitle)) ∧
    (lang ≠ "en".data →
      lookupA (localizedNameEntryWithNames id lang projectTitle (some u)).2.short
        "en".data = some b.short ∧
      (u.short ≠ [] →
        lookupA (localizedNameEntryWithNames id lang projectTitle (some u)).2.short
          lang = some u.short) ∧
      (u.short = [] → projectTitle ≠ [] →
        lookupA (localizedNameEntryWithNames id lang projectTitle (some u)).2.short
          lang = some projectTitle)) ∧
    (lang ≠ "en".data →
      lookupA (localizedNameEntryWithNames id lang projectTitle (some u)).2.abbr
        "en".data = some b.abbr ∧
      (u.abbr ≠ [] →
        lookupA (localizedNameEntryWithNames id lang projectTitle (some u)).2.abbr
          lang = some u.abbr) ∧
      (u.abbr = [] →
        (localizedNameEntryWithNames id lang projectTitle (some u)).2.abbr
          = [("en".data, b.abbr)])) ∧
    (∀ t1 t2 : Str, ∀ un : Option LocalizedBookNames,
      (localizedNameEntryWithNames id lang t1 un).2.abbr
        = (localizedNameEntryWithNames id lang t2 un).2.abbr) := by
  refine ⟨?_, ?_, ?_, ?_, ?_⟩
  · intro hl
    subst hl
    exact ⟨lnwn_en_long hb, lnwn_en_short hb, lnwn_en_abbr hb⟩
  · intro hl
    exact lnwn_nonen hb hl
  · intro hl
    exact lnwn_nonen_short hb hl
  · intro hl
    exact lnwn_nonen_abbr hb hl
  · intro t1 t2 un
    exact lnwn_abbr_title_free id lang t1 t2 un

/-- Witness for C7: the canonical identifier gen at the non-English tag
fr with markup names present: the fr bucket carries the markup long and
abbreviation values while the en bucket keeps the canonical long,
short and abbreviation defaults. -/
theorem claim_C7_witness :
    lookupA (localizedNameEntryWithNames "gen".data "fr".data "T".data
        (some ⟨"G1".data, "G2".data, "G3".data⟩)).2.long "en".data
      = some "The Book of Genesis".data ∧
    lookupA (localizedNameEntryWithNames "gen".data "fr".data "T".data
        (some ⟨"G1".data, "G2".data, "G3".data⟩)).2.long "fr".data
      = some "G1".data ∧
    lookupA (localizedNameEntryWithNames "gen".data "fr".data "T".data
        (some ⟨"G1".data, "G2".data, "G3".data⟩)).2.short "en".data
      = some "Genesis".data ∧
    lookupA (localizedNameEntryWithNames "gen".data "fr".data "T".data
        (some ⟨"G1".data, "G2".data, "G3".data⟩)).2.abbr "en".data
      = some "Gen".data ∧
    lookupA (localizedNameEntryWithNames "gen".data "fr".data "T".data
        (some ⟨"G1".data, "G2".data, "G3".data⟩)).2.abbr "fr".data
      = some "G3".data := by
  have h := @claim_C7 "gen".data "fr".data "T".data ⟨"G1".data, "G2".data, "G3".data⟩
    ⟨"gen".data, "GEN".data, 1, "Gen".data, "Genesis".data,
     "The Book of Genesis".data⟩ (by rfl)
  exact ⟨(h.2.1 (by decide)).1, (h.2.1 (by decide)).2.1 (by decide),
    (h.2.2.1 (by decide)).1, (h.2.2.2.1 (by decide)).1,
    (h.2.2.2.1 (by decide)).2.1 (by decide)⟩

/-- Claim C8: copyright-statement construction uses exactly the two
fixed templates selected by the boolean flag — the narrative-content
variant Copyright © year by publisher when the flag is true and
© publisher year, rights when it is false — where the year is the
issued-date string truncated to its first four characters with no
parsing or validation, so every issued string (malformed or shorter
than four characters included) yields its prefix and never an error. -/
theorem claim_C8 (m : Manifest) :
    buildCopyright m true = ⟨[⟨"Copyright © ".data ++ m.dublinCore.issued.take 4 ++
      " by ".data ++ m.dublinCore.publisher, [], []⟩]⟩ ∧
    buildCopyright m false = ⟨[⟨"© ".data ++ m.dublinCore.publisher ++ " ".data ++
      m.dublinCore.issued.take 4 ++ ", ".data ++ m.dublinCore.rights,
      "text/plain".data, "en".data⟩]⟩ := by
  have hyear : (if 4 ≤ m.dublinCore.issued.length then m.dublinCore.issued.take 4
      else m.dublinCore.issued) = m.dublinCore.issued.take 4 := by
    by_cases h4 : 4 ≤ m.dublinCore.issued.length
    · rw [if_pos h4]
    · rw [if_neg h4]
      exact (List.take_of_length_le (by omega)).symm
  constructor
  · unfold buildCopyright
    dsimp only
    rw [if_pos rfl, hyear]
  · unfold buildCopyright
    dsimp only
    rw [if_neg (by decide), hyear]

/-- Claim C9: the registry round-trip — the supported subjects are the
fourteen registered names in ascending byte order, looking any of them
up returns the strategy declaring exactly that subject, and a lookup of
an unregistered subject returns the error message carrying the sorted
supported list rather than a strategy. -/
theorem claim_C9 :
    supportedSubjects = ["Aligned Bible".data, "Bible".data,
      "Greek New Testament".data, "Hebrew Old Testament".data,
      "Open Bible Stories".data, "TSV OBS Study Notes".data,
      "TSV OBS Study Questions".data, "TSV OBS Translation Notes".data,
      "TSV OBS Translation Questions".data, "TSV Translation Notes".data,
      "TSV Translation Questions".data, "TSV Translation Words Links".data,
      "Translation Academy".data, "Translation Words".data] ∧
    List.Pairwise (fun a b => strLtB a b = true) supportedSubjects ∧
    List.all supportedSubjects (fun s =>
      match lookupHandler s with
      | Except.ok h => h.subject == s
      | Except.error _ => false) = true ∧
    (∀ s, lookupA registry s = none →
      lookupHandler s = Except.error ("unsupported subject ".data ++ quoteQ s ++
        "; supported subjects: ".data ++ joinComma supportedSubjects)) := by
  refine ⟨by decide, by decide, by decide, ?_⟩
  intro s hnone
  unfold lookupHandler
  rw [hnone]
  rfl

/-- Claim C10: a project identifier that is no canonical content-unit
identifier derives its code as the uppercased identifier — never an
error or an empty value for a nonempty identifier — and the TSV
Translation Questions strategy inserts that uppercase string into the
returned currentScope and into the scope of the project's own
ingredient, while every localized-name entry of the record still names
a canonical book, so none was created for this identifier. -/
theorem claim_C10 {hash : Str → Str} {usfmLook : Str → Option LocalizedBookNames}
    {manifest : Manifest} {inDir outDir : Str} {opts : HOptions} {inFS : FS}
    {st : ConvSt} {p : Project}
    (h : tqConvert hash usfmLook manifest inDir outDir opts inFS = Except.ok st)
    (hp : p ∈ manifest.projects)
    (hstat : statPath inFS (twlSrcPath inDir p) = true)
    (hb : byID (lowStr p.identifier) = none)
    (hnd : (manifest.projects.map (tqDest inDir)).Nodup)
    (hdest : tqDest inDir p ≠ "LICENSE.md".data) :
    codeFromProjectID (lowStr p.identifier) = upStr (lowStr p.identifier) ∧
    codeFromProjectID (lowStr p.identifier) ∈ st.currentScope ∧
    (∃ ing : Ingredient,
      lookupA st.ingredients ("ingredients/".data ++ tqDest inDir p) = some ing ∧
      ing.scope = some [codeFromProjectID (lowStr p.identifier)]) ∧
    LNOK st := by
  refine ⟨?_, tqConvert_scopeMem h hp hstat,
    tqConvert_scopeIngredient h hp hnd hstat hdest, tqConvert_LNOK h⟩
  unfold codeFromProjectID
  rw [hb]

/-- Witness for C10: the non-canonical identifier xyz of a concrete
one-project bundle becomes the key XYZ of currentScope and of its
ingredient's scope, and the record holds no localized-name entry. -/
theorem claim_C10_witness :
    codeFromProjectID (lowStr "xyz".data) = upStr (lowStr "xyz".data) ∧
    codeFromProjectID (lowStr "xyz".data) ∈ (["XYZ".data] : List Str) ∧
    (∃ ing : Ingredient, lookupA
        [("ingredients/LICENSE.md".data,
          (⟨defaultLicenseText, "text/markdown".data, defaultLicenseText.length,
            none⟩ : Ingredient)),
         ("ingredients/XYZ.tsv".data,
          (⟨"q".data, "text/tab-separated-values".data, 1,
            some ["XYZ".data]⟩ : Ingredient))]
        ("ingredients/".data ++ tqDest "in".data ⟨"xyz".data, "./tq_XYZ.tsv".data, []⟩)
        = some ing ∧
      ing.scope = some [codeFromProjectID (lowStr "xyz".data)]) ∧
    LNOK (⟨[(joinPath "out".data "ingredients/LICENSE.md".data, defaultLicenseText),
        (joinPath "out".data "ingredients/XYZ.tsv".data, "q".data)],
       [("ingredients/LICENSE.md".data,
         ⟨defaultLicenseText, "text/markdown".data, defaultLicenseText.length,
          none⟩),
        ("ingredients/XYZ.tsv".data,
         ⟨"q".data, "text/tab-separated-values".data, 1, some ["XYZ".data]⟩)],
       [], ["XYZ".data]⟩ : ConvSt) :=
  @claim_C10 (fun x : Str => x) (fun _ => none)
    ⟨⟨[], [], ⟨[], "en".data, []⟩, [], [], [], []⟩,
     [⟨"xyz".data, "./tq_XYZ.tsv".data, []⟩]⟩ "in".data "out".data ⟨[], []⟩
    [("in/tq_XYZ.tsv".data, "q".data)]
    ⟨[(joinPath "out".data "ingredients/LICENSE.md".data, defaultLicenseText),
      (joinPath "out".data "ingredients/XYZ.tsv".data, "q".data)],
     [("ingredients/LICENSE.md".data,
       ⟨defaultLicenseText, "text/markdown".data, defaultLicenseText.length, none⟩),
      ("ingredients/XYZ.tsv".data,
       ⟨"q".data, "text/tab-separated-values".data, 1, some ["XYZ".data]⟩)],
     [], ["XYZ".data]⟩
    ⟨"xyz".data, "./tq_XYZ.tsv".data, []⟩
    (by rfl) (by decide) (by rfl) (by rfl) (by decide) (by decide)

end RC2SB
